import Mathlib

/-!
# LZP ("PPP" style) codec of grtamayo/lzpgt

A shallow embedding of `compress_LZP` and `decompress_LZP` of `lzpgt2.c`
(scalar bit reader; `lzpgt.c` is the same code at `WBITS = 20`) and of
`lzpgt7.c` (bulk bit reader; `lzpgt6.c` is the same code at `WBITS = 21`).

Conventions.
* A byte is a natural number below 256; byte sequences are `List Nat`.
* `int` values are naturals standing for their 32-bit pattern; the only
  place where a 32-bit computation can wrap is the hash update, which is
  reduced modulo `2 ^ 32` explicitly.
* The block size `PPP_BLOCKSIZE = 1 << PPP_BLOCKBITS` is a parameter `BB`
  (15 in `lzpgt.c`/`lzpgt2.c`, 20 in `lzpgt6.c`/`lzpgt7.c`).
* The input file is the list of its bytes: `fread(p, 1, PPP_BLOCKSIZE, gIN)`
  takes the next `PPP_BLOCKSIZE` bytes, or all that is left.
* The bit I/O layer (`gtbitio2.c`, `gtbitio3.c`) is not part of the sources;
  its operations are modelled from the specification, sections 4.2 and 4.3.
  The byte buffers with their flush and refill are abstracted to the byte
  sequence written so far and the byte sequence not yet read. A read past
  the end of the payload, where the C code goes on with whatever its buffer
  holds, is the result `none`.
* `Lzpgt7.Buffered` models the bulk decoder a second time, on the input
  buffer itself, with the refill statements as `lzpgt7.c` writes them; it
  shows what follows a read past the end of the payload, and it is proved
  to follow the decoder on the byte sequence as long as bytes are left
  (`Lzpgt7.Buffered.decompress_sim`).
* Of `main`, the option processing and the writing of the file stamp are
  modelled. The C library's `atoi` is a parameter, and so is the content of
  the memory under the local variable `fstamp`, which `main` does not
  initialise.
-/

namespace Lzpgt

/-! ## Bit output stream (specification 4.2) -/

/-- Modelled from the spec: the state of BitOutStream of `gtbitio2.c` /
`gtbitio3.c`, which is not among the sources. `out` is every byte committed
so far (buffer and sink together), `cur` the accumulator, the byte being
assembled, and `p_cnt` the bit count within it. -/
structure PutBuf where
  out : List Nat
  cur : Nat
  p_cnt : Nat

/-- Modelled from the spec: `init_put_buffer` of the missing bit I/O layer;
nothing written, a zeroed accumulator, bit count 0. -/
def init_put_buffer : PutBuf := ⟨[], 0, 0⟩

/-- Modelled from the spec: the step `advance_buf` of the missing bit I/O
layer, which follows each bit: `p_cnt++`; when `p_cnt == 8` the accumulator
is committed to the buffer, a new accumulator is zeroed and `p_cnt` resets. -/
def advance_buf (s : PutBuf) : PutBuf :=
  if s.p_cnt + 1 = 8 then ⟨s.out ++ [s.cur], 0, 0⟩ else ⟨s.out, s.cur, s.p_cnt + 1⟩

/-- Modelled from the spec: `put_ONE` of the missing bit I/O layer sets bit
`p_cnt` of the accumulator, then counts the bit. -/
def put_ONE (s : PutBuf) : PutBuf :=
  advance_buf ⟨s.out, s.cur ||| (1 <<< s.p_cnt), s.p_cnt⟩

/-- Modelled from the spec: `put_ZERO` of the missing bit I/O layer leaves
the bit clear, then counts the bit. -/
def put_ZERO (s : PutBuf) : PutBuf := advance_buf s

/-- Modelled from the spec: `pfputc` of the missing bit I/O layer writes one
byte to the buffer directly, bypassing the accumulator. -/
def pfputc (s : PutBuf) (c : Nat) : PutBuf := ⟨s.out ++ [c], s.cur, s.p_cnt⟩

/-- The statement pair `p_cnt = 7; advance_buf();` of `compress_LZP`, the
forced advance: with `p_cnt` set to 7 the step commits the accumulator,
partially filled as it is, and resets `p_cnt` to 0, which is what the
specification asks of `advance()`. -/
def force_advance (s : PutBuf) : PutBuf := advance_buf ⟨s.out, s.cur, 7⟩

/-- Modelled from the spec: `flush_put_buffer` of the missing bit I/O layer,
which `main` calls after `compress_LZP` and after `decompress_LZP`: it
commits a partial accumulator, if there is one, and writes the buffer to the
sink. The result is every byte that reaches the output file (the file stamp
aside). -/
def flush_put_buffer (s : PutBuf) : List Nat :=
  if 0 < s.p_cnt then s.out ++ [s.cur] else s.out

/-! ## Predictor table and context hash -/

/-- The table size `ppp_WSIZE = 1 << ppp_WBITS` (`lzpgt2.c:99`). -/
def ppp_WSIZE (WBITS : Nat) : Nat := 1 <<< WBITS

/-- The table mask `ppp_WMASK = ppp_WSIZE - 1` (`lzpgt2.c:100`). -/
def ppp_WMASK (WBITS : Nat) : Nat := ppp_WSIZE WBITS - 1

/-- The hash update `prev = ((prev<<5)+c) & ppp_WMASK`, the sum taken in
32-bit arithmetic. -/
def update_hash (WBITS prev c : Nat) : Nat :=
  (((prev <<< 5) + c) % 2 ^ 32) &&& ppp_WMASK WBITS

/-- The assignment `w[prev] = c`. -/
def store (w : Nat → Nat) (prev c : Nat) : Nat → Nat :=
  fun i => if i = prev then c else w i

/-- The table after `memset( win_buf, 0, ppp_WSIZE )`. -/
def zero_table : Nat → Nat := fun _ => 0

/-- The block size `PPP_BLOCKSIZE = 1 << PPP_BLOCKBITS`. -/
def PPP_BLOCKSIZE (BB : Nat) : Nat := 1 <<< BB

/-! ## Encoder -/

/-- The variables of `compress_LZP`: the table `w`, the context `prev`, the
recorded mismatched bytes `cbuf[0..b)`, the bit output stream, and the two
header counters. -/
structure EncState where
  w : Nat → Nat
  prev : Nat
  cbuf : List Nat
  put : PutBuf
  ppp_nblocks : Int
  ppp_lastblocksize : Int

/-- One turn of the inner loop `while ( n < nread )` of `compress_LZP` on
the byte `c = p[n]`. -/
def encode_byte (WBITS : Nat) (s : EncState) (c : Nat) : EncState :=
  if s.w s.prev = c then
    { s with put := put_ONE s.put, prev := update_hash WBITS s.prev c }
  else
    { s with put := put_ZERO s.put, w := store s.w s.prev c,
             cbuf := s.cbuf ++ [c], prev := update_hash WBITS s.prev c }

/-- The inner loop `while ( n < nread )` over the block `p[0..nread)`. -/
def encode_bytes (WBITS : Nat) (s : EncState) (p : List Nat) : EncState :=
  p.foldl (encode_byte WBITS) s

/-- The loop `for ( i = 0; i < b; i++ ) pfputc( cbuf[i] );`. -/
def write_mismatched (s : PutBuf) (cbuf : List Nat) : PutBuf :=
  cbuf.foldl pfputc s

/-! ## Bit input stream (specification 4.3) -/

/-- Modelled from the spec: the state of BitInStream of `gtbitio2.c` /
`gtbitio3.c`, which is not among the sources. `gbuf` is the payload from the
current byte on (its head is `*gbuf`, the current byte) and `g_cnt` the bit
count within the current byte. -/
structure GetBuf where
  gbuf : List Nat
  g_cnt : Nat

/-- Modelled from the spec: `init_get_buffer` of the missing bit I/O layer on
a payload: the first byte is current, bit count 0. -/
def init_get_buffer (payload : List Nat) : GetBuf := ⟨payload, 0⟩

/-- Modelled from the spec: the step `advance_gbuf` of the missing bit I/O
layer, which follows each bit read, the mirror of `advance_buf`: `g_cnt++`;
when `g_cnt` reaches 8 the next byte becomes current and `g_cnt` resets. -/
def advance_gbuf (g : GetBuf) : GetBuf :=
  if g.g_cnt + 1 = 8 then ⟨g.gbuf.tail, 0⟩ else ⟨g.gbuf, g.g_cnt + 1⟩

/-- Modelled from the spec: `get_bit` of the missing bit I/O layer returns
bit `g_cnt` of the current byte and counts the bit. `none` stands for a read
past the end of the payload. -/
def get_bit (g : GetBuf) : Option (Bool × GetBuf) :=
  match g.gbuf with
  | [] => none
  | cur :: _ => some (cur.testBit g.g_cnt, advance_gbuf g)

/-- Modelled from the spec: `gfgetc` of the missing bit I/O layer returns the
current byte and moves to the next. `none` stands for a read past the end of
the payload. -/
def gfgetc (g : GetBuf) : Option (Nat × GetBuf) :=
  match g.gbuf with
  | [] => none
  | cur :: rest => some (cur, ⟨rest, g.g_cnt⟩)

/-- The statement pair `g_cnt = 7; advance_gbuf();` of `decompress_LZP`: with
`g_cnt` set to 7 the step drops the remaining bits of the current byte and
moves to the next, which is what the specification asks of `advance()`. -/
def force_advance_gbuf (g : GetBuf) : GetBuf := advance_gbuf ⟨g.gbuf, 7⟩

/-! ## Decoder state -/

/-- The variables of `decompress_LZP`: the table `w`, the context `prev`,
the last byte `c`, the bit input stream and the output stream. -/
structure DecState where
  w : Nat → Nat
  prev : Nat
  c : Nat
  get : GetBuf
  put : PutBuf

end Lzpgt

namespace Lzpgt2

open Lzpgt

/-- What follows the inner loop in the body of the outer loop of
`compress_LZP` (`lzpgt2.c:181-200`), for a block of `nread` bytes. -/
def finish_block (BB : Nat) (s : EncState) (nread : Nat) : EncState :=
  if nread = PPP_BLOCKSIZE BB then
    { s with put := write_mismatched s.put s.cbuf, cbuf := [],
             ppp_nblocks := s.ppp_nblocks + 1 }
  else if nread < PPP_BLOCKSIZE BB then
    let put1 := if 0 < s.put.p_cnt ∧ s.put.p_cnt < 8 then force_advance s.put else s.put
    { s with put := write_mismatched put1 s.cbuf, ppp_lastblocksize := nread }
  else s

/-- The outer loop `while ( (nread=fread(p, 1, PPP_BLOCKSIZE, gIN)) )` of
`compress_LZP`; `input` is what is left of the file. Every turn consumes at
least one byte, so `fuel = input.length` turns are enough. -/
def compress_loop (BB WBITS : Nat) : Nat → EncState → List Nat → EncState
  | 0, s, _ => s
  | fuel + 1, s, input =>
    let p := input.take (PPP_BLOCKSIZE BB)
    let nread := p.length
    if nread = 0 then s
    else
      compress_loop BB WBITS fuel
        (finish_block BB (encode_bytes WBITS s p) nread) (input.drop (PPP_BLOCKSIZE BB))

/-- The function `compress_LZP( w, p )` of `lzpgt2.c` on the input file
`input`, from the table `w` and the bit output stream `put`. -/
def compress_LZP (BB WBITS : Nat) (w : Nat → Nat) (put : PutBuf) (input : List Nat) :
    EncState :=
  compress_loop BB WBITS input.length ⟨w, 0, [], put, 0, 0⟩ input

/-- The payload that `main` of `lzpgt2.c` writes after the file stamp when it
compresses the input file `X` (`lzpgt2.c:84`, `109`, `115`, `125`):
`init_put_buffer()`, `memset( win_buf, 0, ppp_WSIZE )`,
`compress_LZP( win_buf, pattern )`, `flush_put_buffer()`. -/
def payload (BB WBITS : Nat) (X : List Nat) : List Nat :=
  flush_put_buffer (compress_LZP BB WBITS zero_table init_put_buffer X).put

/-- The loop `for ( i = 0; i < n; i++ )` that fills `bbuf[0..n)` with one
`get_bit()` each (`lzpgt2.c:210-213` and `231-234`). -/
def get_bits : Nat → GetBuf → Option (List Nat × GetBuf)
  | 0, g => some ([], g)
  | n + 1, g =>
    match get_bit g with
    | none => none
    | some (bit, g1) =>
      match get_bits n g1 with
      | none => none
      | some (bbuf, g2) => some ((if bit then 1 else 0) :: bbuf, g2)

/-- One turn of the loop "Output bytes" of `decompress_LZP` on the entry
`bbuf[i] = b`. -/
def output_byte (WBITS : Nat) (s : DecState) (b : Nat) : Option DecState :=
  if b = 1 then
    let c := s.w s.prev
    some { s with c := c, put := pfputc s.put c, prev := update_hash WBITS s.prev c }
  else
    match gfgetc s.get with
    | none => none
    | some (c, g1) =>
      some { s with c := c, get := g1, put := pfputc s.put c, w := store s.w s.prev c,
                    prev := update_hash WBITS s.prev c }

/-- The loop "Output bytes" over `bbuf[0..n)` (`lzpgt2.c:216-225` and
`242-251`). -/
def output_bytes (WBITS : Nat) : List Nat → DecState → Option DecState
  | [], s => some s
  | b :: bbuf, s =>
    match output_byte WBITS s b with
    | none => none
    | some s1 => output_bytes WBITS bbuf s1

/-- The body of the loop over the full blocks (`lzpgt2.c:209-225`). -/
def decode_block (BB WBITS : Nat) (s : DecState) : Option DecState :=
  match get_bits (PPP_BLOCKSIZE BB) s.get with
  | none => none
  | some (bbuf, g1) => output_bytes WBITS bbuf { s with get := g1 }

/-- The loop `while ( ppp_nblocks-- )` run `n` times. -/
def decode_blocks (BB WBITS : Nat) : Nat → DecState → Option DecState
  | 0, s => some s
  | n + 1, s =>
    match decode_block BB WBITS s with
    | none => none
    | some s1 => decode_blocks BB WBITS n s1

/-- The last block (`lzpgt2.c:229-252`). -/
def decode_last (WBITS : Nat) (ppp_lastblocksize : Int) (s : DecState) : Option DecState :=
  if 0 < ppp_lastblocksize then
    match get_bits ppp_lastblocksize.toNat s.get with
    | none => none
    | some (bbuf, g1) =>
      let g2 := if 0 < g1.g_cnt ∧ g1.g_cnt < 8 then force_advance_gbuf g1 else g1
      output_bytes WBITS bbuf { s with get := g2 }
  else some s

/-- The function `decompress_LZP( w )` of `lzpgt2.c` for the header counters
`ppp_nblocks` and `ppp_lastblocksize`, from the table `w`, the bit input
stream `get` and the output stream `put`. `none` stands for a read past
the end of the payload. -/
def decompress_LZP (BB WBITS : Nat) (ppp_nblocks ppp_lastblocksize : Int)
    (w : Nat → Nat) (get : GetBuf) (put : PutBuf) : Option DecState :=
  let s0 : DecState := ⟨w, 0, 0, get, put⟩
  match (if 0 < ppp_nblocks then decode_blocks BB WBITS ppp_nblocks.toNat s0 else some s0) with
  | none => none
  | some s1 => decode_last WBITS ppp_lastblocksize s1

end Lzpgt2

namespace Lzpgt7

open Lzpgt

/-- What follows the inner loop in the body of the outer loop of
`compress_LZP` (`lzpgt7.c:184-202`), for a block of `nread` bytes. -/
def finish_block (BB : Nat) (s : EncState) (nread : Nat) : EncState :=
  if nread = PPP_BLOCKSIZE BB then
    { s with put := write_mismatched s.put s.cbuf, ppp_nblocks := s.ppp_nblocks + 1 }
  else if nread < PPP_BLOCKSIZE BB then
    let put1 := if 0 < s.put.p_cnt ∧ s.put.p_cnt < 8 then force_advance s.put else s.put
    { s with put := write_mismatched put1 s.cbuf, ppp_lastblocksize := nread }
  else s

/-- The outer loop `while ( (nread=fread(p, 1, PPP_BLOCKSIZE, gIN)) )` of
`compress_LZP` of `lzpgt7.c`, which empties the queue of mismatched bytes
(`ca = cend = cbuf`) at the start of every block. -/
def compress_loop (BB WBITS : Nat) : Nat → EncState → List Nat → EncState
  | 0, s, _ => s
  | fuel + 1, s, input =>
    let p := input.take (PPP_BLOCKSIZE BB)
    let nread := p.length
    if nread = 0 then s
    else
      compress_loop BB WBITS fuel
        (finish_block BB (encode_bytes WBITS { s with cbuf := [] } p) nread)
        (input.drop (PPP_BLOCKSIZE BB))

/-- The function `compress_LZP( w, p )` of `lzpgt7.c` on the input file
`input`, from the table `w` and the bit output stream `put`. -/
def compress_LZP (BB WBITS : Nat) (w : Nat → Nat) (put : PutBuf) (input : List Nat) :
    EncState :=
  compress_loop BB WBITS input.length ⟨w, 0, [], put, 0, 0⟩ input

/-- The payload that `main` of `lzpgt7.c` writes after the file stamp when it
compresses the input file `X` (`lzpgt7.c:85`, `110`, `116`, `126`):
`init_put_buffer()`, `memset( win_buf, 0, ppp_WSIZE )`,
`compress_LZP( win_buf, pattern )`, `flush_put_buffer()`. -/
def payload (BB WBITS : Nat) (X : List Nat) : List Nat :=
  flush_put_buffer (compress_LZP BB WBITS zero_table init_put_buffer X).put

/-- The statements `*gbuf++` with the refill that follows them
(`lzpgt7.c:214-220`, `228-234`): the current byte is taken and the next
becomes current. `none` stands for a read past the end of the payload. -/
def next_byte (g : GetBuf) : Option (Nat × GetBuf) :=
  match g.gbuf with
  | [] => none
  | cur :: rest => some (cur, ⟨rest, g.g_cnt⟩)

/-- The loop `for ( i = 0; i < n; i++ ) *gbstart++ = *gbuf++;` that copies
`n` bytes of the bit vector into `gb`. -/
def copy_bits : Nat → GetBuf → Option (List Nat × GetBuf)
  | 0, g => some ([], g)
  | n + 1, g =>
    match next_byte g with
    | none => none
    | some (x, g1) =>
      match copy_bits n g1 with
      | none => none
      | some (gb, g2) => some (x :: gb, g2)

/-- One turn of the loop that tests the bits of `gb`; `gbstart` is `gb` from
the byte under test on. -/
def mask_byte (WBITS : Nat) (gbstart : List Nat) (s : DecState) :
    Option (List Nat × DecState) :=
  let test := gbstart.headD 0 &&& (1 <<< s.get.g_cnt)
  let g0 : GetBuf := ⟨s.get.gbuf, s.get.g_cnt + 1⟩
  let r : Option DecState :=
    if test ≠ 0 then
      let c := s.w s.prev
      some { s with c := c, get := g0, put := pfputc s.put c }
    else
      match next_byte g0 with
      | none => none
      | some (c, g1) =>
        some { s with c := c, get := g1, w := store s.w s.prev c, put := pfputc s.put c }
  match r with
  | none => none
  | some s1 =>
    let s2 := { s1 with prev := update_hash WBITS s1.prev s1.c }
    if s2.get.g_cnt = 8 then
      some (gbstart.tail, { s2 with get := ⟨s2.get.gbuf, 0⟩ })
    else some (gbstart, s2)

/-- The loop `for ( i = 0; i < n; i++ )` that tests the bits of `gb`
(`lzpgt7.c:223-242` and `259-278`). -/
def mask_bytes (WBITS : Nat) : Nat → List Nat → DecState → Option DecState
  | 0, _, s => some s
  | n + 1, gbstart, s =>
    match mask_byte WBITS gbstart s with
    | none => none
    | some (gbstart1, s1) => mask_bytes WBITS n gbstart1 s1

/-- The body of the loop over the full blocks (`lzpgt7.c:212-242`). -/
def decode_block (BB WBITS : Nat) (s : DecState) : Option DecState :=
  match copy_bits (PPP_BLOCKSIZE BB / 8) s.get with
  | none => none
  | some (gb, g1) => mask_bytes WBITS (PPP_BLOCKSIZE BB) gb { s with get := g1 }

/-- The loop `while ( ppp_nblocks-- )` run `n` times. -/
def decode_blocks (BB WBITS : Nat) : Nat → DecState → Option DecState
  | 0, s => some s
  | n + 1, s =>
    match decode_block BB WBITS s with
    | none => none
    | some s1 => decode_blocks BB WBITS n s1

/-- The last block (`lzpgt7.c:246-279`). -/
def decode_last (WBITS : Nat) (ppp_lastblocksize : Int) (s : DecState) : Option DecState :=
  if 0 < ppp_lastblocksize then
    match copy_bits (ppp_lastblocksize.toNat / 8) s.get with
    | none => none
    | some (gb, g1) =>
      let more : Option (List Nat × GetBuf) :=
        if ppp_lastblocksize.toNat % 8 ≠ 0 then
          match gfgetc g1 with
          | none => none
          | some (x, g2) => some (gb ++ [x], g2)
        else some (gb, g1)
      match more with
      | none => none
      | some (gb1, g2) => mask_bytes WBITS ppp_lastblocksize.toNat gb1 { s with get := g2 }
  else some s

/-- The function `decompress_LZP( w )` of `lzpgt7.c` for the header counters
`ppp_nblocks` and `ppp_lastblocksize`, from the table `w`, the bit input
stream `get` and the output stream `put`. `none` stands for a read past
the end of the payload. -/
def decompress_LZP (BB WBITS : Nat) (ppp_nblocks ppp_lastblocksize : Int)
    (w : Nat → Nat) (get : GetBuf) (put : PutBuf) : Option DecState :=
  let s0 : DecState := ⟨w, 0, 0, get, put⟩
  match (if 0 < ppp_nblocks then decode_blocks BB WBITS ppp_nblocks.toNat s0 else some s0) with
  | none => none
  | some s1 => decode_last WBITS ppp_lastblocksize s1

end Lzpgt7

namespace Lzpgt

/-! ## Auxiliary functions for the proofs -/

/-- A run of `put_ONE` (for `true`) and `put_ZERO` (for `false`). -/
def put_bits (s : PutBuf) (bs : List Bool) : PutBuf :=
  bs.foldl (fun t b => if b then put_ONE t else put_ZERO t) s

/-- The value of a byte whose bits, least significant first, are `bs`. -/
def pack_byte : List Bool → Nat
  | [] => 0
  | b :: bs => b.toNat + 2 * pack_byte bs

/-- The first `k` bytes of the bit vector `bs` packed LSB-first, eight bits
to a byte, the last byte padded with zero bits. -/
def pack_bits : Nat → List Bool → List Nat
  | 0, _ => []
  | k + 1, bs => pack_byte (bs.take 8) :: pack_bits k (bs.drop 8)

/-- The hit/miss bits that the inner loop of `compress_LZP` emits for the
block `p` from the table `w` and the context `prev`. -/
def hits (WBITS : Nat) : (Nat → Nat) → Nat → List Nat → List Bool
  | _, _, [] => []
  | w, prev, c :: p =>
    decide (w prev = c) :: hits WBITS (store w prev c) (update_hash WBITS prev c) p

/-- The mismatched bytes that the inner loop of `compress_LZP` records for
the block `p` from the table `w` and the context `prev`. -/
def misses (WBITS : Nat) : (Nat → Nat) → Nat → List Nat → List Nat
  | _, _, [] => []
  | w, prev, c :: p =>
    if w prev = c then misses WBITS (store w prev c) (update_hash WBITS prev c) p
    else c :: misses WBITS (store w prev c) (update_hash WBITS prev c) p

/-- The table after the bytes `p` from the table `w` and the context `prev`. -/
def table_after (WBITS : Nat) : (Nat → Nat) → Nat → List Nat → (Nat → Nat)
  | w, _, [] => w
  | w, prev, c :: p => table_after WBITS (store w prev c) (update_hash WBITS prev c) p

/-- The context after the bytes `p` from the context `prev`. -/
def hash_after (WBITS : Nat) : Nat → List Nat → Nat
  | prev, [] => prev
  | prev, c :: p => hash_after WBITS (update_hash WBITS prev c) p

/-- The bytes of one block in the payload: the packed bit vector, then the
mismatched bytes. -/
def block_bytes (WBITS : Nat) (w : Nat → Nat) (prev : Nat) (p : List Nat) : List Nat :=
  pack_bits ((p.length + 7) / 8) (hits WBITS w prev p) ++ misses WBITS w prev p

/-- The `n` bits read from the bytes `l`, starting at bit `k` of the first. -/
def unpack : Nat → List Nat → Nat → List Bool
  | 0, _, _ => []
  | n + 1, l, k =>
    (l.headD 0).testBit k :: (if k + 1 = 8 then unpack n l.tail 0 else unpack n l (k + 1))

/-- The payload that the outer loop of `compress_LZP` writes for `input`
from the table `w` and the context `prev`: block after block, the bytes of
the block. -/
def stream (BB WBITS : Nat) : Nat → (Nat → Nat) → Nat → List Nat → List Nat
  | 0, _, _, _ => []
  | fuel + 1, w, prev, input =>
    let p := input.take (PPP_BLOCKSIZE BB)
    if p.length = 0 then []
    else
      block_bytes WBITS w prev p ++
        stream BB WBITS fuel (table_after WBITS w prev p) (hash_after WBITS prev p)
          (input.drop (PPP_BLOCKSIZE BB))

/-- What a decoder state shows once decoding is over: everything but the
bit count `g_cnt`, which no later step reads. -/
def DecState.view (s : DecState) : (Nat → Nat) × Nat × Nat × List Nat × PutBuf :=
  (s.w, s.prev, s.c, s.get.gbuf, s.put)

/-- Bit `i`, bits counted LSB-first from the first byte, of the bit section
that starts at byte `off` of `payload`. -/
def payload_bit (payload : List Nat) (off i : Nat) : Bool :=
  (payload.getD (off + i / 8) 0).testBit (i % 8)

/-- The first `n` bits of the bit section that starts at byte `off` of
`payload`. -/
def read_bits (payload : List Nat) (off n : Nat) : List Bool :=
  (List.range n).map (payload_bit payload off)

/-- Block `k` of the input `X`: what the `k`-th `fread` of `compress_LZP`
returns (`k` counted from 0). -/
def block (BB : Nat) (X : List Nat) (k : Nat) : List Nat :=
  (X.drop (k * PPP_BLOCKSIZE BB)).take (PPP_BLOCKSIZE BB)

end Lzpgt

namespace Lzpgt2

open Lzpgt

/-- The state of `compress_LZP` when it has consumed the first `k` blocks of
`X`, from an all-zero table: its run on the first `k * PPP_BLOCKSIZE` bytes. -/
def block_start (BB WBITS : Nat) (X : List Nat) (k : Nat) : EncState :=
  compress_LZP BB WBITS zero_table init_put_buffer (X.take (k * PPP_BLOCKSIZE BB))

end Lzpgt2

namespace Lzpgt

/-- The number of 0 bits among the eight bits of the byte `x`. -/
def zero_bits_of_byte (x : Nat) : Nat :=
  (List.range 8).countP (fun j => !x.testBit j)

/-- The number of blocks of the input `X`, that is of `fread` calls of
`compress_LZP` that return data: the full blocks, and the trailing block
when there is one. -/
def num_blocks (BB : Nat) (X : List Nat) : Nat :=
  X.length / PPP_BLOCKSIZE BB + (if X.length % PPP_BLOCKSIZE BB = 0 then 0 else 1)

end Lzpgt

namespace Lzpgt2

open Lzpgt

/-- The bit section of block `k` in the payload of `X`: the bytes that
`compress_LZP` commits from its accumulator for the block, which are the
`ceil(nread / 8)` bytes that follow what was written for the first `k`
blocks. -/
def bit_section (BB WBITS : Nat) (X : List Nat) (k : Nat) : List Nat :=
  ((payload BB WBITS X).drop (block_start BB WBITS X k).put.out.length).take
    (((block BB X k).length + 7) / 8)

/-- The number of 0 bits in the payload bit stream of `X`: every bit of
every byte of the bit section of every block. -/
def payload_zero_bits (BB WBITS : Nat) (X : List Nat) : Nat :=
  ((List.range (num_blocks BB X)).map
    (fun k => ((bit_section BB WBITS X k).map zero_bits_of_byte).sum)).sum

/-- The number of literal bytes written to the payload of `X`: for every
block, the number `b` of mismatched bytes recorded in `cbuf` when the inner
loop ends, each of which the loop `for ( i = 0; i < b; i++ )` writes with
`pfputc`. -/
def payload_literals (BB WBITS : Nat) (X : List Nat) : Nat :=
  ((List.range (num_blocks BB X)).map
    (fun k => (encode_bytes WBITS (block_start BB WBITS X k) (block BB X k)).cbuf.length)).sum

end Lzpgt2
namespace Lzpgt

/-! ## The program entry: options and the file stamp -/

/-- The two modes of `main`: `COMPRESS` and `DECOMPRESS`. -/
inductive Mode where
  | COMPRESS
  | DECOMPRESS
  deriving DecidableEq

/-- The record `file_stamp` of `lzpgt2.c` and `lzpgt7.c`: the eight
characters of `alg` and the three counters. -/
structure file_stamp where
  alg : List Nat
  ppp_nblocks : Int
  ppp_lastblocksize : Int
  ppp_WBITS : Int
  deriving DecidableEq

/-- The C library call `strcpy( dst, src )` on the character array `dst`: the
characters of `src` and the terminating NUL replace the first
`src.length + 1` characters, the rest of the array is left as it was. -/
def strcpy (dst src : List Nat) : List Nat :=
  src ++ [0] ++ dst.drop (src.length + 1)

/-- The characters of the tag `"LZPGT2"` that `lzpgt2.c` copies into the
stamp. -/
def tag_LZPGT2 : List Nat := [0x4C, 0x5A, 0x50, 0x47, 0x54, 0x32]

/-- The characters of the tag `"LZPGT7"` that `lzpgt7.c` copies into the
stamp. -/
def tag_LZPGT7 : List Nat := [0x4C, 0x5A, 0x50, 0x47, 0x54, 0x37]

end Lzpgt

namespace Lzpgt2

open Lzpgt

/-- The option processing of `main` in `lzpgt2.c` on the first argument
`argv[1]` (its characters before the terminating NUL): the mode and the
value of `ppp_WBITS` with which `main` goes on, or `none` where it calls
`usage()`, which exits.  The C library function `atoi` is a parameter; it is
called only on a non-empty `&argv[1][1]`.  In mode `DECOMPRESS` the global
`ppp_WBITS` still holds its initial 0 here; it is read from the stamp
later. -/
def process_options (atoi : List Char → Int) (argv1 : List Char) : Option (Mode × Int) :=
  match argv1 with
  | [] => none
  | a :: s =>
    if a = 'c' then
      let ppp_WBITS : Int := if s = [] then 20 else atoi s
      if s.head? = some '0' ∨ ppp_WBITS = 0 then none
      else if ppp_WBITS < 15 then some (Mode.COMPRESS, 15)
      else if ppp_WBITS > 30 then some (Mode.COMPRESS, 30)
      else some (Mode.COMPRESS, ppp_WBITS)
    else if a = 'd' then
      if s ≠ [] then none else some (Mode.DECOMPRESS, 0)
    else none

/-- The output file of `main` of `lzpgt2.c` in mode `COMPRESS`: the stamp
record that the second `fwrite( &fstamp, ... )` leaves at the head of the
file, and the payload after it.  `fstamp` is what the local variable
`fstamp`, which `main` declares without an initialiser, holds when `main`
starts.  `main` assigns `alg` by `strcpy` before the first `fwrite` and the
three counters after `compress_LZP`; the second `fwrite` follows a `rewind`
and overwrites the whole record written by the first. -/
def main_COMPRESS (BB : Nat) (fstamp : file_stamp) (ppp_WBITS : Int) (X : List Nat) :
    file_stamp × List Nat :=
  let fstamp1 : file_stamp := { fstamp with alg := strcpy fstamp.alg tag_LZPGT2 }
  let e := compress_LZP BB ppp_WBITS.toNat zero_table init_put_buffer X
  let fstamp2 : file_stamp :=
    { fstamp1 with ppp_nblocks := e.ppp_nblocks,
                   ppp_lastblocksize := e.ppp_lastblocksize,
                   ppp_WBITS := ppp_WBITS }
  (fstamp2, flush_put_buffer e.put)

end Lzpgt2

namespace Lzpgt7

open Lzpgt

/-- The C library call `tolower` on the characters that matter to the
option processing. -/
def tolower (a : Char) : Char := a.toLower

/-- The option processing of `main` in `lzpgt7.c`: as in `lzpgt2.c`, with
the first character of `argv[1]` passed through `tolower`. -/
def process_options (atoi : List Char → Int) (argv1 : List Char) : Option (Mode × Int) :=
  match argv1 with
  | [] => none
  | a :: s =>
    if tolower a = 'c' then
      let ppp_WBITS : Int := if s = [] then 20 else atoi s
      if s.head? = some '0' ∨ ppp_WBITS = 0 then none
      else if ppp_WBITS < 15 then some (Mode.COMPRESS, 15)
      else if ppp_WBITS > 30 then some (Mode.COMPRESS, 30)
      else some (Mode.COMPRESS, ppp_WBITS)
    else if tolower a = 'd' then
      if s ≠ [] then none else some (Mode.DECOMPRESS, 0)
    else none

end Lzpgt7
namespace Lzpgt

/-! ## The context hash in 32-bit arithmetic -/

/-- The value of `(prev<<5)+c` over the integers, before any wraparound and
before the mask. -/
def hash_sum (prev c : Nat) : Nat := (prev <<< 5) + c

/-- The value that a 32-bit two's-complement `int` holds for the integer
`x`: the one congruent to `x` modulo `2 ^ 32` in `[-2 ^ 31, 2 ^ 31)`. -/
def int32 (x : Int) : Int := (x + 2 ^ 31) % 2 ^ 32 - 2 ^ 31

/-- The statement `prev = ((prev<<5)+c) & ppp_WMASK` evaluated on 32-bit
two's-complement `int`s: the shift and the sum wrap around, and `&` is the
bitwise AND of the two's-complement bit patterns (`Int.land`). -/
def update_hash_int32 (WBITS : Nat) (prev c : Int) : Int :=
  Int.land (int32 (int32 (prev * 2 ^ 5) + c)) (ppp_WMASK WBITS : Int)

end Lzpgt
namespace Lzpgt

/-- The sum `c_n * 32 ^ 0 + c_(n-1) * 32 ^ 1 + ... + c_1 * 32 ^ (n-1)` for
the byte sequence `cs = c_1 .. c_n`, over the integers. -/
def context_sum (cs : List Nat) : Nat :=
  ((List.range cs.length).map (fun k => cs.getD (cs.length - 1 - k) 0 * 32 ^ k)).sum

end Lzpgt
namespace Lzpgt

/-! ## The runs of the encoder and of the scalar decoder, state by state -/

/-- The stream states in which the loop
`for ( i = 0; i < b; i++ ) pfputc( cbuf[i] );` calls `pfputc`, from the
stream state `s`. -/
def pfputc_calls (s : PutBuf) : List Nat → List PutBuf
  | [] => []
  | c :: cbuf => s :: pfputc_calls (pfputc s c) cbuf

/-- The table, the context and the bytes consumed so far at the head of each
turn of the encoder's inner loop over the bytes `p`, from the table `w`,
the context `prev` and the consumed bytes `done`. -/
def enc_views (WBITS : Nat) : (Nat → Nat) → Nat → List Nat → List Nat →
    List ((Nat → Nat) × Nat × List Nat)
  | _, _, _, [] => []
  | w, prev, done, c :: p =>
    (w, prev, done) ::
      enc_views WBITS (store w prev c) (update_hash WBITS prev c) (done ++ [c]) p

/-- The table, the context and the bytes written so far in a state of the
decoder. -/
def DecState.predictor (s : DecState) : (Nat → Nat) × Nat × List Nat :=
  (s.w, s.prev, s.put.out)

end Lzpgt

namespace Lzpgt2

open Lzpgt

/-- The state of `compress_LZP` on the input `X` when it has consumed the
first `i` bytes: in the body of the outer loop for block `i / B`, after
`i % B` turns of the inner loop. -/
def encoder_at (BB WBITS : Nat) (X : List Nat) (i : Nat) : EncState :=
  encode_bytes WBITS (block_start BB WBITS X (i / PPP_BLOCKSIZE BB))
    ((block BB X (i / PPP_BLOCKSIZE BB)).take (i % PPP_BLOCKSIZE BB))

/-- The stream state in which `compress_LZP` enters the loop that writes the
mismatched bytes of a block of `nread` bytes (`lzpgt2.c:182-199`): the state
`s.put` the inner loop ended in, after the forced advance in a short
block. -/
def literal_put (BB : Nat) (s : EncState) (nread : Nat) : PutBuf :=
  if nread = PPP_BLOCKSIZE BB then s.put
  else if 0 < s.put.p_cnt ∧ s.put.p_cnt < 8 then force_advance s.put else s.put

/-- The loop "Output bytes" of `decompress_LZP` with the states at the head
of each of its turns: those states in order, and the result of the loop
(`output_bytes`). -/
def output_trace (WBITS : Nat) : List Nat → DecState → List DecState × Option DecState
  | [], s => ([], some s)
  | b :: bbuf, s =>
    match output_byte WBITS s b with
    | none => ([s], none)
    | some s1 => (s :: (output_trace WBITS bbuf s1).1, (output_trace WBITS bbuf s1).2)

/-- The body of the loop over the full blocks with the states at the head of
each turn of "Output bytes". -/
def block_trace (BB WBITS : Nat) (s : DecState) : List DecState × Option DecState :=
  match get_bits (PPP_BLOCKSIZE BB) s.get with
  | none => ([], none)
  | some (bbuf, g1) => output_trace WBITS bbuf { s with get := g1 }

/-- The loop `while ( ppp_nblocks-- )` run `n` times, with the states at the
head of each turn of "Output bytes". -/
def blocks_trace (BB WBITS : Nat) : Nat → DecState → List DecState × Option DecState
  | 0, s => ([], some s)
  | n + 1, s =>
    match (block_trace BB WBITS s).2 with
    | none => ((block_trace BB WBITS s).1, none)
    | some s1 =>
      ((block_trace BB WBITS s).1 ++ (blocks_trace BB WBITS n s1).1,
        (blocks_trace BB WBITS n s1).2)

/-- The last block with the states at the head of each turn of "Output
bytes". -/
def last_trace (WBITS : Nat) (ppp_lastblocksize : Int) (s : DecState) :
    List DecState × Option DecState :=
  if 0 < ppp_lastblocksize then
    match get_bits ppp_lastblocksize.toNat s.get with
    | none => ([], none)
    | some (bbuf, g1) =>
      let g2 := if 0 < g1.g_cnt ∧ g1.g_cnt < 8 then force_advance_gbuf g1 else g1
      output_trace WBITS bbuf { s with get := g2 }
  else ([], some s)

/-- The function `decompress_LZP( w )` of `lzpgt2.c` with the states at the
head of each turn of its two loops "Output bytes": those states in order,
and the result of `decompress_LZP`. -/
def decompress_trace (BB WBITS : Nat) (ppp_nblocks ppp_lastblocksize : Int)
    (w : Nat → Nat) (get : GetBuf) (put : PutBuf) : List DecState × Option DecState :=
  let s0 : DecState := ⟨w, 0, 0, get, put⟩
  let r := if 0 < ppp_nblocks then blocks_trace BB WBITS ppp_nblocks.toNat s0 else ([], some s0)
  match r.2 with
  | none => (r.1, none)
  | some s1 => (r.1 ++ (last_trace WBITS ppp_lastblocksize s1).1,
      (last_trace WBITS ppp_lastblocksize s1).2)

/-- The states of `decompress_LZP` after it has written 0, 1, 2, ... bytes:
the states at the head of each turn of "Output bytes", then the state it
returns in if it does. -/
def decompress_states (BB WBITS : Nat) (ppp_nblocks ppp_lastblocksize : Int)
    (w : Nat → Nat) (get : GetBuf) (put : PutBuf) : List DecState :=
  (decompress_trace BB WBITS ppp_nblocks ppp_lastblocksize w get put).1 ++
    (decompress_trace BB WBITS ppp_nblocks ppp_lastblocksize w get put).2.toList

end Lzpgt2
namespace Lzpgt

/-- The bit input stream `g` with the bytes `e` appended to its payload. -/
def GetBuf.extend (g : GetBuf) (e : List Nat) : GetBuf := ⟨g.gbuf ++ e, g.g_cnt⟩

/-- The decoder state `s` with the bytes `e` appended to the payload that is
left to read. -/
def DecState.extend (s : DecState) (e : List Nat) : DecState :=
  { s with get := s.get.extend e }

end Lzpgt
namespace Lzpgt7.Buffered

open Lzpgt

/-! ## The bulk decoder of `lzpgt7.c` with its input buffer

`decompress_LZP` of `lzpgt7.c` reads the payload with the statements
`*gbuf++` and the refill `fread ( gbuf, 1, gBUFSIZE, gIN )` written out in
the function itself.  This section models those statements on the buffer
they work on, so that it shows what the function does when the file ends
before the payload does; the section above abstracts the buffer to the
sequence of payload bytes. -/

/-- The input buffer of the bit I/O layer: `mem i` is the byte
`gbuf_start[i]`, `gbuf` and `gbuf_end` are the offsets of the pointers of
that name from `gbuf_start`, `nfread` is the size of the last read, `gIN`
holds the bytes of the file that have not been read, and `g_cnt` is the bit
count. -/
structure GIn where
  mem : Nat → Nat
  gbuf : Nat
  gbuf_end : Nat
  nfread : Nat
  gIN : List Nat
  g_cnt : Nat

/-- The C library call `fread( gbuf_start, 1, gBUFSIZE, gIN )`: it moves
`min(gBUFSIZE, bytes left)` bytes of the file to the start of the buffer and
returns their number; the buffer keeps its content beyond them. -/
def fread (gBUFSIZE : Nat) (mem : Nat → Nat) (gIN : List Nat) :
    (Nat → Nat) × Nat × List Nat :=
  let n := min gBUFSIZE gIN.length
  (fun i => if i < n then gIN.getD i 0 else mem i, n, gIN.drop n)

/-- Modelled from the spec: `init_get_buffer()` is defined in the bit I/O
file `gtbitio3.c`, which is not part of the sources under study.  Spec 4.3:
"a byte buffer filled by bulk reads from the source, a read cursor, an
end-of-valid cursor ... and `g_cnt`".  The first bulk read fills the buffer
with the bytes of the file after the stamp; `mem` is what the buffer held
before. -/
def init_get_buffer (gBUFSIZE : Nat) (mem : Nat → Nat) (file : List Nat) : GIn :=
  ⟨(fread gBUFSIZE mem file).1, 0, (fread gBUFSIZE mem file).2.1,
    (fread gBUFSIZE mem file).2.1, (fread gBUFSIZE mem file).2.2, 0⟩

/-- The statements `*gbuf++` and
`if ( gbuf == gbuf_end ) { gbuf = gbuf_start; nfread = fread ( gbuf, 1,
gBUFSIZE, gIN ); gbuf_end = gbuf + nfread; }` (`lzpgt7.c:214-220`,
`228-234`, `249-255`, `264-270`).  The refill does not test `nfread`: when
the file has ended, `gbuf_end` becomes `gbuf_start` and the next read takes
the byte at `gbuf_start` again.  `none` stands for a read outside the
`gBUFSIZE` bytes of the buffer, which C leaves undefined. -/
def next_byte (gBUFSIZE : Nat) (g : GIn) : Option (Nat × GIn) :=
  if g.gbuf < gBUFSIZE then
    if g.gbuf + 1 = g.gbuf_end then
      some (g.mem g.gbuf,
        { g with gbuf := 0, mem := (fread gBUFSIZE g.mem g.gIN).1,
                 nfread := (fread gBUFSIZE g.mem g.gIN).2.1,
                 gbuf_end := (fread gBUFSIZE g.mem g.gIN).2.1,
                 gIN := (fread gBUFSIZE g.mem g.gIN).2.2 })
    else some (g.mem g.gbuf, { g with gbuf := g.gbuf + 1 })
  else none

/-- Modelled from the spec: the macro `gfgetc` is defined in `gtbitio3.c`,
which is not part of the sources under study.  Spec 4.3: `get_byte()`
returns the next whole byte of the buffer; "When the buffer empties, refill
from the source; if the source returns zero bytes mid-stream, this is a
truncation error" (the result `none`).  With the refill made as soon as the
last byte of the buffer is taken, the buffer is empty at a call only when
the file has ended. -/
def gfgetc (gBUFSIZE : Nat) (g : GIn) : Option (Nat × GIn) :=
  if g.gbuf = g.gbuf_end then none else next_byte gBUFSIZE g

/-- The state of `decompress_LZP` with the input buffer. -/
structure DecState where
  w : Nat → Nat
  prev : Nat
  c : Nat
  get : GIn
  put : PutBuf

/-- The loop `for ( i = 0; i < n; i++ ) *gbstart++ = *gbuf++;` that copies
`n` bytes of the bit vector into `gb`. -/
def copy_bits (gBUFSIZE : Nat) : Nat → GIn → Option (List Nat × GIn)
  | 0, g => some ([], g)
  | n + 1, g =>
    match next_byte gBUFSIZE g with
    | none => none
    | some (x, g1) =>
      match copy_bits gBUFSIZE n g1 with
      | none => none
      | some (gb, g2) => some (x :: gb, g2)

/-- One turn of the loop that tests the bits of `gb`; `gbstart` is `gb` from
the byte under test on. -/
def mask_byte (gBUFSIZE WBITS : Nat) (gbstart : List Nat) (s : DecState) :
    Option (List Nat × DecState) :=
  let test := gbstart.headD 0 &&& (1 <<< s.get.g_cnt)
  let g0 : GIn := { s.get with g_cnt := s.get.g_cnt + 1 }
  let r : Option DecState :=
    if test ≠ 0 then
      let c := s.w s.prev
      some { s with c := c, get := g0, put := pfputc s.put c }
    else
      match next_byte gBUFSIZE g0 with
      | none => none
      | some (c, g1) =>
        some { s with c := c, get := g1, w := store s.w s.prev c, put := pfputc s.put c }
  match r with
  | none => none
  | some s1 =>
    let s2 := { s1 with prev := update_hash WBITS s1.prev s1.c }
    if s2.get.g_cnt = 8 then
      some (gbstart.tail, { s2 with get := { s2.get with g_cnt := 0 } })
    else some (gbstart, s2)

/-- The loop `for ( i = 0; i < n; i++ )` that tests the bits of `gb`
(`lzpgt7.c:223-242` and `259-278`). -/
def mask_bytes (gBUFSIZE WBITS : Nat) : Nat → List Nat → DecState → Option DecState
  | 0, _, s => some s
  | n + 1, gbstart, s =>
    match mask_byte gBUFSIZE WBITS gbstart s with
    | none => none
    | some (gbstart1, s1) => mask_bytes gBUFSIZE WBITS n gbstart1 s1

/-- The body of the loop over the full blocks (`lzpgt7.c:212-242`). -/
def decode_block (gBUFSIZE BB WBITS : Nat) (s : DecState) : Option DecState :=
  match copy_bits gBUFSIZE (PPP_BLOCKSIZE BB / 8) s.get with
  | none => none
  | some (gb, g1) => mask_bytes gBUFSIZE WBITS (PPP_BLOCKSIZE BB) gb { s with get := g1 }

/-- The loop `while ( ppp_nblocks-- )` run `n` times. -/
def decode_blocks (gBUFSIZE BB WBITS : Nat) : Nat → DecState → Option DecState
  | 0, s => some s
  | n + 1, s =>
    match decode_block gBUFSIZE BB WBITS s with
    | none => none
    | some s1 => decode_blocks gBUFSIZE BB WBITS n s1

/-- The last block (`lzpgt7.c:246-279`). -/
def decode_last (gBUFSIZE WBITS : Nat) (ppp_lastblocksize : Int) (s : DecState) :
    Option DecState :=
  if 0 < ppp_lastblocksize then
    match copy_bits gBUFSIZE (ppp_lastblocksize.toNat / 8) s.get with
    | none => none
    | some (gb, g1) =>
      let more : Option (List Nat × GIn) :=
        if ppp_lastblocksize.toNat % 8 ≠ 0 then
          match gfgetc gBUFSIZE g1 with
          | none => none
          | some (x, g2) => some (gb ++ [x], g2)
        else some (gb, g1)
      match more with
      | none => none
      | some (gb1, g2) =>
        mask_bytes gBUFSIZE WBITS ppp_lastblocksize.toNat gb1 { s with get := g2 }
  else some s

/-- The function `decompress_LZP( w )` of `lzpgt7.c` on its input buffer
`get`, for the header counters `ppp_nblocks` and `ppp_lastblocksize`, from
the table `w` and the output stream `put`.  The function has no statement
that ends it early: the result `none` comes only from a read outside the
buffer and from the `gfgetc` of the spec. -/
def decompress_LZP (gBUFSIZE BB WBITS : Nat) (ppp_nblocks ppp_lastblocksize : Int)
    (w : Nat → Nat) (get : GIn) (put : PutBuf) : Option DecState :=
  let s0 : DecState := ⟨w, 0, 0, get, put⟩
  match (if 0 < ppp_nblocks then decode_blocks gBUFSIZE BB WBITS ppp_nblocks.toNat s0
         else some s0) with
  | none => none
  | some s1 => decode_last gBUFSIZE WBITS ppp_lastblocksize s1

end Lzpgt7.Buffered
namespace Lzpgt

/-! ## The loop over the full blocks with its counter -/

/-- The value that a 64-bit two's-complement `int64_t` holds for the integer
`x`: the one congruent to `x` modulo `2 ^ 64` in `[-2 ^ 63, 2 ^ 63)`. -/
def int64 (x : Int) : Int := (x + 2 ^ 63) % 2 ^ 64 - 2 ^ 63

/-- The loop `while ( ppp_nblocks-- ) body` of `decompress_LZP` with its
counter `ppp_nblocks` (an `int64_t`): every turn tests the counter against 0
and decrements it, and when the test passed the body runs.  The result is
the counter after the loop, the number of times the body ran, and the state
after the loop.  The state is `none` from a body on that read past the end
of the payload; the loop goes on counting, as the C code goes on.  `fuel`
bounds the number of tests, and the result `none` says that it ran out. -/
def while_nblocks {σ : Type} (body : σ → Option σ) :
    Nat → Int → Nat → Option σ → Option (Int × Nat × Option σ)
  | 0, _, _, _ => none
  | fuel + 1, ppp_nblocks, turns, s =>
    if ppp_nblocks ≠ 0 then
      while_nblocks body fuel (int64 (ppp_nblocks - 1)) (turns + 1) (s.bind body)
    else some (int64 (ppp_nblocks - 1), turns, s)

end Lzpgt

namespace Lzpgt2

open Lzpgt

/-- The number of mismatched bytes of the input `X`: the positions `i` at
which the prediction `w[prev]` that `compress_LZP` holds when it has
consumed `i` bytes differs from byte `i` of the input, so that the inner
loop records the byte in `cbuf`. -/
def mismatches (BB WBITS : Nat) (X : List Nat) : Nat :=
  (List.range X.length).countP
    (fun i => decide ((encoder_at BB WBITS X i).w (encoder_at BB WBITS X i).prev ≠ X.getD i 0))

end Lzpgt2
namespace Lzpgt7.Buffered

open Lzpgt

/-! ## The input buffer and the byte sequence it stands for -/

/-- The bytes that are still to be read through the input buffer `g`: the
bytes of the buffer from `gbuf` up to `gbuf_end`, then the bytes of the file
that have not been read. -/
def GIn.pending (g : GIn) : List Nat :=
  (List.range (g.gbuf_end - g.gbuf)).map (fun i => g.mem (g.gbuf + i)) ++ g.gIN

/-- The bit input stream that the input buffer `g` stands for. -/
def GIn.abs (g : GIn) : GetBuf := ⟨g.pending, g.g_cnt⟩

/-- The decoder state on the byte sequence that a decoder state on the
input buffer stands for. -/
def DecState.abs (s : DecState) : Lzpgt.DecState := ⟨s.w, s.prev, s.c, s.get.abs, s.put⟩

/-- The input buffer between two reads: the valid bytes lie inside the
buffer, and the buffer is empty only when the file has ended. -/
def GIn.ok (gBUFSIZE : Nat) (g : GIn) : Prop :=
  g.gbuf_end ≤ gBUFSIZE ∧ (g.gbuf < g.gbuf_end ∨ (g.gbuf = g.gbuf_end ∧ g.gIN = []))

end Lzpgt7.Buffered

/-! ## Packing bits into bytes -/

namespace Lzpgt

theorem store_self (w : Nat → Nat) (prev c : Nat) (h : w prev = c) : store w prev c = w := by
  funext i
  unfold store
  split
  · next hi => rw [hi, h]
  · rfl

theorem pack_byte_lt (bs : List Bool) : pack_byte bs < 2 ^ bs.length := by
  induction bs with
  | nil => simp [pack_byte]
  | cons b bs ih =>
    have hb : b.toNat ≤ 1 := Bool.toNat_le b
    simp only [pack_byte, List.length_cons, pow_succ]
    omega

theorem put_bits_cons (s : PutBuf) (b : Bool) (bs : List Bool) :
    put_bits s (b :: bs) = put_bits (if b then put_ONE s else put_ZERO s) bs := rfl

theorem put_bits_append (s : PutBuf) (as bs : List Bool) :
    put_bits s (as ++ bs) = put_bits (put_bits s as) bs := by
  simp [put_bits, List.foldl_append]

theorem or_bit (a k : Nat) (h : a < 2 ^ k) : a ||| (1 <<< k) = a + 2 ^ k := by
  rw [Nat.one_shiftLeft, Nat.lor_comm]
  have := Nat.mul_add_lt_is_or h 1
  simp at this
  omega

/-- Bits put into a partially filled accumulator that they do not fill. -/
theorem put_bits_within (bs : List Bool) : ∀ (o : List Nat) (a k : Nat), a < 2 ^ k →
    k + bs.length < 8 →
    put_bits ⟨o, a, k⟩ bs = ⟨o, a + 2 ^ k * pack_byte bs, k + bs.length⟩ := by
  induction bs with
  | nil => intro o a k _ _; simp [put_bits, pack_byte]
  | cons b bs ih =>
    intro o a k ha hk
    simp only [List.length_cons] at hk
    rw [put_bits_cons]
    cases b with
    | false =>
      have h1 : put_ZERO ⟨o, a, k⟩ = ⟨o, a, k + 1⟩ := by
        simp only [put_ZERO, advance_buf]
        rw [if_neg (by omega)]
      have ha1 : a < 2 ^ (k + 1) := by rw [pow_succ]; omega
      simp only [Bool.false_eq_true, if_false, h1]
      rw [ih o a (k + 1) ha1 (by omega)]
      simp only [pack_byte, Bool.toNat_false, List.length_cons, pow_succ]
      congr 1
      · ring
      · omega
    | true =>
      have h1 : put_ONE ⟨o, a, k⟩ = ⟨o, a + 2 ^ k, k + 1⟩ := by
        simp only [put_ONE, advance_buf]
        rw [if_neg (by omega), or_bit a k ha]
      have ha1 : a + 2 ^ k < 2 ^ (k + 1) := by rw [pow_succ]; omega
      simp only [if_true, h1]
      rw [ih o (a + 2 ^ k) (k + 1) ha1 (by omega)]
      simp only [pack_byte, Bool.toNat_true, List.length_cons, pow_succ]
      congr 1
      · ring
      · omega

/-- Bits put into a partially filled accumulator that they fill exactly. -/
theorem put_bits_fill (bs : List Bool) : ∀ (o : List Nat) (a k : Nat), a < 2 ^ k →
    k < 8 → k + bs.length = 8 →
    put_bits ⟨o, a, k⟩ bs = ⟨o ++ [a + 2 ^ k * pack_byte bs], 0, 0⟩ := by
  induction bs with
  | nil => intro o a k _ hk8 hk; simp at hk; omega
  | cons b bs ih =>
    intro o a k ha _ hk
    simp only [List.length_cons] at hk
    rw [put_bits_cons]
    by_cases hlast : k + 1 = 8
    · have hbs : bs = [] := List.length_eq_zero.mp (by omega)
      subst hbs
      cases b with
      | false =>
        simp only [Bool.false_eq_true, if_false, put_ZERO, advance_buf]
        rw [if_pos hlast]
        simp [put_bits, pack_byte]
      | true =>
        simp only [if_true, put_ONE, advance_buf]
        rw [if_pos hlast, or_bit a k ha]
        simp [put_bits, pack_byte]
    · cases b with
      | false =>
        have h1 : put_ZERO ⟨o, a, k⟩ = ⟨o, a, k + 1⟩ := by
          simp only [put_ZERO, advance_buf]
          rw [if_neg hlast]
        have ha1 : a < 2 ^ (k + 1) := by rw [pow_succ]; omega
        simp only [Bool.false_eq_true, if_false, h1]
        rw [ih o a (k + 1) ha1 (by omega) (by omega)]
        simp only [pack_byte, Bool.toNat_false, pow_succ]
        congr 3
        ring
      | true =>
        have h1 : put_ONE ⟨o, a, k⟩ = ⟨o, a + 2 ^ k, k + 1⟩ := by
          simp only [put_ONE, advance_buf]
          rw [if_neg hlast, or_bit a k ha]
        have ha1 : a + 2 ^ k < 2 ^ (k + 1) := by rw [pow_succ]; omega
        simp only [if_true, h1]
        rw [ih o (a + 2 ^ k) (k + 1) ha1 (by omega) (by omega)]
        simp only [pack_byte, Bool.toNat_true, pow_succ]
        congr 3
        ring

/-- Bits put from a byte boundary: the full bytes are committed, the rest
waits in the accumulator. -/
theorem put_bits_aligned (q : Nat) : ∀ (bs : List Bool) (o : List Nat) (r : Nat),
    bs.length = 8 * q + r → r < 8 →
    put_bits ⟨o, 0, 0⟩ bs = ⟨o ++ pack_bits q bs, pack_byte (bs.drop (8 * q)), r⟩ := by
  induction q with
  | zero =>
    intro bs o r hlen hr
    have h := put_bits_within bs o 0 0 (by simp) (by omega)
    rw [h]
    simp only [pack_bits, List.append_nil, Nat.mul_zero, List.drop_zero, pow_zero, Nat.one_mul,
      Nat.zero_add]
    congr 1
    omega
  | succ q ih =>
    intro bs o r hlen hr
    have hsplit : bs = bs.take 8 ++ bs.drop 8 := (List.take_append_drop 8 bs).symm
    have htake : (bs.take 8).length = 8 := by rw [List.length_take]; omega
    have hdrop : (bs.drop 8).length = 8 * q + r := by rw [List.length_drop]; omega
    have hfill := put_bits_fill (bs.take 8) o 0 0 (by simp) (by omega) (by omega)
    conv_lhs => rw [hsplit]
    rw [put_bits_append, hfill, ih (bs.drop 8) _ r hdrop hr]
    simp only [pack_bits, pow_zero, Nat.one_mul, Nat.zero_add, List.append_assoc,
      List.singleton_append, List.drop_drop]
    congr 3
    omega

theorem pack_bits_succ (q : Nat) : ∀ (bs : List Bool),
    pack_bits (q + 1) bs = pack_bits q bs ++ [pack_byte ((bs.drop (8 * q)).take 8)] := by
  induction q with
  | zero => intro bs; simp [pack_bits]
  | succ q ih =>
    intro bs
    rw [pack_bits, ih (bs.drop 8)]
    simp only [pack_bits, List.drop_drop, List.cons_append]
    have h8 : 8 + 8 * q = 8 * (q + 1) := by omega
    rw [h8]

theorem pack_bits_length (q : Nat) : ∀ (bs : List Bool), (pack_bits q bs).length = q := by
  induction q with
  | zero => intro bs; rfl
  | succ q ih => intro bs; simp [pack_bits, ih]

theorem put_bits_p_cnt (bs : List Bool) (o : List Nat) :
    (put_bits ⟨o, 0, 0⟩ bs).p_cnt = bs.length % 8 := by
  have h := put_bits_aligned (bs.length / 8) bs o (bs.length % 8) (by omega) (by omega)
  rw [h]

/-- The bit section of a block: the bits put from a byte boundary, followed
by the forced advance when the accumulator is partially filled. -/
theorem put_bits_section (bs : List Bool) (o : List Nat) :
    (if 0 < (put_bits ⟨o, 0, 0⟩ bs).p_cnt ∧ (put_bits ⟨o, 0, 0⟩ bs).p_cnt < 8
      then force_advance (put_bits ⟨o, 0, 0⟩ bs) else put_bits ⟨o, 0, 0⟩ bs)
    = ⟨o ++ pack_bits ((bs.length + 7) / 8) bs, 0, 0⟩ := by
  have h := put_bits_aligned (bs.length / 8) bs o (bs.length % 8) (by omega) (by omega)
  rw [h]
  by_cases hr : bs.length % 8 = 0
  · have hq : (bs.length + 7) / 8 = bs.length / 8 := by omega
    have hnil : bs.drop (8 * (bs.length / 8)) = [] := by
      apply List.drop_eq_nil_of_le; omega
    rw [if_neg (by simp [hr]), hq, hnil, hr]
    rfl
  · have hq : (bs.length + 7) / 8 = bs.length / 8 + 1 := by omega
    have hshort : (bs.drop (8 * (bs.length / 8))).take 8 = bs.drop (8 * (bs.length / 8)) := by
      apply List.take_of_length_le
      rw [List.length_drop]; omega
    rw [if_pos ⟨by simp; omega, by simp; omega⟩, hq, pack_bits_succ, hshort]
    simp [force_advance, advance_buf]

theorem write_mismatched_eq (s : PutBuf) (cbuf : List Nat) :
    write_mismatched s cbuf = ⟨s.out ++ cbuf, s.cur, s.p_cnt⟩ := by
  induction cbuf generalizing s with
  | nil => simp [write_mismatched]
  | cons c cbuf ih =>
    have : write_mismatched s (c :: cbuf) = write_mismatched (pfputc s c) cbuf := rfl
    rw [this, ih]
    simp [pfputc]

theorem encode_bytes_cons (WBITS : Nat) (s : EncState) (c : Nat) (p : List Nat) :
    encode_bytes WBITS s (c :: p) = encode_bytes WBITS (encode_byte WBITS s c) p := rfl

/-- The inner loop of `compress_LZP` in closed form. -/
theorem encode_bytes_eq (WBITS : Nat) (p : List Nat) : ∀ (s : EncState),
    encode_bytes WBITS s p =
      { w := table_after WBITS s.w s.prev p,
        prev := hash_after WBITS s.prev p,
        cbuf := s.cbuf ++ misses WBITS s.w s.prev p,
        put := put_bits s.put (hits WBITS s.w s.prev p),
        ppp_nblocks := s.ppp_nblocks,
        ppp_lastblocksize := s.ppp_lastblocksize } := by
  induction p with
  | nil => intro s; simp [encode_bytes, table_after, hash_after, misses, hits, put_bits]
  | cons c p ih =>
    intro s
    rw [encode_bytes_cons, ih]
    by_cases h : s.w s.prev = c
    · simp [encode_byte, if_pos h, table_after, hash_after, misses, hits, put_bits_cons,
        store_self s.w s.prev c h, h]
    · simp [encode_byte, if_neg h, table_after, hash_after, misses, hits, put_bits_cons, h]

theorem hits_length (WBITS : Nat) (p : List Nat) : ∀ (w : Nat → Nat) (prev : Nat),
    (hits WBITS w prev p).length = p.length := by
  induction p with
  | nil => intro w prev; rfl
  | cons c p ih => intro w prev; simp [hits, ih]

end Lzpgt

/-! ## The encoder in closed form -/

namespace Lzpgt

theorem blocksize_eq (BB : Nat) : PPP_BLOCKSIZE BB = 2 ^ BB := by
  simp [PPP_BLOCKSIZE, Nat.one_shiftLeft]

theorem blocksize_pos (BB : Nat) : 0 < PPP_BLOCKSIZE BB := by
  rw [blocksize_eq]; exact Nat.pos_pow_of_pos _ (by decide)

theorem blocksize_mod8 (BB : Nat) (h : 3 ≤ BB) : PPP_BLOCKSIZE BB % 8 = 0 := by
  rw [blocksize_eq]
  obtain ⟨k, rfl⟩ : ∃ k, BB = 3 + k := ⟨BB - 3, by omega⟩
  rw [pow_add]
  omega

theorem put_bits_full (bs : List Bool) (o : List Nat) (h : bs.length % 8 = 0) :
    put_bits ⟨o, 0, 0⟩ bs = ⟨o ++ pack_bits ((bs.length + 7) / 8) bs, 0, 0⟩ := by
  have hs := put_bits_section bs o
  rw [if_neg (by rw [put_bits_p_cnt]; omega)] at hs
  exact hs

theorem table_after_append (WBITS : Nat) (p : List Nat) : ∀ (w : Nat → Nat) (prev : Nat)
    (q : List Nat), table_after WBITS w prev (p ++ q)
      = table_after WBITS (table_after WBITS w prev p) (hash_after WBITS prev p) q := by
  induction p with
  | nil => intro w prev q; rfl
  | cons c p ih => intro w prev q; simp [table_after, hash_after, ih]

theorem hash_after_append (WBITS : Nat) (p : List Nat) : ∀ (prev : Nat) (q : List Nat),
    hash_after WBITS prev (p ++ q) = hash_after WBITS (hash_after WBITS prev p) q := by
  induction p with
  | nil => intro prev q; rfl
  | cons c p ih => intro prev q; simp [hash_after, ih]

end Lzpgt

namespace Lzpgt2

open Lzpgt

/-- The body of the outer loop of `compress_LZP` on a full block, entered on
a byte boundary with no mismatched byte recorded. -/
theorem finish_full (BB WBITS : Nat) (hBB : 3 ≤ BB) (s : EncState) (p : List Nat)
    (o : List Nat) (hput : s.put = ⟨o, 0, 0⟩) (hc : s.cbuf = [])
    (hp : p.length = PPP_BLOCKSIZE BB) :
    finish_block BB (encode_bytes WBITS s p) p.length =
      { w := table_after WBITS s.w s.prev p,
        prev := hash_after WBITS s.prev p,
        cbuf := [],
        put := ⟨o ++ block_bytes WBITS s.w s.prev p, 0, 0⟩,
        ppp_nblocks := s.ppp_nblocks + 1,
        ppp_lastblocksize := s.ppp_lastblocksize } := by
  have h8 : (hits WBITS s.w s.prev p).length % 8 = 0 := by
    rw [hits_length, hp]; exact blocksize_mod8 BB hBB
  rw [encode_bytes_eq, finish_block, if_pos hp]
  simp only [hput, hc, put_bits_full _ o h8, write_mismatched_eq, List.nil_append, block_bytes,
    hits_length, List.append_assoc]

/-- The body of the outer loop of `compress_LZP` on a short block, entered
on a byte boundary with no mismatched byte recorded. -/
theorem finish_short (BB WBITS : Nat) (s : EncState) (p : List Nat)
    (o : List Nat) (hput : s.put = ⟨o, 0, 0⟩) (hc : s.cbuf = [])
    (hp : p.length < PPP_BLOCKSIZE BB) :
    finish_block BB (encode_bytes WBITS s p) p.length =
      { w := table_after WBITS s.w s.prev p,
        prev := hash_after WBITS s.prev p,
        cbuf := misses WBITS s.w s.prev p,
        put := ⟨o ++ block_bytes WBITS s.w s.prev p, 0, 0⟩,
        ppp_nblocks := s.ppp_nblocks,
        ppp_lastblocksize := p.length } := by
  rw [encode_bytes_eq, finish_block, if_neg (by omega), if_pos hp]
  simp only [hput, hc, put_bits_section, write_mismatched_eq, List.nil_append, block_bytes,
    hits_length, List.append_assoc]

theorem compress_loop_nil (BB WBITS fuel : Nat) (s : EncState) :
    compress_loop BB WBITS fuel s [] = s := by
  cases fuel <;> simp [compress_loop]

/-- The outer loop of `compress_LZP` in closed form. -/
theorem compress_loop_eq (BB WBITS : Nat) (hBB : 3 ≤ BB) (fuel : Nat) :
    ∀ (input : List Nat) (s : EncState) (o : List Nat), input.length ≤ fuel →
      s.put = ⟨o, 0, 0⟩ → s.cbuf = [] →
      (compress_loop BB WBITS fuel s input).put
          = ⟨o ++ stream BB WBITS fuel s.w s.prev input, 0, 0⟩ ∧
      (compress_loop BB WBITS fuel s input).w = table_after WBITS s.w s.prev input ∧
      (compress_loop BB WBITS fuel s input).prev = hash_after WBITS s.prev input ∧
      (compress_loop BB WBITS fuel s input).ppp_nblocks
          = s.ppp_nblocks + (input.length / PPP_BLOCKSIZE BB : Nat) ∧
      (compress_loop BB WBITS fuel s input).ppp_lastblocksize
          = if input.length % PPP_BLOCKSIZE BB = 0 then s.ppp_lastblocksize
            else ((input.length % PPP_BLOCKSIZE BB : Nat) : Int) := by
  have hB := blocksize_pos BB
  induction fuel with
  | zero =>
    intro input s o hlen hput _
    have hnil : input = [] := List.length_eq_zero.mp (by omega)
    subst hnil
    simp [compress_loop, stream, hput, table_after, hash_after]
  | succ fuel ih =>
    intro input s o hlen hput hc
    by_cases hnil : input = []
    · subst hnil
      simp [compress_loop, stream, hput, table_after, hash_after]
    · have hpos : 0 < input.length := List.length_pos.mpr hnil
      have hsplit : input = input.take (PPP_BLOCKSIZE BB) ++ input.drop (PPP_BLOCKSIZE BB) :=
        (List.take_append_drop _ input).symm
      have htl : (input.take (PPP_BLOCKSIZE BB)).length = min (PPP_BLOCKSIZE BB) input.length :=
        List.length_take _ _
      have hne : (input.take (PPP_BLOCKSIZE BB)).length ≠ 0 := by rw [htl]; omega
      have hta : table_after WBITS s.w s.prev input
          = table_after WBITS (table_after WBITS s.w s.prev (input.take (PPP_BLOCKSIZE BB)))
              (hash_after WBITS s.prev (input.take (PPP_BLOCKSIZE BB)))
              (input.drop (PPP_BLOCKSIZE BB)) := by
        conv_lhs => rw [hsplit]
        exact table_after_append _ _ _ _ _
      have hha : hash_after WBITS s.prev input
          = hash_after WBITS (hash_after WBITS s.prev (input.take (PPP_BLOCKSIZE BB)))
              (input.drop (PPP_BLOCKSIZE BB)) := by
        conv_lhs => rw [hsplit]
        exact hash_after_append _ _ _ _
      simp only [compress_loop, stream, if_neg hne]
      by_cases hfull : PPP_BLOCKSIZE BB ≤ input.length
      · have hp : (input.take (PPP_BLOCKSIZE BB)).length = PPP_BLOCKSIZE BB := by
          rw [htl]; omega
        have hdl : (input.drop (PPP_BLOCKSIZE BB)).length = input.length - PPP_BLOCKSIZE BB :=
          List.length_drop _ _
        rw [finish_full BB WBITS hBB s _ o hput hc hp]
        have hih := ih (input.drop (PPP_BLOCKSIZE BB))
          { w := table_after WBITS s.w s.prev (input.take (PPP_BLOCKSIZE BB)),
            prev := hash_after WBITS s.prev (input.take (PPP_BLOCKSIZE BB)),
            cbuf := [],
            put := ⟨o ++ block_bytes WBITS s.w s.prev (input.take (PPP_BLOCKSIZE BB)), 0, 0⟩,
            ppp_nblocks := s.ppp_nblocks + 1,
            ppp_lastblocksize := s.ppp_lastblocksize }
          (o ++ block_bytes WBITS s.w s.prev (input.take (PPP_BLOCKSIZE BB)))
          (by rw [hdl]; omega) rfl rfl
        obtain ⟨h1, h2, h3, h4, h5⟩ := hih
        have hdiv : input.length / PPP_BLOCKSIZE BB
            = (input.length - PPP_BLOCKSIZE BB) / PPP_BLOCKSIZE BB + 1 := by
          rw [← Nat.sub_add_cancel hfull, Nat.add_div_right _ hB]
          simp
        have hmod : input.length % PPP_BLOCKSIZE BB
            = (input.length - PPP_BLOCKSIZE BB) % PPP_BLOCKSIZE BB := by
          conv_lhs => rw [← Nat.sub_add_cancel hfull]
          exact Nat.add_mod_right _ _
        refine ⟨?_, ?_, ?_, ?_, ?_⟩
        · rw [h1]; simp [List.append_assoc]
        · rw [h2, hta]
        · rw [h3, hha]
        · rw [h4, hdl, hdiv]; push_cast; ring
        · rw [h5, hdl, hmod]
      · have hp : (input.take (PPP_BLOCKSIZE BB)).length < PPP_BLOCKSIZE BB := by
          rw [htl]; omega
        have htake : input.take (PPP_BLOCKSIZE BB) = input :=
          List.take_of_length_le (by omega)
        have hdrop : input.drop (PPP_BLOCKSIZE BB) = [] :=
          List.drop_eq_nil_of_le (by omega)
        rw [finish_short BB WBITS s _ o hput hc hp, hdrop, compress_loop_nil, htake]
        have hdiv : input.length / PPP_BLOCKSIZE BB = 0 := Nat.div_eq_of_lt (by omega)
        have hmod : input.length % PPP_BLOCKSIZE BB = input.length := Nat.mod_eq_of_lt (by omega)
        refine ⟨?_, rfl, rfl, ?_, ?_⟩
        · cases fuel <;> simp [stream]
        · simp [hdiv]
        · show ((input.length : Nat) : Int) = _
          rw [hmod, if_neg (by omega)]

theorem finish_block_counters (BB : Nat) (s : EncState) (nread : Nat) :
    (finish_block BB s nread).ppp_nblocks
        = (if nread = PPP_BLOCKSIZE BB then s.ppp_nblocks + 1 else s.ppp_nblocks) ∧
    (finish_block BB s nread).ppp_lastblocksize
        = (if nread < PPP_BLOCKSIZE BB then (nread : Int) else s.ppp_lastblocksize) := by
  unfold finish_block
  by_cases h1 : nread = PPP_BLOCKSIZE BB
  · simp [h1]
  · by_cases h2 : nread < PPP_BLOCKSIZE BB
    · simp [h1, h2]
    · simp [h1, h2]

/-- The header counters after the outer loop of `compress_LZP`, from any
state and for any block size. -/
theorem compress_loop_counters (BB WBITS : Nat) (fuel : Nat) :
    ∀ (input : List Nat) (s : EncState), input.length ≤ fuel →
      (compress_loop BB WBITS fuel s input).ppp_nblocks
          = s.ppp_nblocks + (input.length / PPP_BLOCKSIZE BB : Nat) ∧
      (compress_loop BB WBITS fuel s input).ppp_lastblocksize
          = if input.length % PPP_BLOCKSIZE BB = 0 then s.ppp_lastblocksize
            else ((input.length % PPP_BLOCKSIZE BB : Nat) : Int) := by
  have hB := blocksize_pos BB
  induction fuel with
  | zero =>
    intro input s hlen
    have hnil : input = [] := List.length_eq_zero.mp (by omega)
    subst hnil
    simp [compress_loop]
  | succ fuel ih =>
    intro input s hlen
    by_cases hnil : input = []
    · subst hnil
      simp [compress_loop]
    · have hpos : 0 < input.length := List.length_pos.mpr hnil
      have htl : (input.take (PPP_BLOCKSIZE BB)).length = min (PPP_BLOCKSIZE BB) input.length :=
        List.length_take _ _
      have hne : (input.take (PPP_BLOCKSIZE BB)).length ≠ 0 := by rw [htl]; omega
      have hdl : (input.drop (PPP_BLOCKSIZE BB)).length = input.length - PPP_BLOCKSIZE BB :=
        List.length_drop _ _
      simp only [compress_loop, if_neg hne]
      obtain ⟨h1, h2⟩ := ih (input.drop (PPP_BLOCKSIZE BB))
        (finish_block BB (encode_bytes WBITS s (input.take (PPP_BLOCKSIZE BB)))
          (input.take (PPP_BLOCKSIZE BB)).length) (by rw [hdl]; omega)
      obtain ⟨f1, f2⟩ := finish_block_counters BB
        (encode_bytes WBITS s (input.take (PPP_BLOCKSIZE BB)))
        (input.take (PPP_BLOCKSIZE BB)).length
      have e1 : (encode_bytes WBITS s (input.take (PPP_BLOCKSIZE BB))).ppp_nblocks
          = s.ppp_nblocks := by rw [encode_bytes_eq]
      have e2 : (encode_bytes WBITS s (input.take (PPP_BLOCKSIZE BB))).ppp_lastblocksize
          = s.ppp_lastblocksize := by rw [encode_bytes_eq]
      rw [h1, h2, f1, f2, e1, e2, hdl]
      by_cases hfull : PPP_BLOCKSIZE BB ≤ input.length
      · have hp : (input.take (PPP_BLOCKSIZE BB)).length = PPP_BLOCKSIZE BB := by
          rw [htl]; omega
        have hdiv : input.length / PPP_BLOCKSIZE BB
            = (input.length - PPP_BLOCKSIZE BB) / PPP_BLOCKSIZE BB + 1 := by
          conv_lhs => rw [← Nat.sub_add_cancel hfull]
          rw [Nat.add_div_right _ hB]
        have hmod : input.length % PPP_BLOCKSIZE BB
            = (input.length - PPP_BLOCKSIZE BB) % PPP_BLOCKSIZE BB := by
          conv_lhs => rw [← Nat.sub_add_cancel hfull]
          exact Nat.add_mod_right _ _
        rw [hp, if_pos rfl, if_neg (lt_irrefl _), hdiv, hmod]
        constructor
        · push_cast; ring
        · rfl
      · have hp : (input.take (PPP_BLOCKSIZE BB)).length = input.length := by
          rw [htl]; omega
        have hdiv : input.length / PPP_BLOCKSIZE BB = 0 := Nat.div_eq_of_lt (by omega)
        have hmod : input.length % PPP_BLOCKSIZE BB = input.length := Nat.mod_eq_of_lt (by omega)
        have hsub : input.length - PPP_BLOCKSIZE BB = 0 := by omega
        have hA : ¬ input.length = PPP_BLOCKSIZE BB := by omega
        have hlt : input.length < PPP_BLOCKSIZE BB := by omega
        have hnz : ¬ input.length = 0 := by omega
        rw [hp, hsub, if_neg hA, Nat.zero_div, Nat.zero_mod, if_pos rfl, if_pos hlt, hdiv, hmod,
          if_neg hnz]
        simp

end Lzpgt2

/-! ## Reading bits back -/

namespace Lzpgt

/-- The value that `bbuf[i]` takes for a bit. -/
theorem bbuf_of_bit (b : Bool) : ((if b then 1 else 0 : Nat) = 1) ↔ b = true := by
  cases b <;> simp

theorem testBit_pack_byte (bs : List Bool) : ∀ (i : Nat),
    (pack_byte bs).testBit i = bs.getD i false := by
  induction bs with
  | nil => intro i; simp [pack_byte]
  | cons b bs ih =>
    intro i
    cases i with
    | zero =>
      rw [Nat.testBit_zero]
      cases b
      · simp [pack_byte]
      · simp [pack_byte]
    | succ i =>
      rw [Nat.testBit_succ]
      have hdiv : (pack_byte (b :: bs)) / 2 = pack_byte bs := by
        cases b
        · simp [pack_byte]
        · simp [pack_byte]; omega
      rw [hdiv, ih i]
      simp

theorem pack_bits_getElem (q : Nat) : ∀ (bs : List Bool) (j : Nat), j < q →
    (pack_bits q bs)[j]? = some (pack_byte ((bs.drop (8 * j)).take 8)) := by
  induction q with
  | zero => intro bs j hj; omega
  | succ q ih =>
    intro bs j hj
    cases j with
    | zero => simp [pack_bits]
    | succ j =>
      simp only [pack_bits, List.getElem?_cons_succ]
      rw [ih (bs.drop 8) j (by omega), List.drop_drop]
      have h8 : 8 + 8 * j = 8 * (j + 1) := by omega
      rw [h8]

/-- Bit `i` of the packed bit vector is bit `i` of the vector. -/
theorem bit_of_pack_bits (q : Nat) (bs : List Bool) (rest : List Nat) (i : Nat)
    (hi : i / 8 < q) :
    ((pack_bits q bs ++ rest).getD (i / 8) 0).testBit (i % 8) = bs.getD i false := by
  have hlen : i / 8 < (pack_bits q bs).length := by rw [pack_bits_length]; exact hi
  rw [List.getD_eq_getElem?_getD, List.getElem?_append_left hlen,
    pack_bits_getElem q bs (i / 8) hi]
  simp only [Option.getD_some, testBit_pack_byte]
  rw [List.getD_eq_getElem?_getD, List.getD_eq_getElem?_getD, List.getElem?_take_of_lt (by omega),
    List.getElem?_drop]
  have h : 8 * (i / 8) + i % 8 = i := Nat.div_add_mod i 8
  rw [h]

/-- The bits read one after the other are the bits of the bytes, LSB first. -/
theorem unpack_eq (n : Nat) : ∀ (l : List Nat) (k : Nat), k < 8 →
    unpack n l k
      = (List.range n).map (fun i => (l.getD ((k + i) / 8) 0).testBit ((k + i) % 8)) := by
  induction n with
  | zero => intro l k _; rfl
  | succ n ih =>
    intro l k hk
    rw [unpack, List.range_succ_eq_map, List.map_cons, List.map_map]
    have h0 : (l.getD ((k + 0) / 8) 0).testBit ((k + 0) % 8) = (l.headD 0).testBit k := by
      have h1 : (k + 0) / 8 = 0 := by omega
      have h2 : (k + 0) % 8 = k := by omega
      rw [h1, h2]
      cases l <;> rfl
    rw [h0]
    congr 1
    by_cases h8 : k + 1 = 8
    · rw [if_pos h8, ih l.tail 0 (by omega)]
      apply List.map_congr_left
      intro i _
      have h1 : (k + (i + 1)) / 8 = (0 + i) / 8 + 1 := by omega
      have h2 : (k + (i + 1)) % 8 = (0 + i) % 8 := by omega
      simp only [Function.comp, Nat.succ_eq_add_one, h1, h2]
      cases l <;> simp
    · rw [if_neg h8, ih l (k + 1) (by omega)]
      apply List.map_congr_left
      intro i _
      have h1 : (k + (i + 1)) = (k + 1 + i) := by omega
      simp only [Function.comp, Nat.succ_eq_add_one, h1]

/-- Reading back the bits of a packed bit vector. -/
theorem unpack_pack_bits (bs : List Bool) (rest : List Nat) :
    unpack bs.length (pack_bits ((bs.length + 7) / 8) bs ++ rest) 0 = bs := by
  rw [unpack_eq _ _ 0 (by omega)]
  apply List.ext_getElem
  · simp
  · intro i h1 h2
    simp only [List.getElem_map, List.getElem_range, Nat.zero_add]
    rw [bit_of_pack_bits _ _ _ _ (by omega)]
    rw [List.getD_eq_getElem?_getD, List.getElem?_eq_getElem h2]
    rfl

/-- The loop of `get_bit` calls in closed form. -/
theorem get_bits_eq (n : Nat) : ∀ (l : List Nat) (k : Nat), k < 8 →
    Lzpgt2.get_bits n ⟨l, k⟩ =
      if n = 0 ∨ (k + n + 7) / 8 ≤ l.length then
        some ((unpack n l k).map (fun b => if b then 1 else 0),
          ⟨l.drop ((k + n) / 8), (k + n) % 8⟩)
      else none := by
  induction n with
  | zero =>
    intro l k hk
    have h1 : (k + 0) / 8 = 0 := by omega
    have h2 : (k + 0) % 8 = k := by omega
    rw [if_pos (Or.inl rfl), h1, h2]
    rfl
  | succ n ih =>
    intro l k hk
    cases l with
    | nil =>
      have : ¬ (n + 1 = 0 ∨ (k + (n + 1) + 7) / 8 ≤ ([] : List Nat).length) := by
        simp only [List.length_nil]; omega
      rw [if_neg this]
      simp [Lzpgt2.get_bits, get_bit]
    | cons x l =>
      have hlen : (x :: l).length = l.length + 1 := rfl
      by_cases h8 : k + 1 = 8
      · have hadv : advance_gbuf ⟨x :: l, k⟩ = ⟨l, 0⟩ := by
          simp [advance_gbuf, h8]
        simp only [Lzpgt2.get_bits, get_bit, hadv]
        rw [ih l 0 (by omega)]
        have hd : (k + (n + 1)) / 8 = (0 + n) / 8 + 1 := by omega
        have hm : (k + (n + 1)) % 8 = (0 + n) % 8 := by omega
        by_cases hcond : n = 0 ∨ (0 + n + 7) / 8 ≤ l.length
        · have hc1 : n + 1 = 0 ∨ (k + (n + 1) + 7) / 8 ≤ (x :: l).length := by
            right; rw [hlen]; omega
          rw [if_pos hcond, if_pos hc1]
          simp only [unpack, if_pos h8, List.headD_cons, List.tail_cons, List.map_cons, hd, hm,
            List.drop_succ_cons]
        · have hc1 : ¬ (n + 1 = 0 ∨ (k + (n + 1) + 7) / 8 ≤ (x :: l).length) := by
            rw [hlen]; omega
          rw [if_neg hcond, if_neg hc1]
      · have hadv : advance_gbuf ⟨x :: l, k⟩ = ⟨x :: l, k + 1⟩ := by
          simp [advance_gbuf, h8]
        simp only [Lzpgt2.get_bits, get_bit, hadv]
        rw [ih (x :: l) (k + 1) (by omega)]
        have hd : (k + (n + 1)) = (k + 1 + n) := by omega
        by_cases hcond : n = 0 ∨ (k + 1 + n + 7) / 8 ≤ (x :: l).length
        · have hc1 : n + 1 = 0 ∨ (k + (n + 1) + 7) / 8 ≤ (x :: l).length := by
            right; rw [hlen] at hcond ⊢; omega
          rw [if_pos hcond, if_pos hc1]
          simp only [unpack, if_neg h8, List.headD_cons, List.map_cons, hd]
        · have hc1 : ¬ (n + 1 = 0 ∨ (k + (n + 1) + 7) / 8 ≤ (x :: l).length) := by
            rw [hlen] at hcond ⊢; omega
          rw [if_neg hcond, if_neg hc1]

end Lzpgt

/-! ## Round trip of the scalar decoder -/

namespace Lzpgt2

open Lzpgt

/-- The loop "Output bytes" on the bits and the mismatched bytes of a block
gives the block back and follows the encoder's table and context. -/
theorem output_bytes_hits (WBITS : Nat) (p : List Nat) :
    ∀ (w : Nat → Nat) (prev c0 : Nat) (rest : List Nat) (k : Nat) (put : PutBuf),
    ∃ c1, output_bytes WBITS ((hits WBITS w prev p).map (fun b => if b then 1 else 0))
        ⟨w, prev, c0, ⟨misses WBITS w prev p ++ rest, k⟩, put⟩
      = some ⟨table_after WBITS w prev p, hash_after WBITS prev p, c1, ⟨rest, k⟩,
          ⟨put.out ++ p, put.cur, put.p_cnt⟩⟩ := by
  induction p with
  | nil =>
    intro w prev c0 rest k put
    exact ⟨c0, by simp [hits, misses, output_bytes, table_after, hash_after]⟩
  | cons c p ih =>
    intro w prev c0 rest k put
    by_cases h : w prev = c
    · obtain ⟨c1, hc1⟩ := ih (store w prev c) (update_hash WBITS prev c) c rest k (pfputc put c)
      refine ⟨c1, ?_⟩
      have hst : store w prev c = w := store_self w prev c h
      rw [hst] at hc1
      simp only [hits, misses, if_pos h, List.map_cons, decide_eq_true h, if_true, output_bytes,
        output_byte, table_after, hash_after, hst]
      rw [h, hc1]
      simp [pfputc]
    · obtain ⟨c1, hc1⟩ := ih (store w prev c) (update_hash WBITS prev c) c rest k (pfputc put c)
      refine ⟨c1, ?_⟩
      simp only [hits, misses, if_neg h, List.map_cons, decide_eq_false h, output_bytes,
        output_byte, table_after, hash_after, gfgetc, List.cons_append]
      simp only [Bool.false_eq_true, if_false, Nat.zero_ne_one]
      rw [hc1]
      simp [pfputc]

/-- Reading the bit section of a block, with the forced advance of the last
block: the bits come back and the mismatched bytes are next. -/
theorem get_bits_section (bs : List Bool) (more : List Nat) :
    ∃ g1, get_bits bs.length ⟨pack_bits ((bs.length + 7) / 8) bs ++ more, 0⟩
        = some (bs.map (fun b => if b then 1 else 0), g1) ∧
      (if 0 < g1.g_cnt ∧ g1.g_cnt < 8 then force_advance_gbuf g1 else g1) = ⟨more, 0⟩ ∧
      (bs.length % 8 = 0 → g1 = ⟨more, 0⟩) := by
  have hlen : (pack_bits ((bs.length + 7) / 8) bs).length = (bs.length + 7) / 8 :=
    pack_bits_length _ _
  have hcond : bs.length = 0 ∨
      (0 + bs.length + 7) / 8 ≤ (pack_bits ((bs.length + 7) / 8) bs ++ more).length := by
    right; rw [List.length_append, hlen]; omega
  refine ⟨⟨(pack_bits ((bs.length + 7) / 8) bs ++ more).drop ((0 + bs.length) / 8),
    (0 + bs.length) % 8⟩, ?_, ?_, ?_⟩
  · rw [get_bits_eq _ _ 0 (by omega), if_pos hcond, unpack_pack_bits]
  · by_cases hr : bs.length % 8 = 0
    · have hq : (0 + bs.length) / 8 = (pack_bits ((bs.length + 7) / 8) bs).length := by
        rw [hlen]; omega
      have hm : (0 + bs.length) % 8 = 0 := by omega
      simp only [hm, Nat.lt_irrefl, false_and, if_false, hq, List.drop_left]
    · have hm : 0 < (0 + bs.length) % 8 ∧ (0 + bs.length) % 8 < 8 := by omega
      simp only [hm, and_self, if_true, force_advance_gbuf, advance_gbuf, List.tail_drop]
      have hq : (0 + bs.length) / 8 + 1 = (pack_bits ((bs.length + 7) / 8) bs).length := by
        rw [hlen]; omega
      rw [hq, List.drop_left]
  · intro hr
    have hq : (0 + bs.length) / 8 = (pack_bits ((bs.length + 7) / 8) bs).length := by
      rw [hlen]; omega
    have hm : (0 + bs.length) % 8 = 0 := by omega
    rw [hq, hm, List.drop_left]

/-- The body of the loop over the full blocks on the bytes of a full block. -/
theorem decode_block_bytes (BB WBITS : Nat) (hBB : 3 ≤ BB) (p : List Nat)
    (hp : p.length = PPP_BLOCKSIZE BB) (w : Nat → Nat) (prev c0 : Nat) (rest : List Nat)
    (put : PutBuf) :
    ∃ c1, decode_block BB WBITS ⟨w, prev, c0, ⟨block_bytes WBITS w prev p ++ rest, 0⟩, put⟩
      = some ⟨table_after WBITS w prev p, hash_after WBITS prev p, c1, ⟨rest, 0⟩,
          ⟨put.out ++ p, put.cur, put.p_cnt⟩⟩ := by
  have hl : (hits WBITS w prev p).length = p.length := hits_length _ _ _ _
  obtain ⟨g1, hg1, _, hg3⟩ := get_bits_section (hits WBITS w prev p)
    (misses WBITS w prev p ++ rest)
  have h8 : (hits WBITS w prev p).length % 8 = 0 := by
    rw [hl, hp]; exact blocksize_mod8 BB hBB
  rw [hg3 h8, hl] at hg1
  obtain ⟨c1, hc1⟩ := output_bytes_hits WBITS p w prev c0 rest 0 put
  refine ⟨c1, ?_⟩
  simp only [decode_block, block_bytes, List.append_assoc, ← hp, hg1]
  exact hc1

/-- The last block of `decompress_LZP` on the bytes of a short block. -/
theorem decode_last_bytes (WBITS : Nat) (p : List Nat) (hp : 0 < p.length)
    (w : Nat → Nat) (prev c0 : Nat) (rest : List Nat) (put : PutBuf) :
    ∃ c1, decode_last WBITS (p.length : Nat)
        ⟨w, prev, c0, ⟨block_bytes WBITS w prev p ++ rest, 0⟩, put⟩
      = some ⟨table_after WBITS w prev p, hash_after WBITS prev p, c1, ⟨rest, 0⟩,
          ⟨put.out ++ p, put.cur, put.p_cnt⟩⟩ := by
  have hl : (hits WBITS w prev p).length = p.length := hits_length _ _ _ _
  obtain ⟨g1, hg1, hg2, _⟩ := get_bits_section (hits WBITS w prev p)
    (misses WBITS w prev p ++ rest)
  rw [hl] at hg1
  obtain ⟨c1, hc1⟩ := output_bytes_hits WBITS p w prev c0 rest 0 put
  refine ⟨c1, ?_⟩
  have hpos : (0 : Int) < (p.length : Nat) := by exact_mod_cast hp
  simp only [decode_last, if_pos hpos, Int.toNat_ofNat, block_bytes, List.append_assoc, hg1, hg2]
  exact hc1

theorem decode_blocks_guard (BB WBITS n : Nat) (s : DecState) :
    (if (0 : Int) < (n : Nat) then decode_blocks BB WBITS ((n : Nat) : Int).toNat s else some s)
      = decode_blocks BB WBITS n s := by
  cases n with
  | zero => simp [decode_blocks]
  | succ n =>
    have : (0 : Int) < ((n + 1 : Nat) : Int) := by exact_mod_cast Nat.succ_pos n
    rw [if_pos this, Int.toNat_ofNat]

/-- The decoder's two phases on the payload of `input`: the full blocks,
then the last block. -/
theorem decode_stream (BB WBITS : Nat) (hBB : 3 ≤ BB) (fuel : Nat) :
    ∀ (input : List Nat) (w : Nat → Nat) (prev c0 : Nat) (rest : List Nat) (put : PutBuf),
    input.length ≤ fuel →
    ∃ c1, (match decode_blocks BB WBITS (input.length / PPP_BLOCKSIZE BB)
              ⟨w, prev, c0, ⟨stream BB WBITS fuel w prev input ++ rest, 0⟩, put⟩ with
          | none => none
          | some s1 => decode_last WBITS ((input.length % PPP_BLOCKSIZE BB : Nat) : Int) s1)
      = some ⟨table_after WBITS w prev input, hash_after WBITS prev input, c1, ⟨rest, 0⟩,
          ⟨put.out ++ input, put.cur, put.p_cnt⟩⟩ := by
  have hB := blocksize_pos BB
  induction fuel with
  | zero =>
    intro input w prev c0 rest put hlen
    have hnil : input = [] := List.length_eq_zero.mp (by omega)
    subst hnil
    exact ⟨c0, by simp [decode_blocks, decode_last, stream, table_after, hash_after]⟩
  | succ fuel ih =>
    intro input w prev c0 rest put hlen
    by_cases hnil : input = []
    · subst hnil
      exact ⟨c0, by simp [decode_blocks, decode_last, stream, table_after, hash_after]⟩
    · have hpos : 0 < input.length := List.length_pos.mpr hnil
      have hsplit : input = input.take (PPP_BLOCKSIZE BB) ++ input.drop (PPP_BLOCKSIZE BB) :=
        (List.take_append_drop _ input).symm
      have htl : (input.take (PPP_BLOCKSIZE BB)).length = min (PPP_BLOCKSIZE BB) input.length :=
        List.length_take _ _
      have hne : (input.take (PPP_BLOCKSIZE BB)).length ≠ 0 := by rw [htl]; omega
      simp only [stream, if_neg hne, List.append_assoc]
      by_cases hfull : PPP_BLOCKSIZE BB ≤ input.length
      · have hp : (input.take (PPP_BLOCKSIZE BB)).length = PPP_BLOCKSIZE BB := by
          rw [htl]; omega
        have hdl : (input.drop (PPP_BLOCKSIZE BB)).length = input.length - PPP_BLOCKSIZE BB :=
          List.length_drop _ _
        have hdiv : input.length / PPP_BLOCKSIZE BB
            = (input.drop (PPP_BLOCKSIZE BB)).length / PPP_BLOCKSIZE BB + 1 := by
          rw [hdl]
          conv_lhs => rw [← Nat.sub_add_cancel hfull]
          rw [Nat.add_div_right _ hB]
        have hmod : input.length % PPP_BLOCKSIZE BB
            = (input.drop (PPP_BLOCKSIZE BB)).length % PPP_BLOCKSIZE BB := by
          rw [hdl]
          conv_lhs => rw [← Nat.sub_add_cancel hfull]
          exact Nat.add_mod_right _ _
        obtain ⟨c1, hc1⟩ := decode_block_bytes BB WBITS hBB _ hp w prev c0
          (stream BB WBITS fuel (table_after WBITS w prev (input.take (PPP_BLOCKSIZE BB)))
            (hash_after WBITS prev (input.take (PPP_BLOCKSIZE BB)))
            (input.drop (PPP_BLOCKSIZE BB)) ++ rest) put
        obtain ⟨c2, hc2⟩ := ih (input.drop (PPP_BLOCKSIZE BB))
          (table_after WBITS w prev (input.take (PPP_BLOCKSIZE BB)))
          (hash_after WBITS prev (input.take (PPP_BLOCKSIZE BB))) c1 rest
          ⟨put.out ++ input.take (PPP_BLOCKSIZE BB), put.cur, put.p_cnt⟩
          (by rw [hdl]; omega)
        refine ⟨c2, ?_⟩
        rw [hdiv, hmod]
        simp only [decode_blocks, hc1]
        rw [hc2, ← table_after_append, ← hash_after_append, List.append_assoc,
          List.take_append_drop]
      · have htake : input.take (PPP_BLOCKSIZE BB) = input :=
          List.take_of_length_le (by omega)
        have hdrop : input.drop (PPP_BLOCKSIZE BB) = [] :=
          List.drop_eq_nil_of_le (by omega)
        have hdiv : input.length / PPP_BLOCKSIZE BB = 0 := Nat.div_eq_of_lt (by omega)
        have hmod : input.length % PPP_BLOCKSIZE BB = input.length := Nat.mod_eq_of_lt (by omega)
        have hs : stream BB WBITS fuel (table_after WBITS w prev input)
            (hash_after WBITS prev input) [] = [] := by
          cases fuel <;> simp [stream]
        obtain ⟨c1, hc1⟩ := decode_last_bytes WBITS input hpos w prev c0 rest put
        refine ⟨c1, ?_⟩
        rw [hdiv, hmod, htake, hdrop, hs]
        simp only [decode_blocks, List.nil_append]
        exact hc1

/-- Decoding what `compress_LZP` wrote, from the table and context the
encoder started from. -/
theorem decompress_compress (BB WBITS : Nat) (hBB : 3 ≤ BB) (input : List Nat)
    (w : Nat → Nat) (rest : List Nat) (put : PutBuf) :
    ∃ c1, decompress_LZP BB WBITS
        (compress_LZP BB WBITS w init_put_buffer input).ppp_nblocks
        (compress_LZP BB WBITS w init_put_buffer input).ppp_lastblocksize w
        ⟨(compress_LZP BB WBITS w init_put_buffer input).put.out ++ rest, 0⟩ put
      = some ⟨table_after WBITS w 0 input, hash_after WBITS 0 input, c1, ⟨rest, 0⟩,
          ⟨put.out ++ input, put.cur, put.p_cnt⟩⟩ := by
  obtain ⟨h1, _, _, h4, h5⟩ := compress_loop_eq BB WBITS hBB input.length input
    ⟨w, 0, [], init_put_buffer, 0, 0⟩ [] (le_refl _) rfl rfl
  obtain ⟨c1, hc1⟩ := decode_stream BB WBITS hBB input.length input w 0 0 rest put (le_refl _)
  refine ⟨c1, ?_⟩
  have h5' : (compress_LZP BB WBITS w init_put_buffer input).ppp_lastblocksize
      = ((input.length % PPP_BLOCKSIZE BB : Nat) : Int) := by
    unfold compress_LZP
    rw [h5]
    split
    · next h => rw [h]; rfl
    · rfl
  have h4' : (compress_LZP BB WBITS w init_put_buffer input).ppp_nblocks
      = ((input.length / PPP_BLOCKSIZE BB : Nat) : Int) := by
    unfold compress_LZP
    rw [h4]; simp
  have h1' : (compress_LZP BB WBITS w init_put_buffer input).put.out
      = stream BB WBITS input.length w 0 input := by
    unfold compress_LZP
    rw [h1]; simp
  rw [h4', h5', h1']
  unfold decompress_LZP
  simp only [decode_blocks_guard]
  exact hc1

end Lzpgt2

/-! ## The bulk decoder against the scalar decoder -/

namespace Lzpgt7

open Lzpgt

/-- The test `x & (1 << k)` of the bulk decoder is the test of bit `k`. -/
theorem mask_test (x k : Nat) : (x &&& (1 <<< k) ≠ 0) ↔ x.testBit k = true := by
  rw [Nat.one_shiftLeft, Nat.and_two_pow]
  have hpos : 0 < 2 ^ k := Nat.pos_pow_of_pos _ (by decide)
  cases x.testBit k
  · simp
  · simp

theorem copy_bits_eq (n : Nat) : ∀ (l : List Nat) (k : Nat),
    copy_bits n ⟨l, k⟩ = if n ≤ l.length then some (l.take n, ⟨l.drop n, k⟩) else none := by
  induction n with
  | zero => intro l k; simp [copy_bits]
  | succ n ih =>
    intro l k
    cases l with
    | nil => simp [copy_bits, next_byte]
    | cons x l =>
      simp only [copy_bits, next_byte, ih l k, List.length_cons, Nat.add_le_add_iff_right]
      by_cases h : n ≤ l.length
      · simp [h]
      · simp [h]

/-- The bit-testing loop of the bulk decoder is the loop "Output bytes" of
the scalar decoder on the bits of `gb`. -/
theorem mask_bytes_eq (WBITS : Nat) (n : Nat) :
    ∀ (gb : List Nat) (w : Nat → Nat) (prev c : Nat) (l : List Nat) (k : Nat) (put : PutBuf),
    k < 8 →
    mask_bytes WBITS n gb ⟨w, prev, c, ⟨l, k⟩, put⟩
      = Lzpgt2.output_bytes WBITS ((unpack n gb k).map (fun b => if b then 1 else 0))
          ⟨w, prev, c, ⟨l, (k + n) % 8⟩, put⟩ := by
  induction n with
  | zero =>
    intro gb w prev c l k put hk
    have : (k + 0) % 8 = k := by omega
    rw [this]
    rfl
  | succ n ih =>
    intro gb w prev c l k put hk
    have hk1 : (k + (n + 1)) % 8 = ((if k + 1 = 8 then 0 else k + 1) + n) % 8 := by
      split <;> omega
    by_cases hbit : (gb.headD 0).testBit k = true
    · have htest : gb.headD 0 &&& (1 <<< k) ≠ 0 := (mask_test _ _).mpr hbit
      simp only [mask_bytes, mask_byte, unpack, List.map_cons, hbit, if_true,
        Lzpgt2.output_bytes, Lzpgt2.output_byte, if_pos htest]
      by_cases h8 : k + 1 = 8
      · simp only [h8, if_true] at hk1 ⊢
        rw [ih gb.tail w _ _ l 0 _ (by omega), hk1]
      · simp only [h8, if_false] at hk1 ⊢
        rw [ih gb w _ _ l (k + 1) _ (by omega), hk1]
    · have hbit' : (gb.headD 0).testBit k = false := by simpa using hbit
      have htest : ¬ (gb.headD 0 &&& (1 <<< k) ≠ 0) := fun h => hbit ((mask_test _ _).mp h)
      simp only [mask_bytes, mask_byte, unpack, List.map_cons, hbit', Bool.false_eq_true,
        if_false, Lzpgt2.output_bytes, Lzpgt2.output_byte, if_neg htest, next_byte, gfgetc,
        Nat.zero_ne_one]
      cases l with
      | nil => rfl
      | cons x l =>
        by_cases h8 : k + 1 = 8
        · simp only [h8, if_true] at hk1 ⊢
          rw [ih gb.tail _ _ _ l 0 _ (by omega), hk1]
        · simp only [h8, if_false] at hk1 ⊢
          rw [ih gb _ _ _ l (k + 1) _ (by omega), hk1]

/-- The bits read depend only on the bytes they are read from. -/
theorem unpack_take (n q : Nat) (l : List Nat) (h : n ≤ 8 * q) :
    unpack n (l.take q) 0 = unpack n l 0 := by
  rw [unpack_eq _ _ 0 (by omega), unpack_eq _ _ 0 (by omega)]
  apply List.map_congr_left
  intro i hi
  have hi' : i < n := List.mem_range.mp hi
  have hq : (0 + i) / 8 < q := by omega
  rw [List.getD_eq_getElem?_getD, List.getD_eq_getElem?_getD, List.getElem?_take_of_lt hq]

theorem output_byte_g_cnt (WBITS : Nat) (b : Nat) (s s1 : DecState)
    (h : Lzpgt2.output_byte WBITS s b = some s1) : s1.get.g_cnt = s.get.g_cnt := by
  unfold Lzpgt2.output_byte at h
  by_cases hb : b = 1
  · rw [if_pos hb] at h
    cases h
    rfl
  · rw [if_neg hb] at h
    unfold gfgetc at h
    cases hg : s.get.gbuf with
    | nil => rw [hg] at h; cases h
    | cons x l =>
      rw [hg] at h
      cases h
      rfl

/-- The loop "Output bytes" never changes the bit count. -/
theorem output_bytes_g_cnt (WBITS : Nat) (bbuf : List Nat) : ∀ (s s1 : DecState),
    Lzpgt2.output_bytes WBITS bbuf s = some s1 → s1.get.g_cnt = s.get.g_cnt := by
  induction bbuf with
  | nil => intro s s1 h; cases h; rfl
  | cons b bbuf ih =>
    intro s s1 h
    unfold Lzpgt2.output_bytes at h
    cases hb : Lzpgt2.output_byte WBITS s b with
    | none => rw [hb] at h; cases h
    | some s2 =>
      rw [hb] at h
      rw [ih s2 s1 h, output_byte_g_cnt WBITS b s s2 hb]

/-- The loop "Output bytes" does the same whatever the bit count is. -/
theorem output_bytes_view (WBITS : Nat) (bbuf : List Nat) :
    ∀ (w : Nat → Nat) (prev c : Nat) (l : List Nat) (j k : Nat) (put : PutBuf),
    (Lzpgt2.output_bytes WBITS bbuf ⟨w, prev, c, ⟨l, j⟩, put⟩).map DecState.view
      = (Lzpgt2.output_bytes WBITS bbuf ⟨w, prev, c, ⟨l, k⟩, put⟩).map DecState.view := by
  induction bbuf with
  | nil => intro w prev c l j k put; rfl
  | cons b bbuf ih =>
    intro w prev c l j k put
    by_cases hb : b = 1
    · simp only [Lzpgt2.output_bytes, Lzpgt2.output_byte, if_pos hb]
      exact ih _ _ _ _ _ _ _
    · cases l with
      | nil => simp [Lzpgt2.output_bytes, Lzpgt2.output_byte, if_neg hb, gfgetc]
      | cons x l =>
        simp only [Lzpgt2.output_bytes, Lzpgt2.output_byte, if_neg hb, gfgetc]
        exact ih _ _ _ _ _ _ _

/-- On a byte boundary the bodies of the two loops over the full blocks are
the same function. -/
theorem decode_block_agree (BB WBITS : Nat) (hBB : 3 ≤ BB) (s : DecState)
    (hs : s.get.g_cnt = 0) :
    decode_block BB WBITS s = Lzpgt2.decode_block BB WBITS s := by
  obtain ⟨w, prev, c, ⟨l, k⟩, put⟩ := s
  simp only at hs
  subst hs
  have hB := blocksize_pos BB
  have h8 := blocksize_mod8 BB hBB
  have hm : (0 + PPP_BLOCKSIZE BB) % 8 = 0 := by omega
  have hd : (0 + PPP_BLOCKSIZE BB) / 8 = PPP_BLOCKSIZE BB / 8 := by omega
  simp only [decode_block, Lzpgt2.decode_block, copy_bits_eq, get_bits_eq _ _ 0 (by decide : 0 < 8)]
  by_cases hlen : PPP_BLOCKSIZE BB / 8 ≤ l.length
  · have hc : PPP_BLOCKSIZE BB = 0 ∨ (0 + PPP_BLOCKSIZE BB + 7) / 8 ≤ l.length := by
      right; omega
    rw [if_pos hlen, if_pos hc]
    simp only [hm, hd]
    rw [mask_bytes_eq WBITS _ _ _ _ _ _ 0 _ (by decide), hm,
      unpack_take _ _ _ (by omega)]
  · have hc : ¬ (PPP_BLOCKSIZE BB = 0 ∨ (0 + PPP_BLOCKSIZE BB + 7) / 8 ≤ l.length) := by
      omega
    rw [if_neg hlen, if_neg hc]

theorem decode_block_g_cnt (BB WBITS : Nat) (hBB : 3 ≤ BB) (s s1 : DecState)
    (hs : s.get.g_cnt = 0) (h : Lzpgt2.decode_block BB WBITS s = some s1) :
    s1.get.g_cnt = 0 := by
  obtain ⟨w, prev, c, ⟨l, k⟩, put⟩ := s
  simp only at hs
  subst hs
  have h8 := blocksize_mod8 BB hBB
  have hm : (0 + PPP_BLOCKSIZE BB) % 8 = 0 := by omega
  simp only [Lzpgt2.decode_block, get_bits_eq _ _ 0 (by decide : 0 < 8)] at h
  by_cases hc : PPP_BLOCKSIZE BB = 0 ∨ (0 + PPP_BLOCKSIZE BB + 7) / 8 ≤ l.length
  · rw [if_pos hc] at h
    simp only [hm] at h
    rw [output_bytes_g_cnt _ _ _ _ h]
  · rw [if_neg hc] at h
    cases h

/-- The two loops over the full blocks agree. -/
theorem decode_blocks_agree (BB WBITS : Nat) (hBB : 3 ≤ BB) (n : Nat) : ∀ (s : DecState),
    s.get.g_cnt = 0 →
    decode_blocks BB WBITS n s = Lzpgt2.decode_blocks BB WBITS n s ∧
    ∀ s1, Lzpgt2.decode_blocks BB WBITS n s = some s1 → s1.get.g_cnt = 0 := by
  induction n with
  | zero =>
    intro s hs
    refine ⟨rfl, ?_⟩
    intro s1 h
    cases h
    exact hs
  | succ n ih =>
    intro s hs
    simp only [decode_blocks, Lzpgt2.decode_blocks, decode_block_agree BB WBITS hBB s hs]
    cases hb : Lzpgt2.decode_block BB WBITS s with
    | none => simp
    | some s2 =>
      have h2 := decode_block_g_cnt BB WBITS hBB s s2 hs hb
      exact ih s2 h2

/-- On a byte boundary the two treatments of the last block agree, up to the
bit count they leave. -/
theorem decode_last_agree (WBITS : Nat) (L : Int) (s : DecState) (hs : s.get.g_cnt = 0) :
    (decode_last WBITS L s).map DecState.view
      = (Lzpgt2.decode_last WBITS L s).map DecState.view := by
  obtain ⟨w, prev, c, ⟨l, k⟩, put⟩ := s
  simp only at hs
  subst hs
  by_cases hL : 0 < L
  · have hn : 0 < L.toNat := by omega
    simp only [decode_last, Lzpgt2.decode_last, if_pos hL]
    generalize L.toNat = n at hn ⊢
    simp only [copy_bits_eq, get_bits_eq _ _ 0 (by decide : 0 < 8)]
    by_cases hlen : (n + 7) / 8 ≤ l.length
    · have hc : n = 0 ∨ (0 + n + 7) / 8 ≤ l.length := by right; omega
      have hc2 : n / 8 ≤ l.length := by omega
      rw [if_pos hc, if_pos hc2]
      by_cases hr : n % 8 = 0
      · have hm : (0 + n) % 8 = 0 := by omega
        have hd : (0 + n) / 8 = n / 8 := by omega
        simp only [hr, ne_eq, not_true_eq_false, if_false, hm, hd, Nat.lt_irrefl, false_and]
        rw [mask_bytes_eq WBITS _ _ _ _ _ _ 0 _ (by decide), unpack_take _ _ _ (by omega)]
        exact output_bytes_view _ _ _ _ _ _ _ _ _
      · have hm : 0 < (0 + n) % 8 ∧ (0 + n) % 8 < 8 := by omega
        have hd : (0 + n) / 8 = n / 8 := by omega
        have hlt : n / 8 < l.length := by omega
        have hdrop : l.drop (n / 8) = l[n / 8] :: l.drop (n / 8 + 1) :=
          List.drop_eq_getElem_cons hlt
        have htake : l.take (n / 8) ++ [l[n / 8]] = l.take (n / 8 + 1) := by
          rw [List.take_succ, List.getElem?_eq_getElem hlt]
          rfl
        simp only [hr, ne_eq, not_false_eq_true, if_true, hm, and_self, hd, gfgetc, hdrop,
          force_advance_gbuf, advance_gbuf, List.tail_cons, htake]
        rw [mask_bytes_eq WBITS _ _ _ _ _ _ 0 _ (by decide), unpack_take _ _ _ (by omega)]
        exact output_bytes_view _ _ _ _ _ _ _ _ _
    · have hc : ¬ (n = 0 ∨ (0 + n + 7) / 8 ≤ l.length) := by omega
      rw [if_neg hc]
      by_cases hc2 : n / 8 ≤ l.length
      · have hr : n % 8 ≠ 0 := by omega
        have hnil : l.drop (n / 8) = [] := List.drop_eq_nil_of_le (by omega)
        simp [if_pos hc2, hr, gfgetc, hnil]
      · simp [if_neg hc2]
  · simp only [decode_last, Lzpgt2.decode_last, if_neg hL]

/-- The scalar and the bulk `decompress_LZP` agree on every header and every
payload. -/
theorem decompress_agree (BB WBITS : Nat) (hBB : 3 ≤ BB) (nblocks L : Int) (w : Nat → Nat)
    (payload : List Nat) (put : PutBuf) :
    (decompress_LZP BB WBITS nblocks L w ⟨payload, 0⟩ put).map DecState.view
      = (Lzpgt2.decompress_LZP BB WBITS nblocks L w ⟨payload, 0⟩ put).map DecState.view := by
  unfold decompress_LZP Lzpgt2.decompress_LZP
  by_cases hn : 0 < nblocks
  · obtain ⟨h1, h2⟩ := decode_blocks_agree BB WBITS hBB nblocks.toNat
      ⟨w, 0, 0, ⟨payload, 0⟩, put⟩ rfl
    simp only [if_pos hn, h1]
    cases hb : Lzpgt2.decode_blocks BB WBITS nblocks.toNat ⟨w, 0, 0, ⟨payload, 0⟩, put⟩ with
    | none => rfl
    | some s1 => exact decode_last_agree WBITS L s1 (h2 s1 hb)
  · simp only [if_neg hn]
    exact decode_last_agree WBITS L _ rfl

end Lzpgt7

/-! ## The encoder of `lzpgt7.c` -/

namespace Lzpgt7

open Lzpgt

/-- The body of the outer loop of `compress_LZP` of `lzpgt7.c` on a full
block, entered on a byte boundary. -/
theorem finish_full7 (BB WBITS : Nat) (hBB : 3 ≤ BB) (s : EncState) (p : List Nat)
    (o : List Nat) (hput : s.put = ⟨o, 0, 0⟩)
    (hp : p.length = PPP_BLOCKSIZE BB) :
    finish_block BB (encode_bytes WBITS { s with cbuf := [] } p) p.length =
      { w := table_after WBITS s.w s.prev p,
        prev := hash_after WBITS s.prev p,
        cbuf := misses WBITS s.w s.prev p,
        put := ⟨o ++ block_bytes WBITS s.w s.prev p, 0, 0⟩,
        ppp_nblocks := s.ppp_nblocks + 1,
        ppp_lastblocksize := s.ppp_lastblocksize } := by
  have h8 : (hits WBITS s.w s.prev p).length % 8 = 0 := by
    rw [hits_length, hp]; exact blocksize_mod8 BB hBB
  rw [encode_bytes_eq, finish_block, if_pos hp]
  simp only [hput, put_bits_full _ o h8, write_mismatched_eq, List.nil_append, block_bytes,
    hits_length, List.append_assoc]

/-- The body of the outer loop of `compress_LZP` of `lzpgt7.c` on a short
block, entered on a byte boundary. -/
theorem finish_short7 (BB WBITS : Nat) (s : EncState) (p : List Nat)
    (o : List Nat) (hput : s.put = ⟨o, 0, 0⟩)
    (hp : p.length < PPP_BLOCKSIZE BB) :
    finish_block BB (encode_bytes WBITS { s with cbuf := [] } p) p.length =
      { w := table_after WBITS s.w s.prev p,
        prev := hash_after WBITS s.prev p,
        cbuf := misses WBITS s.w s.prev p,
        put := ⟨o ++ block_bytes WBITS s.w s.prev p, 0, 0⟩,
        ppp_nblocks := s.ppp_nblocks,
        ppp_lastblocksize := p.length } := by
  rw [encode_bytes_eq, finish_block, if_neg (by omega), if_pos hp]
  simp only [hput, put_bits_section, write_mismatched_eq, List.nil_append, block_bytes,
    hits_length, List.append_assoc]

theorem compress_loop_nil7 (BB WBITS fuel : Nat) (s : EncState) :
    compress_loop BB WBITS fuel s [] = s := by
  cases fuel <;> simp [compress_loop]

/-- The outer loop of `compress_LZP` of `lzpgt7.c` in closed form. -/
theorem compress_loop_eq7 (BB WBITS : Nat) (hBB : 3 ≤ BB) (fuel : Nat) :
    ∀ (input : List Nat) (s : EncState) (o : List Nat), input.length ≤ fuel →
      s.put = ⟨o, 0, 0⟩ →
      (compress_loop BB WBITS fuel s input).put
          = ⟨o ++ stream BB WBITS fuel s.w s.prev input, 0, 0⟩ ∧
      (compress_loop BB WBITS fuel s input).w = table_after WBITS s.w s.prev input ∧
      (compress_loop BB WBITS fuel s input).prev = hash_after WBITS s.prev input ∧
      (compress_loop BB WBITS fuel s input).ppp_nblocks
          = s.ppp_nblocks + (input.length / PPP_BLOCKSIZE BB : Nat) ∧
      (compress_loop BB WBITS fuel s input).ppp_lastblocksize
          = if input.length % PPP_BLOCKSIZE BB = 0 then s.ppp_lastblocksize
            else ((input.length % PPP_BLOCKSIZE BB : Nat) : Int) := by
  have hB := blocksize_pos BB
  induction fuel with
  | zero =>
    intro input s o hlen hput
    have hnil : input = [] := List.length_eq_zero.mp (by omega)
    subst hnil
    simp [compress_loop, stream, hput, table_after, hash_after]
  | succ fuel ih =>
    intro input s o hlen hput
    by_cases hnil : input = []
    · subst hnil
      simp [compress_loop, stream, hput, table_after, hash_after]
    · have hpos : 0 < input.length := List.length_pos.mpr hnil
      have hsplit : input = input.take (PPP_BLOCKSIZE BB) ++ input.drop (PPP_BLOCKSIZE BB) :=
        (List.take_append_drop _ input).symm
      have htl : (input.take (PPP_BLOCKSIZE BB)).length = min (PPP_BLOCKSIZE BB) input.length :=
        List.length_take _ _
      have hne : (input.take (PPP_BLOCKSIZE BB)).length ≠ 0 := by rw [htl]; omega
      have hta : table_after WBITS s.w s.prev input
          = table_after WBITS (table_after WBITS s.w s.prev (input.take (PPP_BLOCKSIZE BB)))
              (hash_after WBITS s.prev (input.take (PPP_BLOCKSIZE BB)))
              (input.drop (PPP_BLOCKSIZE BB)) := by
        conv_lhs => rw [hsplit]
        exact table_after_append _ _ _ _ _
      have hha : hash_after WBITS s.prev input
          = hash_after WBITS (hash_after WBITS s.prev (input.take (PPP_BLOCKSIZE BB)))
              (input.drop (PPP_BLOCKSIZE BB)) := by
        conv_lhs => rw [hsplit]
        exact hash_after_append _ _ _ _
      simp only [compress_loop, stream, if_neg hne]
      by_cases hfull : PPP_BLOCKSIZE BB ≤ input.length
      · have hp : (input.take (PPP_BLOCKSIZE BB)).length = PPP_BLOCKSIZE BB := by
          rw [htl]; omega
        have hdl : (input.drop (PPP_BLOCKSIZE BB)).length = input.length - PPP_BLOCKSIZE BB :=
          List.length_drop _ _
        rw [finish_full7 BB WBITS hBB s _ o hput hp]
        have hih := ih (input.drop (PPP_BLOCKSIZE BB))
          { w := table_after WBITS s.w s.prev (input.take (PPP_BLOCKSIZE BB)),
            prev := hash_after WBITS s.prev (input.take (PPP_BLOCKSIZE BB)),
            cbuf := misses WBITS s.w s.prev (input.take (PPP_BLOCKSIZE BB)),
            put := ⟨o ++ block_bytes WBITS s.w s.prev (input.take (PPP_BLOCKSIZE BB)), 0, 0⟩,
            ppp_nblocks := s.ppp_nblocks + 1,
            ppp_lastblocksize := s.ppp_lastblocksize }
          (o ++ block_bytes WBITS s.w s.prev (input.take (PPP_BLOCKSIZE BB)))
          (by rw [hdl]; omega) rfl
        obtain ⟨h1, h2, h3, h4, h5⟩ := hih
        have hdiv : input.length / PPP_BLOCKSIZE BB
            = (input.length - PPP_BLOCKSIZE BB) / PPP_BLOCKSIZE BB + 1 := by
          rw [← Nat.sub_add_cancel hfull, Nat.add_div_right _ hB]
          simp
        have hmod : input.length % PPP_BLOCKSIZE BB
            = (input.length - PPP_BLOCKSIZE BB) % PPP_BLOCKSIZE BB := by
          conv_lhs => rw [← Nat.sub_add_cancel hfull]
          exact Nat.add_mod_right _ _
        refine ⟨?_, ?_, ?_, ?_, ?_⟩
        · rw [h1]; simp [List.append_assoc]
        · rw [h2, hta]
        · rw [h3, hha]
        · rw [h4, hdl, hdiv]; push_cast; ring
        · rw [h5, hdl, hmod]
      · have hp : (input.take (PPP_BLOCKSIZE BB)).length < PPP_BLOCKSIZE BB := by
          rw [htl]; omega
        have htake : input.take (PPP_BLOCKSIZE BB) = input :=
          List.take_of_length_le (by omega)
        have hdrop : input.drop (PPP_BLOCKSIZE BB) = [] :=
          List.drop_eq_nil_of_le (by omega)
        rw [finish_short7 BB WBITS s _ o hput hp, hdrop, compress_loop_nil7, htake]
        have hdiv : input.length / PPP_BLOCKSIZE BB = 0 := Nat.div_eq_of_lt (by omega)
        have hmod : input.length % PPP_BLOCKSIZE BB = input.length := Nat.mod_eq_of_lt (by omega)
        refine ⟨?_, rfl, rfl, ?_, ?_⟩
        · cases fuel <;> simp [stream]
        · simp [hdiv]
        · show ((input.length : Nat) : Int) = _
          rw [hmod, if_neg (by omega)]

/-- The encoders of `lzpgt2.c` and `lzpgt7.c` write the same payload and
leave the same header counters, table and context. -/
theorem compress_agree (BB WBITS : Nat) (hBB : 3 ≤ BB) (w : Nat → Nat) (input : List Nat) :
    (compress_LZP BB WBITS w init_put_buffer input).put
      = (Lzpgt2.compress_LZP BB WBITS w init_put_buffer input).put ∧
    (compress_LZP BB WBITS w init_put_buffer input).ppp_nblocks
      = (Lzpgt2.compress_LZP BB WBITS w init_put_buffer input).ppp_nblocks ∧
    (compress_LZP BB WBITS w init_put_buffer input).ppp_lastblocksize
      = (Lzpgt2.compress_LZP BB WBITS w init_put_buffer input).ppp_lastblocksize ∧
    (compress_LZP BB WBITS w init_put_buffer input).w
      = (Lzpgt2.compress_LZP BB WBITS w init_put_buffer input).w ∧
    (compress_LZP BB WBITS w init_put_buffer input).prev
      = (Lzpgt2.compress_LZP BB WBITS w init_put_buffer input).prev := by
  obtain ⟨a1, a2, a3, a4, a5⟩ := compress_loop_eq7 BB WBITS hBB input.length input
    ⟨w, 0, [], init_put_buffer, 0, 0⟩ [] (le_refl _) rfl
  obtain ⟨b1, b2, b3, b4, b5⟩ := Lzpgt2.compress_loop_eq BB WBITS hBB input.length input
    ⟨w, 0, [], init_put_buffer, 0, 0⟩ [] (le_refl _) rfl rfl
  unfold compress_LZP Lzpgt2.compress_LZP
  rw [a1, a2, a3, a4, a5, b1, b2, b3, b4, b5]
  exact ⟨rfl, rfl, rfl, rfl, rfl⟩

/-- After the `compress_LZP` of `lzpgt7.c` there is no partial accumulator
to flush. -/
theorem flush_compress7 (BB WBITS : Nat) (hBB : 3 ≤ BB) (w : Nat → Nat) (input : List Nat) :
    flush_put_buffer (compress_LZP BB WBITS w init_put_buffer input).put
      = (compress_LZP BB WBITS w init_put_buffer input).put.out := by
  obtain ⟨h1, _, _, _, _⟩ := compress_loop_eq7 BB WBITS hBB input.length input
    ⟨w, 0, [], init_put_buffer, 0, 0⟩ [] (le_refl _) rfl
  unfold compress_LZP
  rw [h1]
  rfl

end Lzpgt7

/-! ## Layout of the payload -/

namespace Lzpgt

theorem hits_getD (WBITS : Nat) (p : List Nat) : ∀ (w : Nat → Nat) (prev i : Nat),
    i < p.length →
    (hits WBITS w prev p).getD i false
      = decide (table_after WBITS w prev (p.take i) (hash_after WBITS prev (p.take i))
          = p.getD i 0) := by
  induction p with
  | nil => intro w prev i hi; simp at hi
  | cons c p ih =>
    intro w prev i hi
    cases i with
    | zero => simp [hits, table_after, hash_after]
    | succ i =>
      simp only [List.length_cons, Nat.add_lt_add_iff_right] at hi
      simp only [hits, List.getD_cons_succ, List.take_succ_cons, table_after, hash_after]
      exact ih _ _ i hi

theorem misses_eq_filter (WBITS : Nat) (p : List Nat) : ∀ (w : Nat → Nat) (prev : Nat),
    misses WBITS w prev p
      = ((p.zip (hits WBITS w prev p)).filter (fun x => !x.2)).map (fun x => x.1) := by
  induction p with
  | nil => intro w prev; rfl
  | cons c p ih =>
    intro w prev
    by_cases h : w prev = c
    · simp [misses, hits, h, ih]
    · simp [misses, hits, h, ih]

theorem misses_length (WBITS : Nat) (p : List Nat) : ∀ (w : Nat → Nat) (prev : Nat),
    (misses WBITS w prev p).length = (hits WBITS w prev p).count false := by
  induction p with
  | nil => intro w prev; rfl
  | cons c p ih =>
    intro w prev
    by_cases h : w prev = c
    · simp [misses, hits, h, ih]
    · simp [misses, hits, h, ih]

/-- The payload does not depend on the fuel, once there is enough of it. -/
theorem stream_fuel (BB WBITS : Nat) (fuel : Nat) :
    ∀ (fuel1 : Nat) (w : Nat → Nat) (prev : Nat) (input : List Nat),
    input.length ≤ fuel → input.length ≤ fuel1 →
    stream BB WBITS fuel w prev input = stream BB WBITS fuel1 w prev input := by
  have hB := blocksize_pos BB
  induction fuel with
  | zero =>
    intro fuel1 w prev input h _
    have hnil : input = [] := List.length_eq_zero.mp (by omega)
    subst hnil
    cases fuel1 <;> simp [stream]
  | succ fuel ih =>
    intro fuel1 w prev input h h1
    cases fuel1 with
    | zero =>
      have hnil : input = [] := List.length_eq_zero.mp (by omega)
      subst hnil
      simp [stream]
    | succ fuel1 =>
      by_cases hnil : input = []
      · subst hnil
        simp [stream]
      · have hpos : 0 < input.length := List.length_pos.mpr hnil
        have hdl : (input.drop (PPP_BLOCKSIZE BB)).length = input.length - PPP_BLOCKSIZE BB :=
          List.length_drop _ _
        simp only [stream]
        rw [ih fuel1 _ _ _ (by rw [hdl]; omega) (by rw [hdl]; omega)]

/-- The payload of an input that starts with `k` full blocks: the payload of
these blocks, then the payload of the rest from the table and the context
they leave. -/
theorem stream_append (BB WBITS : Nat) (k : Nat) :
    ∀ (a c : List Nat) (w : Nat → Nat) (prev : Nat),
    a.length = k * PPP_BLOCKSIZE BB →
    stream BB WBITS (a ++ c).length w prev (a ++ c)
      = stream BB WBITS a.length w prev a ++
        stream BB WBITS c.length (table_after WBITS w prev a) (hash_after WBITS prev a) c := by
  have hB := blocksize_pos BB
  induction k with
  | zero =>
    intro a c w prev ha
    have hnil : a = [] := List.length_eq_zero.mp (by omega)
    subst hnil
    simp [stream, table_after, hash_after]
  | succ k ih =>
    intro a c w prev ha
    have ha' : a.length = k * PPP_BLOCKSIZE BB + PPP_BLOCKSIZE BB := by
      rw [ha, Nat.succ_mul]
    have hge : PPP_BLOCKSIZE BB ≤ a.length := by omega
    have hpos : 0 < a.length := by omega
    obtain ⟨n, hn⟩ : ∃ n, a.length = n + 1 := ⟨a.length - 1, by omega⟩
    have hn2 : (a ++ c).length = (n + c.length) + 1 := by rw [List.length_append]; omega
    have htake : (a ++ c).take (PPP_BLOCKSIZE BB) = a.take (PPP_BLOCKSIZE BB) :=
      List.take_append_of_le_length hge
    have hdrop : (a ++ c).drop (PPP_BLOCKSIZE BB) = a.drop (PPP_BLOCKSIZE BB) ++ c :=
      List.drop_append_of_le_length hge
    have htl : (a.take (PPP_BLOCKSIZE BB)).length = PPP_BLOCKSIZE BB := by
      rw [List.length_take]; omega
    have hdl : (a.drop (PPP_BLOCKSIZE BB)).length = k * PPP_BLOCKSIZE BB := by
      rw [List.length_drop]; omega
    have hne : (a.take (PPP_BLOCKSIZE BB)).length ≠ 0 := by omega
    have hsplit : a = a.take (PPP_BLOCKSIZE BB) ++ a.drop (PPP_BLOCKSIZE BB) :=
      (List.take_append_drop _ a).symm
    rw [hn2, hn]
    simp only [stream, htake, hdrop, if_neg hne, List.append_assoc]
    congr 1
    rw [stream_fuel BB WBITS (n + c.length) (a.drop (PPP_BLOCKSIZE BB) ++ c).length _ _ _
        (by rw [List.length_append, hdl]; omega) (le_refl _),
      stream_fuel BB WBITS n (a.drop (PPP_BLOCKSIZE BB)).length _ _ _ (by omega) (le_refl _),
      ih _ c _ _ hdl]
    congr 2
    · conv_rhs => rw [hsplit]
      rw [table_after_append]
    · conv_rhs => rw [hsplit]
      rw [hash_after_append]

end Lzpgt

namespace Lzpgt2

open Lzpgt

/-- The encoder run on the whole input, in closed form. -/
theorem compress_closed (BB WBITS : Nat) (hBB : 3 ≤ BB) (w : Nat → Nat) (input : List Nat) :
    (compress_LZP BB WBITS w init_put_buffer input).put
        = ⟨stream BB WBITS input.length w 0 input, 0, 0⟩ ∧
    (compress_LZP BB WBITS w init_put_buffer input).w = table_after WBITS w 0 input ∧
    (compress_LZP BB WBITS w init_put_buffer input).prev = hash_after WBITS 0 input := by
  obtain ⟨h1, h2, h3, _, _⟩ := compress_loop_eq BB WBITS hBB input.length input
    ⟨w, 0, [], init_put_buffer, 0, 0⟩ [] (le_refl _) rfl rfl
  unfold compress_LZP
  rw [h1, h2, h3]
  exact ⟨by simp, rfl, rfl⟩

/-- After `compress_LZP` there is no partial accumulator to flush. -/
theorem flush_compress (BB WBITS : Nat) (hBB : 3 ≤ BB) (w : Nat → Nat) (input : List Nat) :
    flush_put_buffer (compress_LZP BB WBITS w init_put_buffer input).put
      = (compress_LZP BB WBITS w init_put_buffer input).put.out := by
  obtain ⟨h1, _, _⟩ := compress_closed BB WBITS hBB w input
  rw [h1]
  rfl

/-- The place of block `k` in the payload: after what the encoder has written
for the first `k` blocks come the packed hit bits of the block, then its
mismatched bytes, then the later blocks. -/
theorem block_layout (BB WBITS : Nat) (hBB : 3 ≤ BB) (w : Nat → Nat) (X : List Nat) (k : Nat)
    (hk : k * PPP_BLOCKSIZE BB < X.length) :
    ∃ rest,
      (compress_LZP BB WBITS w init_put_buffer X).put.out
        = (compress_LZP BB WBITS w init_put_buffer (X.take (k * PPP_BLOCKSIZE BB))).put.out
          ++ (pack_bits ((((X.drop (k * PPP_BLOCKSIZE BB)).take (PPP_BLOCKSIZE BB)).length + 7) / 8)
              (hits WBITS
                (compress_LZP BB WBITS w init_put_buffer (X.take (k * PPP_BLOCKSIZE BB))).w
                (compress_LZP BB WBITS w init_put_buffer (X.take (k * PPP_BLOCKSIZE BB))).prev
                ((X.drop (k * PPP_BLOCKSIZE BB)).take (PPP_BLOCKSIZE BB)))
          ++ (misses WBITS
                (compress_LZP BB WBITS w init_put_buffer (X.take (k * PPP_BLOCKSIZE BB))).w
                (compress_LZP BB WBITS w init_put_buffer (X.take (k * PPP_BLOCKSIZE BB))).prev
                ((X.drop (k * PPP_BLOCKSIZE BB)).take (PPP_BLOCKSIZE BB))
          ++ rest)) ∧
      (X.length ≤ (k + 1) * PPP_BLOCKSIZE BB → rest = []) := by
  have hB := blocksize_pos BB
  obtain ⟨a1, _, _⟩ := compress_closed BB WBITS hBB w X
  obtain ⟨b1, b2, b3⟩ := compress_closed BB WBITS hBB w (X.take (k * PPP_BLOCKSIZE BB))
  have hal : (X.take (k * PPP_BLOCKSIZE BB)).length = k * PPP_BLOCKSIZE BB := by
    rw [List.length_take]; omega
  have hcl : (X.drop (k * PPP_BLOCKSIZE BB)).length = X.length - k * PPP_BLOCKSIZE BB :=
    List.length_drop _ _
  have hsplit : X = X.take (k * PPP_BLOCKSIZE BB) ++ X.drop (k * PPP_BLOCKSIZE BB) :=
    (List.take_append_drop _ X).symm
  have hs : stream BB WBITS X.length w 0 X
      = stream BB WBITS (X.take (k * PPP_BLOCKSIZE BB)).length w 0
          (X.take (k * PPP_BLOCKSIZE BB)) ++
        stream BB WBITS (X.drop (k * PPP_BLOCKSIZE BB)).length
          (table_after WBITS w 0 (X.take (k * PPP_BLOCKSIZE BB)))
          (hash_after WBITS 0 (X.take (k * PPP_BLOCKSIZE BB)))
          (X.drop (k * PPP_BLOCKSIZE BB)) := by
    have := stream_append BB WBITS k (X.take (k * PPP_BLOCKSIZE BB))
      (X.drop (k * PPP_BLOCKSIZE BB)) w 0 hal
    rw [List.take_append_drop] at this
    exact this
  obtain ⟨n, hn⟩ : ∃ n, (X.drop (k * PPP_BLOCKSIZE BB)).length = n + 1 :=
    ⟨(X.drop (k * PPP_BLOCKSIZE BB)).length - 1, by omega⟩
  have hne : ((X.drop (k * PPP_BLOCKSIZE BB)).take (PPP_BLOCKSIZE BB)).length ≠ 0 := by
    rw [List.length_take]; omega
  rw [a1, b1, b2, b3]
  simp only
  rw [hs, hn]
  simp only [stream, if_neg hne, block_bytes, List.append_assoc]
  refine ⟨_, rfl, ?_⟩
  intro hle
  have hle' : X.length ≤ k * PPP_BLOCKSIZE BB + PPP_BLOCKSIZE BB := by
    rw [Nat.succ_mul] at hle; exact hle
  have hd : (X.drop (k * PPP_BLOCKSIZE BB)).drop (PPP_BLOCKSIZE BB) = [] :=
    List.drop_eq_nil_of_le (by omega)
  rw [hd]
  cases n <;> simp [stream]

end Lzpgt2

namespace Lzpgt

/-- The bits of a bit section that sits in the payload are read back from
there. -/
theorem read_bits_layout (pre : List Nat) (bs : List Bool) (more : List Nat) :
    read_bits (pre ++ (pack_bits ((bs.length + 7) / 8) bs ++ more)) pre.length bs.length
      = bs := by
  unfold read_bits
  apply List.ext_getElem
  · simp
  · intro i h1 h2
    simp only [List.getElem_map, List.getElem_range, payload_bit]
    rw [List.getD_append_right _ _ _ _ (by omega), Nat.add_sub_cancel_left,
      bit_of_pack_bits _ _ _ _ (by omega), List.getD_eq_getElem?_getD,
      List.getElem?_eq_getElem h2]
    rfl

theorem payload_bit_layout (pre : List Nat) (bs : List Bool) (more : List Nat) (i : Nat)
    (hi : i < bs.length) :
    payload_bit (pre ++ (pack_bits ((bs.length + 7) / 8) bs ++ more)) pre.length i
      = bs.getD i false := by
  unfold payload_bit
  rw [List.getD_append_right _ _ _ _ (by omega), Nat.add_sub_cancel_left,
    bit_of_pack_bits _ _ _ _ (by omega)]

end Lzpgt

namespace Lzpgt2

open Lzpgt

/-- The header counter `ppp_lastblocksize` left by `compress_LZP`. -/
theorem lastblocksize_eq (BB WBITS : Nat) (w : Nat → Nat) (put : PutBuf) (X : List Nat) :
    (compress_LZP BB WBITS w put X).ppp_lastblocksize.toNat = X.length % PPP_BLOCKSIZE BB := by
  obtain ⟨_, h2⟩ := compress_loop_counters BB WBITS X.length X ⟨w, 0, [], put, 0, 0⟩ (le_refl _)
  unfold compress_LZP
  rw [h2]
  split
  · next h => rw [h]; rfl
  · exact Int.toNat_ofNat _

/-- The trailing block of an input whose length is not a multiple of the
block size. -/
theorem trailing_block (BB : Nat) (X : List Nat) :
    (block BB X (X.length / PPP_BLOCKSIZE BB)).length = X.length % PPP_BLOCKSIZE BB := by
  have hB := blocksize_pos BB
  unfold block
  have h1 := Nat.div_add_mod X.length (PPP_BLOCKSIZE BB)
  have h2 := Nat.mod_lt X.length hB
  rw [Nat.mul_comm] at h1
  rw [List.length_take, List.length_drop]
  omega

/-- The payload of an input with a trailing block: what is written for the
full blocks, the packed hit bits of the trailing block, its mismatched
bytes. -/
theorem trailing_layout (BB WBITS : Nat) (hBB : 3 ≤ BB) (w : Nat → Nat) (X : List Nat)
    (hL : X.length % PPP_BLOCKSIZE BB ≠ 0) :
    (compress_LZP BB WBITS w init_put_buffer X).put.out
      = (compress_LZP BB WBITS w init_put_buffer
          (X.take (X.length / PPP_BLOCKSIZE BB * PPP_BLOCKSIZE BB))).put.out
        ++ (pack_bits ((X.length % PPP_BLOCKSIZE BB + 7) / 8)
            (hits WBITS
              (compress_LZP BB WBITS w init_put_buffer
                (X.take (X.length / PPP_BLOCKSIZE BB * PPP_BLOCKSIZE BB))).w
              (compress_LZP BB WBITS w init_put_buffer
                (X.take (X.length / PPP_BLOCKSIZE BB * PPP_BLOCKSIZE BB))).prev
              (block BB X (X.length / PPP_BLOCKSIZE BB)))
        ++ (misses WBITS
              (compress_LZP BB WBITS w init_put_buffer
                (X.take (X.length / PPP_BLOCKSIZE BB * PPP_BLOCKSIZE BB))).w
              (compress_LZP BB WBITS w init_put_buffer
                (X.take (X.length / PPP_BLOCKSIZE BB * PPP_BLOCKSIZE BB))).prev
              (block BB X (X.length / PPP_BLOCKSIZE BB)) ++ [])) := by
  have hB := blocksize_pos BB
  have h1 := Nat.div_add_mod X.length (PPP_BLOCKSIZE BB)
  have h2 := Nat.mod_lt X.length hB
  rw [Nat.mul_comm] at h1
  have hk : X.length / PPP_BLOCKSIZE BB * PPP_BLOCKSIZE BB < X.length := by omega
  obtain ⟨rest, hlay, hrest⟩ := block_layout BB WBITS hBB w X (X.length / PPP_BLOCKSIZE BB) hk
  have hr : rest = [] := hrest (by rw [Nat.succ_mul]; omega)
  rw [hr] at hlay
  have htl := trailing_block BB X
  unfold block at htl
  rw [htl] at hlay
  exact hlay

end Lzpgt2

/-! ## Zero bytes -/

namespace Lzpgt

theorem update_hash_zero (WBITS : Nat) : update_hash WBITS 0 0 = 0 := by
  simp [update_hash]

theorem store_zero : store zero_table 0 0 = zero_table :=
  store_self zero_table 0 0 rfl

/-- On zero bytes, from the all-zero table and context 0, every byte is a
hit and the table and the context stay as they are. -/
theorem zeros_scan (WBITS : Nat) (n : Nat) :
    hits WBITS zero_table 0 (List.replicate n 0) = List.replicate n true ∧
    misses WBITS zero_table 0 (List.replicate n 0) = [] ∧
    table_after WBITS zero_table 0 (List.replicate n 0) = zero_table ∧
    hash_after WBITS 0 (List.replicate n 0) = 0 := by
  induction n with
  | zero => exact ⟨rfl, rfl, rfl, rfl⟩
  | succ n ih =>
    obtain ⟨h1, h2, h3, h4⟩ := ih
    have hz : zero_table 0 = 0 := rfl
    refine ⟨?_, ?_, ?_, ?_⟩
    · simp [List.replicate_succ, hits, update_hash_zero, store_zero, h1, hz]
    · simp [List.replicate_succ, misses, update_hash_zero, store_zero, h2, hz]
    · simp [List.replicate_succ, table_after, update_hash_zero, store_zero, h3]
    · simp [List.replicate_succ, hash_after, update_hash_zero, h4]

theorem pack_byte_ones (r : Nat) : pack_byte (List.replicate r true) = 2 ^ r - 1 := by
  induction r with
  | zero => rfl
  | succ r ih =>
    have hpos : 0 < 2 ^ r := Nat.pos_pow_of_pos _ (by decide)
    simp only [List.replicate_succ, pack_byte, ih, Bool.toNat_true, pow_succ]
    omega

/-- A bit vector of ones, packed. -/
theorem pack_bits_ones (q : Nat) : ∀ (r : Nat), r < 8 →
    pack_bits (q + (if r = 0 then 0 else 1)) (List.replicate (8 * q + r) true)
      = List.replicate q 255 ++ (if r = 0 then [] else [2 ^ r - 1]) := by
  induction q with
  | zero =>
    intro r hr
    by_cases h0 : r = 0
    · subst h0; rfl
    · have ht : (List.replicate r true).take 8 = List.replicate r true :=
        List.take_of_length_le (by simp; omega)
      simp [if_neg h0, pack_bits, ht, pack_byte_ones]
  | succ q ih =>
    intro r hr
    have hlen : 8 * (q + 1) + r = 8 + (8 * q + r) := by omega
    have hq : q + 1 + (if r = 0 then 0 else 1) = (q + (if r = 0 then 0 else 1)) + 1 := by omega
    have ht : (List.replicate (8 + (8 * q + r)) true).take 8 = List.replicate 8 true := by
      rw [List.take_replicate]; congr 1; omega
    have hd : (List.replicate (8 + (8 * q + r)) true).drop 8 = List.replicate (8 * q + r) true := by
      rw [List.drop_replicate]; congr 1; omega
    rw [hlen, hq, pack_bits, ht, hd, ih r hr, pack_byte_ones]
    rfl

theorem pack_bits_ones_len (n : Nat) :
    pack_bits ((n + 7) / 8) (List.replicate n true)
      = List.replicate (n / 8) 255 ++ (if n % 8 = 0 then [] else [2 ^ (n % 8) - 1]) := by
  have h := pack_bits_ones (n / 8) (n % 8) (Nat.mod_lt _ (by decide))
  have h1 : 8 * (n / 8) + n % 8 = n := Nat.div_add_mod n 8
  have h2 : n / 8 + (if n % 8 = 0 then 0 else 1) = (n + 7) / 8 := by
    split <;> omega
  rw [h1, h2] at h
  exact h

/-- The payload of `n` zero bytes from the all-zero table and context 0. -/
theorem stream_zeros (BB WBITS : Nat) (hBB : 3 ≤ BB) (fuel : Nat) : ∀ (n : Nat), n ≤ fuel →
    stream BB WBITS fuel zero_table 0 (List.replicate n 0)
      = List.replicate (n / 8) 255 ++ (if n % 8 = 0 then [] else [2 ^ (n % 8) - 1]) := by
  have hB := blocksize_pos BB
  have h8 := blocksize_mod8 BB hBB
  induction fuel with
  | zero =>
    intro n hn
    have : n = 0 := by omega
    subst this
    rfl
  | succ fuel ih =>
    intro n hn
    by_cases h0 : n = 0
    · subst h0
      simp [stream]
    · have htake : (List.replicate n 0).take (PPP_BLOCKSIZE BB)
          = List.replicate (min (PPP_BLOCKSIZE BB) n) 0 := List.take_replicate _ _ _
      have hdrop : (List.replicate n 0).drop (PPP_BLOCKSIZE BB)
          = List.replicate (n - PPP_BLOCKSIZE BB) 0 := List.drop_replicate _ _ _
      obtain ⟨z1, z2, z3, z4⟩ := zeros_scan WBITS (min (PPP_BLOCKSIZE BB) n)
      have hne : (List.replicate (min (PPP_BLOCKSIZE BB) n) 0).length ≠ 0 := by
        rw [List.length_replicate]; omega
      have hstep : stream BB WBITS (fuel + 1) zero_table 0 (List.replicate n 0)
          = block_bytes WBITS zero_table 0 (List.replicate (min (PPP_BLOCKSIZE BB) n) 0) ++
            stream BB WBITS fuel
              (table_after WBITS zero_table 0 (List.replicate (min (PPP_BLOCKSIZE BB) n) 0))
              (hash_after WBITS 0 (List.replicate (min (PPP_BLOCKSIZE BB) n) 0))
              (List.replicate (n - PPP_BLOCKSIZE BB) 0) := by
        rw [stream]
        simp only [htake, hdrop]
        rw [if_neg hne]
      rw [hstep, z3, z4, ih (n - PPP_BLOCKSIZE BB) (by omega)]
      simp only [block_bytes, z1, z2, List.length_replicate, List.append_nil]
      rw [pack_bits_ones_len]
      by_cases hle : n ≤ PPP_BLOCKSIZE BB
      · have hm : min (PPP_BLOCKSIZE BB) n = n := by omega
        have hs : n - PPP_BLOCKSIZE BB = 0 := by omega
        rw [hm, hs]
        simp
      · have hm : min (PPP_BLOCKSIZE BB) n = PPP_BLOCKSIZE BB := by omega
        have hmod : (n - PPP_BLOCKSIZE BB) % 8 = n % 8 := by omega
        have hdiv : PPP_BLOCKSIZE BB / 8 + (n - PPP_BLOCKSIZE BB) / 8 = n / 8 := by omega
        rw [hm, h8, if_pos rfl, List.append_nil, hmod, ← List.append_assoc,
          ← List.replicate_add, hdiv]

end Lzpgt

namespace Lzpgt2

open Lzpgt

/-- The run of `compress_LZP` on `n` zero bytes from the all-zero table. -/
theorem compress_zeros (BB WBITS : Nat) (hBB : 3 ≤ BB) (n : Nat) :
    (compress_LZP BB WBITS zero_table init_put_buffer (List.replicate n 0)).put.out
        = List.replicate (n / 8) 255 ++ (if n % 8 = 0 then [] else [2 ^ (n % 8) - 1]) ∧
    (compress_LZP BB WBITS zero_table init_put_buffer (List.replicate n 0)).w = zero_table ∧
    (compress_LZP BB WBITS zero_table init_put_buffer (List.replicate n 0)).prev = 0 := by
  obtain ⟨h1, h2, h3⟩ := compress_closed BB WBITS hBB zero_table (List.replicate n 0)
  obtain ⟨_, _, z3, z4⟩ := zeros_scan WBITS n
  rw [h1, h2, h3, z3, z4]
  refine ⟨?_, rfl, rfl⟩
  simp only [List.length_replicate]
  exact stream_zeros BB WBITS hBB n n (le_refl _)

end Lzpgt2

/-! ## Zero bits and literals -/

namespace Lzpgt

theorem countP_not_getD (bs : List Bool) : ∀ (m : Nat), bs.length ≤ m →
    (List.range m).countP (fun j => !bs.getD j false) = bs.count false + (m - bs.length) := by
  induction bs with
  | nil =>
    intro m _
    simp
  | cons b bs ih =>
    intro m hm
    simp only [List.length_cons] at hm
    obtain ⟨m1, rfl⟩ : ∃ m1, m = m1 + 1 := ⟨m - 1, by omega⟩
    rw [List.range_succ_eq_map, List.countP_cons, List.countP_map]
    have hcomp : ((fun j => !(b :: bs).getD j false) ∘ Nat.succ) = (fun j => !bs.getD j false) := by
      funext j
      simp
    rw [hcomp, ih m1 (by omega)]
    cases b
    · simp; omega
    · simp

/-- The 0 bits of a packed byte: the 0 bits packed and the padding. -/
theorem zero_bits_pack_byte (bs : List Bool) (h : bs.length ≤ 8) :
    zero_bits_of_byte (pack_byte bs) = bs.count false + (8 - bs.length) := by
  unfold zero_bits_of_byte
  simp only [testBit_pack_byte]
  exact countP_not_getD bs 8 h

/-- The 0 bits of a packed bit vector: the 0 bits packed and the padding. -/
theorem zero_bits_pack_bits (q : Nat) : ∀ (bs : List Bool), bs.length ≤ 8 * q →
    ((pack_bits q bs).map zero_bits_of_byte).sum = bs.count false + (8 * q - bs.length) := by
  induction q with
  | zero =>
    intro bs h
    have : bs = [] := List.length_eq_zero.mp (by omega)
    subst this
    rfl
  | succ q ih =>
    intro bs h
    have hcount : bs.count false = (bs.take 8).count false + (bs.drop 8).count false := by
      conv_lhs => rw [← List.take_append_drop 8 bs]
      exact List.count_append _ _ _
    have htl : (bs.take 8).length = min 8 bs.length := List.length_take _ _
    have hdl : (bs.drop 8).length = bs.length - 8 := List.length_drop _ _
    simp only [pack_bits, List.map_cons, List.sum_cons]
    rw [zero_bits_pack_byte _ (by omega), ih (bs.drop 8) (by omega), hcount, htl, hdl]
    omega

end Lzpgt

namespace Lzpgt2

open Lzpgt

/-- After full blocks only, no mismatched byte is left recorded. -/
theorem compress_loop_cbuf (BB WBITS : Nat) (hBB : 3 ≤ BB) (fuel : Nat) :
    ∀ (input : List Nat) (s : EncState) (o : List Nat), input.length ≤ fuel →
      s.put = ⟨o, 0, 0⟩ → s.cbuf = [] → input.length % PPP_BLOCKSIZE BB = 0 →
      (compress_loop BB WBITS fuel s input).cbuf = [] := by
  have hB := blocksize_pos BB
  induction fuel with
  | zero =>
    intro input s o _ _ hc _
    exact hc
  | succ fuel ih =>
    intro input s o hlen hput hc hmod
    by_cases hnil : input = []
    · subst hnil
      simp [compress_loop, hc]
    · have hpos : 0 < input.length := List.length_pos.mpr hnil
      have hfull : PPP_BLOCKSIZE BB ≤ input.length := by
        by_contra hlt
        rw [Nat.mod_eq_of_lt (by omega)] at hmod
        omega
      have htl : (input.take (PPP_BLOCKSIZE BB)).length = PPP_BLOCKSIZE BB := by
        rw [List.length_take]; omega
      have hne : (input.take (PPP_BLOCKSIZE BB)).length ≠ 0 := by omega
      have hdl : (input.drop (PPP_BLOCKSIZE BB)).length = input.length - PPP_BLOCKSIZE BB :=
        List.length_drop _ _
      have hmod2 : (input.length - PPP_BLOCKSIZE BB) % PPP_BLOCKSIZE BB = 0 := by
        have : input.length % PPP_BLOCKSIZE BB
            = (input.length - PPP_BLOCKSIZE BB) % PPP_BLOCKSIZE BB := by
          conv_lhs => rw [← Nat.sub_add_cancel hfull]
          exact Nat.add_mod_right _ _
        rw [← this]; exact hmod
      simp only [compress_loop, if_neg hne]
      rw [finish_full BB WBITS hBB s _ o hput hc htl]
      exact ih _ _ _ (by rw [hdl]; omega) rfl rfl (by rw [hdl]; exact hmod2)

/-- The encoder starts every block on a byte boundary, with an empty
accumulator and no mismatched byte recorded. -/
theorem block_start_state (BB WBITS : Nat) (hBB : 3 ≤ BB) (X : List Nat) (k : Nat)
    (hk : k * PPP_BLOCKSIZE BB ≤ X.length) :
    (block_start BB WBITS X k).put = ⟨(block_start BB WBITS X k).put.out, 0, 0⟩ ∧
    (block_start BB WBITS X k).cbuf = [] := by
  have hal : (X.take (k * PPP_BLOCKSIZE BB)).length = k * PPP_BLOCKSIZE BB := by
    rw [List.length_take]; omega
  obtain ⟨c1, _, _⟩ := compress_closed BB WBITS hBB zero_table (X.take (k * PPP_BLOCKSIZE BB))
  constructor
  · unfold block_start
    rw [c1]
  · unfold block_start compress_LZP
    exact compress_loop_cbuf BB WBITS hBB _ _ _ [] (le_refl _) rfl rfl
      (by rw [hal]; exact Nat.mul_mod_left _ _)

/-- The bit section of a block is its packed hit bits, and the mismatched
bytes recorded at the end of the inner loop are those of the block. -/
theorem block_sections (BB WBITS : Nat) (hBB : 3 ≤ BB) (X : List Nat) (k : Nat)
    (hk : k * PPP_BLOCKSIZE BB < X.length) :
    bit_section BB WBITS X k
      = pack_bits (((block BB X k).length + 7) / 8)
          (hits WBITS (block_start BB WBITS X k).w (block_start BB WBITS X k).prev
            (block BB X k)) ∧
    (encode_bytes WBITS (block_start BB WBITS X k) (block BB X k)).cbuf
      = misses WBITS (block_start BB WBITS X k).w (block_start BB WBITS X k).prev
          (block BB X k) := by
  obtain ⟨rest, hlay, _⟩ := block_layout BB WBITS hBB zero_table X k hk
  obtain ⟨_, hc⟩ := block_start_state BB WBITS hBB X k (le_of_lt hk)
  constructor
  · unfold bit_section payload
    rw [flush_compress BB WBITS hBB]
    have hlay' : (compress_LZP BB WBITS zero_table init_put_buffer X).put.out
        = (block_start BB WBITS X k).put.out ++
          (pack_bits (((block BB X k).length + 7) / 8)
              (hits WBITS (block_start BB WBITS X k).w (block_start BB WBITS X k).prev
                (block BB X k)) ++
            (misses WBITS (block_start BB WBITS X k).w (block_start BB WBITS X k).prev
                (block BB X k) ++ rest)) := hlay
    rw [hlay', List.drop_left]
    have hpl := pack_bits_length (((block BB X k).length + 7) / 8)
      (hits WBITS (block_start BB WBITS X k).w (block_start BB WBITS X k).prev (block BB X k))
    exact List.take_left' hpl
  · rw [encode_bytes_eq]
    simp only [hc, List.nil_append]

/-- The bit section of a block has as many 0 bits as the block has
mismatched bytes, and its padding bits on top. -/
theorem block_zero_bits (BB WBITS : Nat) (hBB : 3 ≤ BB) (X : List Nat) (k : Nat)
    (hk : k * PPP_BLOCKSIZE BB < X.length) :
    ((bit_section BB WBITS X k).map zero_bits_of_byte).sum
      = (encode_bytes WBITS (block_start BB WBITS X k) (block BB X k)).cbuf.length
        + (8 * (((block BB X k).length + 7) / 8) - (block BB X k).length) := by
  obtain ⟨h1, h2⟩ := block_sections BB WBITS hBB X k hk
  have hl : (hits WBITS (block_start BB WBITS X k).w (block_start BB WBITS X k).prev
      (block BB X k)).length = (block BB X k).length := hits_length _ _ _ _
  rw [h1, h2, zero_bits_pack_bits _ _ (by rw [hl]; omega), misses_length, hl]

theorem full_block_length (BB : Nat) (X : List Nat) (k : Nat)
    (hk : k < X.length / PPP_BLOCKSIZE BB) :
    k * PPP_BLOCKSIZE BB < X.length ∧ (block BB X k).length = PPP_BLOCKSIZE BB := by
  have hB := blocksize_pos BB
  have h1 : (k + 1) * PPP_BLOCKSIZE BB ≤ X.length :=
    (Nat.le_div_iff_mul_le hB).mp hk
  rw [Nat.succ_mul] at h1
  constructor
  · omega
  · unfold block
    rw [List.length_take, List.length_drop]
    omega

/-- The 0 bits of the bit sections of the full blocks are as many as their
literals. -/
theorem full_blocks_zero_bits (BB WBITS : Nat) (hBB : 3 ≤ BB) (X : List Nat) :
    ((List.range (X.length / PPP_BLOCKSIZE BB)).map
      (fun k => ((bit_section BB WBITS X k).map zero_bits_of_byte).sum)).sum
    = ((List.range (X.length / PPP_BLOCKSIZE BB)).map
      (fun k => (encode_bytes WBITS (block_start BB WBITS X k) (block BB X k)).cbuf.length)).sum := by
  have h8 := blocksize_mod8 BB hBB
  congr 1
  apply List.map_congr_left
  intro k hk
  obtain ⟨h1, h2⟩ := full_block_length BB X k (List.mem_range.mp hk)
  rw [block_zero_bits BB WBITS hBB X k h1, h2]
  omega

/-- The 0 bits of the payload bit stream: one for every literal, and the
padding bits of the trailing block. -/
theorem zero_bits_eq (BB WBITS : Nat) (hBB : 3 ≤ BB) (X : List Nat) :
    payload_zero_bits BB WBITS X
      = payload_literals BB WBITS X + (8 - X.length % PPP_BLOCKSIZE BB % 8) % 8 := by
  have hB := blocksize_pos BB
  unfold payload_zero_bits payload_literals num_blocks
  by_cases hL : X.length % PPP_BLOCKSIZE BB = 0
  · rw [if_pos hL, Nat.add_zero, full_blocks_zero_bits BB WBITS hBB X, hL]
    rfl
  · have h1 := Nat.div_add_mod X.length (PPP_BLOCKSIZE BB)
    have h2 := Nat.mod_lt X.length hB
    rw [Nat.mul_comm] at h1
    have hk : X.length / PPP_BLOCKSIZE BB * PPP_BLOCKSIZE BB < X.length := by omega
    have hz := block_zero_bits BB WBITS hBB X (X.length / PPP_BLOCKSIZE BB) hk
    rw [trailing_block] at hz
    rw [if_neg hL, List.range_succ, List.map_append, List.map_append, List.sum_append,
      List.sum_append, full_blocks_zero_bits BB WBITS hBB X]
    simp only [List.map_cons, List.map_nil, List.sum_cons, List.sum_nil, Nat.add_zero]
    rw [hz]
    omega

theorem block_in_input (BB : Nat) (X : List Nat) (k : Nat) (hk : k < num_blocks BB X) :
    k * PPP_BLOCKSIZE BB < X.length := by
  have hB := blocksize_pos BB
  unfold num_blocks at hk
  by_cases hfull : k < X.length / PPP_BLOCKSIZE BB
  · exact (full_block_length BB X k hfull).1
  · have h1 := Nat.div_add_mod X.length (PPP_BLOCKSIZE BB)
    rw [Nat.mul_comm] at h1
    by_cases hL : X.length % PPP_BLOCKSIZE BB = 0
    · rw [if_pos hL] at hk; omega
    · rw [if_neg hL] at hk
      have hk' : k = X.length / PPP_BLOCKSIZE BB := by omega
      rw [hk']
      omega

/-- On zero bytes no block has a mismatched byte to write. -/
theorem zeros_literals (BB WBITS : Nat) (hBB : 3 ≤ BB) (n : Nat) :
    payload_literals BB WBITS (List.replicate n 0) = 0 := by
  unfold payload_literals
  apply List.sum_eq_zero
  intro x hx
  obtain ⟨k, hk, rfl⟩ := List.mem_map.mp hx
  have hlt := block_in_input BB (List.replicate n 0) k (List.mem_range.mp hk)
  obtain ⟨_, h2⟩ := block_sections BB WBITS hBB (List.replicate n 0) k hlt
  rw [h2]
  have hstart : block_start BB WBITS (List.replicate n 0) k
      = compress_LZP BB WBITS zero_table init_put_buffer
          (List.replicate (min (k * PPP_BLOCKSIZE BB) n) 0) := by
    unfold block_start
    rw [List.take_replicate]
  obtain ⟨_, z2, z3⟩ := compress_zeros BB WBITS hBB (min (k * PPP_BLOCKSIZE BB) n)
  have hblk : block BB (List.replicate n 0) k
      = List.replicate (min (PPP_BLOCKSIZE BB) (n - k * PPP_BLOCKSIZE BB)) 0 := by
    unfold block
    rw [List.drop_replicate, List.take_replicate]
  rw [hstart, z2, z3, hblk, (zeros_scan WBITS _).2.1]
  rfl

end Lzpgt2

/-! ## The run of the encoder, block after block -/

namespace Lzpgt2

open Lzpgt

/-- The outer loop does not depend on the fuel, once there is enough of it. -/
theorem compress_loop_fuel (BB WBITS : Nat) (fuel : Nat) :
    ∀ (fuel1 : Nat) (s : EncState) (input : List Nat),
    input.length ≤ fuel → input.length ≤ fuel1 →
    compress_loop BB WBITS fuel s input = compress_loop BB WBITS fuel1 s input := by
  have hB := blocksize_pos BB
  induction fuel with
  | zero =>
    intro fuel1 s input h _
    have hnil : input = [] := List.length_eq_zero.mp (by omega)
    subst hnil
    rw [compress_loop_nil, compress_loop_nil]
  | succ fuel ih =>
    intro fuel1 s input h h1
    cases fuel1 with
    | zero =>
      have hnil : input = [] := List.length_eq_zero.mp (by omega)
      subst hnil
      rw [compress_loop_nil, compress_loop_nil]
    | succ fuel1 =>
      by_cases hnil : input = []
      · subst hnil
        rw [compress_loop_nil, compress_loop_nil]
      · have hpos : 0 < input.length := List.length_pos.mpr hnil
        have hdl : (input.drop (PPP_BLOCKSIZE BB)).length = input.length - PPP_BLOCKSIZE BB :=
          List.length_drop _ _
        simp only [compress_loop]
        rw [ih fuel1 _ _ (by rw [hdl]; omega) (by rw [hdl]; omega)]

/-- The run on an input that starts with `k` full blocks is the run on the
rest of the input from the state that the run on these blocks ends in. -/
theorem compress_loop_split (BB WBITS : Nat) (k : Nat) :
    ∀ (a c : List Nat) (s : EncState), a.length = k * PPP_BLOCKSIZE BB →
    compress_loop BB WBITS (a ++ c).length s (a ++ c)
      = compress_loop BB WBITS c.length (compress_loop BB WBITS a.length s a) c := by
  have hB := blocksize_pos BB
  induction k with
  | zero =>
    intro a c s ha
    have hnil : a = [] := List.length_eq_zero.mp (by omega)
    subst hnil
    simp [compress_loop]
  | succ k ih =>
    intro a c s ha
    have ha' : a.length = k * PPP_BLOCKSIZE BB + PPP_BLOCKSIZE BB := by
      rw [ha, Nat.succ_mul]
    have hge : PPP_BLOCKSIZE BB ≤ a.length := by omega
    obtain ⟨n, hn⟩ : ∃ n, a.length = n + 1 := ⟨a.length - 1, by omega⟩
    have hn2 : (a ++ c).length = (n + c.length) + 1 := by rw [List.length_append]; omega
    have htake : (a ++ c).take (PPP_BLOCKSIZE BB) = a.take (PPP_BLOCKSIZE BB) :=
      List.take_append_of_le_length hge
    have hdrop : (a ++ c).drop (PPP_BLOCKSIZE BB) = a.drop (PPP_BLOCKSIZE BB) ++ c :=
      List.drop_append_of_le_length hge
    have htl : (a.take (PPP_BLOCKSIZE BB)).length = PPP_BLOCKSIZE BB := by
      rw [List.length_take]; omega
    have hdl : (a.drop (PPP_BLOCKSIZE BB)).length = k * PPP_BLOCKSIZE BB := by
      rw [List.length_drop]; omega
    have hne : (a.take (PPP_BLOCKSIZE BB)).length ≠ 0 := by omega
    rw [hn2, hn]
    simp only [compress_loop, htake, hdrop, if_neg hne]
    rw [compress_loop_fuel BB WBITS (n + c.length) (a.drop (PPP_BLOCKSIZE BB) ++ c).length _ _
        (by rw [List.length_append, hdl]; omega) (le_refl _),
      compress_loop_fuel BB WBITS n (a.drop (PPP_BLOCKSIZE BB)).length _ _ (by omega) (le_refl _),
      ih _ c _ hdl]

/-- The run of `compress_LZP` on `X` passes through `block_start` before
every block: it is the run on the input from block `k` on, from that state. -/
theorem compress_from_block (BB WBITS : Nat) (X : List Nat) (k : Nat)
    (hk : k * PPP_BLOCKSIZE BB ≤ X.length) :
    compress_LZP BB WBITS zero_table init_put_buffer X
      = compress_loop BB WBITS (X.drop (k * PPP_BLOCKSIZE BB)).length
          (block_start BB WBITS X k) (X.drop (k * PPP_BLOCKSIZE BB)) := by
  have hal : (X.take (k * PPP_BLOCKSIZE BB)).length = k * PPP_BLOCKSIZE BB := by
    rw [List.length_take]; omega
  have h := compress_loop_split BB WBITS k (X.take (k * PPP_BLOCKSIZE BB))
    (X.drop (k * PPP_BLOCKSIZE BB)) ⟨zero_table, 0, [], init_put_buffer, 0, 0⟩ hal
  rw [List.take_append_drop] at h
  unfold compress_LZP block_start compress_LZP
  exact h

end Lzpgt2
namespace Lzpgt

/-! ## The context hash -/

theorem wsize_eq (W : Nat) : ppp_WSIZE W = 2 ^ W := by
  simp only [ppp_WSIZE, Nat.one_shiftLeft]

theorem wmask_eq (W : Nat) : ppp_WMASK W = 2 ^ W - 1 := by
  simp only [ppp_WMASK, wsize_eq]

theorem update_hash_mod (W prev c : Nat) (hW : W ≤ 32) :
    update_hash W prev c = (prev * 32 + c) % 2 ^ W := by
  simp only [update_hash, wmask_eq, Nat.and_pow_two_sub_one_eq_mod, Nat.shiftLeft_eq]
  rw [Nat.mod_mod_of_dvd _ (pow_dvd_pow 2 hW)]

theorem update_hash_lt (W prev c : Nat) : update_hash W prev c < 2 ^ W := by
  simp only [update_hash, wmask_eq, Nat.and_pow_two_sub_one_eq_mod]
  exact Nat.mod_lt _ (Nat.pos_pow_of_pos W (by decide))

theorem hash_after_lt (W : Nat) (p : List Nat) :
    ∀ prev, prev < 2 ^ W → hash_after W prev p < 2 ^ W := by
  induction p with
  | nil => intro prev h; exact h
  | cons c p ih => intro prev _; exact ih _ (update_hash_lt W prev c)

theorem ldiff_mask (W m : Nat) : Nat.ldiff (2 ^ W - 1) m = 2 ^ W - 1 - m % 2 ^ W := by
  have hlt : m % 2 ^ W < 2 ^ W := Nat.mod_lt _ (Nat.pos_pow_of_pos W (by decide))
  have hr : 2 ^ W - 1 - m % 2 ^ W = 2 ^ W - (m % 2 ^ W + 1) := by omega
  rw [hr]
  apply Nat.eq_of_testBit_eq
  intro i
  rw [Nat.testBit_ldiff, Nat.testBit_two_pow_sub_one, Nat.testBit_two_pow_sub_succ hlt,
    Nat.testBit_mod_two_pow]
  by_cases h : i < W <;> simp [h]

theorem land_mask (a : Int) (W : Nat) : Int.land a ((2 ^ W - 1 : Nat) : Int) = a % 2 ^ W := by
  have hpos : 0 < 2 ^ W := Nat.pos_pow_of_pos W (by decide)
  cases a with
  | ofNat m =>
    show ((m &&& (2 ^ W - 1) : Nat) : Int) = (m : Int) % 2 ^ W
    rw [Nat.and_pow_two_sub_one_eq_mod]
    push_cast
    rfl
  | negSucc m =>
    show ((Nat.ldiff (2 ^ W - 1) m : Nat) : Int) = Int.negSucc m % 2 ^ W
    rw [ldiff_mask, Int.negSucc_emod m (by positivity)]
    have hlt : m % 2 ^ W < 2 ^ W := Nat.mod_lt _ hpos
    have h1 : m % 2 ^ W ≤ 2 ^ W - 1 := by omega
    rw [Nat.cast_sub h1, Nat.cast_sub hpos]
    push_cast
    rfl

theorem int32_emod (x : Int) (W : Nat) (hW : W ≤ 32) : int32 x % 2 ^ W = x % 2 ^ W := by
  have h32 : int32 x % 2 ^ 32 = x % 2 ^ 32 := by
    unfold int32
    norm_num
    omega
  have hd : (2 : Int) ^ W ∣ 2 ^ 32 := pow_dvd_pow 2 hW
  rw [← Int.emod_emod_of_dvd (int32 x) hd, h32, Int.emod_emod_of_dvd x hd]

theorem update_hash_int32_eq (W prev c : Nat) (hW : W ≤ 32) :
    update_hash_int32 W prev c = (update_hash W prev c : Int) := by
  unfold update_hash_int32
  rw [wmask_eq, land_mask, int32_emod _ _ hW, Int.add_emod, int32_emod _ _ hW,
    ← Int.add_emod, update_hash_mod W prev c hW]
  push_cast
  norm_num

end Lzpgt
namespace Lzpgt

theorem context_sum_cons (c : Nat) (cs : List Nat) :
    context_sum (c :: cs) = c * 32 ^ cs.length + context_sum cs := by
  unfold context_sum
  have hlen : (c :: cs).length = cs.length + 1 := rfl
  rw [hlen, List.range_succ, List.map_append, List.sum_append]
  have h1 : (List.range cs.length).map
      (fun k => (c :: cs).getD (cs.length + 1 - 1 - k) 0 * 32 ^ k)
      = (List.range cs.length).map (fun k => cs.getD (cs.length - 1 - k) 0 * 32 ^ k) := by
    apply List.map_congr_left
    intro k hk
    have hk' : k < cs.length := List.mem_range.mp hk
    have he : cs.length + 1 - 1 - k = (cs.length - 1 - k) + 1 := by omega
    rw [he, List.getD_cons_succ]
  rw [h1]
  simp only [List.map_cons, List.map_nil, List.sum_cons, List.sum_nil]
  have h2 : cs.length + 1 - 1 - cs.length = 0 := by omega
  rw [h2, List.getD_cons_zero]
  omega

theorem hash_after_sum (W : Nat) (hW : W ≤ 32) (cs : List Nat) : ∀ prev, prev < 2 ^ W →
    hash_after W prev cs = (prev * 32 ^ cs.length + context_sum cs) % 2 ^ W := by
  induction cs with
  | nil =>
    intro prev hp
    simp only [hash_after, context_sum, List.length_nil, List.range_zero, List.map_nil,
      List.sum_nil, pow_zero, mul_one, add_zero]
    exact (Nat.mod_eq_of_lt hp).symm
  | cons c cs ih =>
    intro prev _
    rw [hash_after, ih _ (update_hash_lt W prev c), update_hash_mod W prev c hW,
      context_sum_cons]
    have hlen : (c :: cs).length = cs.length + 1 := rfl
    rw [hlen, Nat.add_mod, Nat.mul_mod, Nat.mod_mod, ← Nat.mul_mod, ← Nat.add_mod]
    congr 1
    ring

theorem hash_after_suffix (W : Nat) (hW : W ≤ 32) (hW0 : 0 < W) (t : List Nat)
    (ht : W ≤ 5 * t.length) (prev : Nat) :
    hash_after W prev t = context_sum t % 2 ^ W := by
  cases t with
  | nil => simp at ht; omega
  | cons c t =>
    rw [hash_after, hash_after_sum W hW t _ (update_hash_lt W prev c), context_sum_cons]
    have hlen : (c :: t).length = t.length + 1 := rfl
    rw [hlen] at ht
    rw [update_hash_mod W prev c hW, Nat.add_mod, Nat.mul_mod, Nat.mod_mod, ← Nat.mul_mod,
      ← Nat.add_mod]
    have h32 : (prev * 32 + c) * 32 ^ t.length = prev * 32 ^ (t.length + 1) + c * 32 ^ t.length := by
      ring
    have hd : 2 ^ W ∣ prev * 32 ^ (t.length + 1) := by
      have h5 : (32 : Nat) ^ (t.length + 1) = 2 ^ (5 * (t.length + 1)) := by
        rw [pow_mul]
        norm_num
      rw [h5]
      exact Dvd.dvd.mul_left (pow_dvd_pow 2 ht) prev
    obtain ⟨q, hq⟩ := hd
    rw [h32, hq, Nat.add_assoc, Nat.mul_add_mod]

end Lzpgt
namespace Lzpgt2

open Lzpgt

/-! ## The traces return what the decoder returns -/

theorem output_trace_snd (WBITS : Nat) (bbuf : List Nat) : ∀ (s : DecState),
    (output_trace WBITS bbuf s).2 = output_bytes WBITS bbuf s := by
  induction bbuf with
  | nil => intro s; rfl
  | cons b bbuf ih =>
    intro s
    unfold output_trace output_bytes
    cases h : output_byte WBITS s b with
    | none => rfl
    | some s1 => exact ih s1

theorem block_trace_snd (BB WBITS : Nat) (s : DecState) :
    (block_trace BB WBITS s).2 = decode_block BB WBITS s := by
  unfold block_trace decode_block
  cases h : get_bits (PPP_BLOCKSIZE BB) s.get with
  | none => rfl
  | some r => exact output_trace_snd _ _ _

theorem blocks_trace_snd (BB WBITS : Nat) (n : Nat) : ∀ (s : DecState),
    (blocks_trace BB WBITS n s).2 = decode_blocks BB WBITS n s := by
  induction n with
  | zero => intro s; rfl
  | succ n ih =>
    intro s
    unfold blocks_trace decode_blocks
    rw [block_trace_snd]
    cases h : decode_block BB WBITS s with
    | none => rfl
    | some s1 => exact ih s1

theorem last_trace_snd (WBITS : Nat) (L : Int) (s : DecState) :
    (last_trace WBITS L s).2 = decode_last WBITS L s := by
  unfold last_trace decode_last
  by_cases hL : 0 < L
  · rw [if_pos hL, if_pos hL]
    cases h : get_bits L.toNat s.get with
    | none => rfl
    | some r => exact output_trace_snd _ _ _
  · rw [if_neg hL, if_neg hL]

theorem decompress_trace_snd (BB WBITS : Nat) (nb L : Int) (w : Nat → Nat) (get : GetBuf)
    (put : PutBuf) :
    (decompress_trace BB WBITS nb L w get put).2 = decompress_LZP BB WBITS nb L w get put := by
  unfold decompress_trace decompress_LZP
  by_cases hn : 0 < nb
  · simp only [if_pos hn, blocks_trace_snd]
    cases h : decode_blocks BB WBITS nb.toNat ⟨w, 0, 0, get, put⟩ with
    | none => rfl
    | some s1 => exact last_trace_snd _ _ _
  · simp only [if_neg hn]
    exact last_trace_snd _ _ _

end Lzpgt2
namespace Lzpgt2

open Lzpgt

/-! ## Invariants of the decoder's run -/

theorem output_trace_inv (WBITS : Nat) (P : DecState → Prop)
    (hstep : ∀ s b s1, P s → output_byte WBITS s b = some s1 → P s1) (bbuf : List Nat) :
    ∀ s, P s → (∀ t ∈ (output_trace WBITS bbuf s).1, P t) ∧
      (∀ t, (output_trace WBITS bbuf s).2 = some t → P t) := by
  induction bbuf with
  | nil =>
    intro s hs
    refine ⟨fun t ht => absurd ht (List.not_mem_nil t), fun t ht => ?_⟩
    simp only [output_trace, Option.some.injEq] at ht
    exact ht ▸ hs
  | cons b bbuf ih =>
    intro s hs
    unfold output_trace
    cases h : output_byte WBITS s b with
    | none =>
      refine ⟨fun t ht => ?_, fun t ht => absurd ht (by simp)⟩
      simp only [List.mem_singleton] at ht
      exact ht ▸ hs
    | some s1 =>
      obtain ⟨h1, h2⟩ := ih s1 (hstep s b s1 hs h)
      refine ⟨fun t ht => ?_, h2⟩
      simp only [List.mem_cons] at ht
      rcases ht with ht | ht
      · exact ht ▸ hs
      · exact h1 t ht

theorem block_trace_inv (BB WBITS : Nat) (P : DecState → Prop)
    (hstep : ∀ s b s1, P s → output_byte WBITS s b = some s1 → P s1)
    (hfull : ∀ (s : DecState) bbuf g1, P s → get_bits (PPP_BLOCKSIZE BB) s.get = some (bbuf, g1) →
      P { s with get := g1 }) (s : DecState) (hs : P s) :
    (∀ t ∈ (block_trace BB WBITS s).1, P t) ∧
      (∀ t, (block_trace BB WBITS s).2 = some t → P t) := by
  unfold block_trace
  cases h : get_bits (PPP_BLOCKSIZE BB) s.get with
  | none =>
    exact ⟨fun t ht => absurd ht (List.not_mem_nil t), fun t ht => absurd ht (by simp)⟩
  | some r =>
    obtain ⟨bbuf, g1⟩ := r
    exact output_trace_inv WBITS P hstep bbuf _ (hfull s bbuf g1 hs h)

theorem blocks_trace_inv (BB WBITS : Nat) (P : DecState → Prop)
    (hstep : ∀ s b s1, P s → output_byte WBITS s b = some s1 → P s1)
    (hfull : ∀ (s : DecState) bbuf g1, P s → get_bits (PPP_BLOCKSIZE BB) s.get = some (bbuf, g1) →
      P { s with get := g1 }) (n : Nat) :
    ∀ s, P s → (∀ t ∈ (blocks_trace BB WBITS n s).1, P t) ∧
      (∀ t, (blocks_trace BB WBITS n s).2 = some t → P t) := by
  induction n with
  | zero =>
    intro s hs
    refine ⟨fun t ht => absurd ht (List.not_mem_nil t), fun t ht => ?_⟩
    simp only [blocks_trace, Option.some.injEq] at ht
    exact ht ▸ hs
  | succ n ih =>
    intro s hs
    obtain ⟨h1, h2⟩ := block_trace_inv BB WBITS P hstep hfull s hs
    unfold blocks_trace
    cases h : (block_trace BB WBITS s).2 with
    | none => exact ⟨h1, fun t ht => absurd ht (by simp)⟩
    | some s1 =>
      obtain ⟨h3, h4⟩ := ih s1 (h2 s1 h)
      refine ⟨fun t ht => ?_, h4⟩
      simp only [List.mem_append] at ht
      rcases ht with ht | ht
      · exact h1 t ht
      · exact h3 t ht

theorem last_trace_inv (WBITS : Nat) (P : DecState → Prop)
    (hstep : ∀ s b s1, P s → output_byte WBITS s b = some s1 → P s1)
    (hlast : ∀ (s : DecState) n bbuf g1, P s → get_bits n s.get = some (bbuf, g1) →
      P { s with get := if 0 < g1.g_cnt ∧ g1.g_cnt < 8 then force_advance_gbuf g1 else g1 })
    (L : Int) (s : DecState) (hs : P s) :
    (∀ t ∈ (last_trace WBITS L s).1, P t) ∧
      (∀ t, (last_trace WBITS L s).2 = some t → P t) := by
  unfold last_trace
  by_cases hL : 0 < L
  · rw [if_pos hL]
    cases h : get_bits L.toNat s.get with
    | none =>
      exact ⟨fun t ht => absurd ht (List.not_mem_nil t), fun t ht => absurd ht (by simp)⟩
    | some r =>
      obtain ⟨bbuf, g1⟩ := r
      exact output_trace_inv WBITS P hstep bbuf _ (hlast s _ bbuf g1 hs h)
  · rw [if_neg hL]
    refine ⟨fun t ht => absurd ht (List.not_mem_nil t), fun t ht => ?_⟩
    simp only [Option.some.injEq] at ht
    exact ht ▸ hs

/-- A property of the decoder's state that its steps keep holds in every
state of its run. -/
theorem decompress_states_inv (BB WBITS : Nat) (P : DecState → Prop)
    (hstep : ∀ s b s1, P s → output_byte WBITS s b = some s1 → P s1)
    (hfull : ∀ (s : DecState) bbuf g1, P s → get_bits (PPP_BLOCKSIZE BB) s.get = some (bbuf, g1) →
      P { s with get := g1 })
    (hlast : ∀ (s : DecState) n bbuf g1, P s → get_bits n s.get = some (bbuf, g1) →
      P { s with get := if 0 < g1.g_cnt ∧ g1.g_cnt < 8 then force_advance_gbuf g1 else g1 })
    (nb L : Int) (w : Nat → Nat) (get : GetBuf) (put : PutBuf) (h0 : P ⟨w, 0, 0, get, put⟩) :
    ∀ t ∈ decompress_states BB WBITS nb L w get put, P t := by
  have hb : (∀ t ∈ (if 0 < nb then blocks_trace BB WBITS nb.toNat ⟨w, 0, 0, get, put⟩
        else ([], some ⟨w, 0, 0, get, put⟩)).1, P t) ∧
      (∀ t, (if 0 < nb then blocks_trace BB WBITS nb.toNat ⟨w, 0, 0, get, put⟩
        else ([], some ⟨w, 0, 0, get, put⟩)).2 = some t → P t) := by
    by_cases hn : 0 < nb
    · rw [if_pos hn]
      exact blocks_trace_inv BB WBITS P hstep hfull _ _ h0
    · rw [if_neg hn]
      refine ⟨fun t ht => absurd ht (List.not_mem_nil t), fun t ht => ?_⟩
      simp only [Option.some.injEq] at ht
      exact ht ▸ h0
  obtain ⟨h1, h2⟩ := hb
  intro t ht
  unfold decompress_states decompress_trace at ht
  simp only at ht
  cases h : (if 0 < nb then blocks_trace BB WBITS nb.toNat ⟨w, 0, 0, get, put⟩
        else ([], some ⟨w, 0, 0, get, put⟩)).2 with
  | none =>
    rw [h] at ht
    simp only [Option.toList, List.append_nil] at ht
    exact h1 t ht
  | some s1 =>
    rw [h] at ht
    obtain ⟨h3, h4⟩ := last_trace_inv WBITS P hstep hlast L s1 (h2 s1 h)
    simp only [List.mem_append] at ht
    rcases ht with (ht | ht) | ht
    · exact h1 t ht
    · exact h3 t ht
    · cases h5 : (last_trace WBITS L s1).2 with
      | none => rw [h5] at ht; simp [Option.toList] at ht
      | some s2 =>
        rw [h5] at ht
        simp only [Option.toList, List.mem_singleton] at ht
        exact ht ▸ h4 s2 h5

end Lzpgt2
namespace Lzpgt

/-! ## The decoder's run on what the encoder wrote -/

theorem enc_views_length (WBITS : Nat) (p : List Nat) : ∀ (w : Nat → Nat) (prev : Nat)
    (done : List Nat), (enc_views WBITS w prev done p).length = p.length := by
  induction p with
  | nil => intro w prev done; rfl
  | cons c p ih => intro w prev done; simp [enc_views, ih]

theorem enc_views_append (WBITS : Nat) (p : List Nat) : ∀ (w : Nat → Nat) (prev : Nat)
    (done q : List Nat), enc_views WBITS w prev done (p ++ q)
      = enc_views WBITS w prev done p ++
        enc_views WBITS (table_after WBITS w prev p) (hash_after WBITS prev p) (done ++ p) q := by
  induction p with
  | nil => intro w prev done q; simp [enc_views, table_after, hash_after]
  | cons c p ih =>
    intro w prev done q
    simp [enc_views, table_after, hash_after, ih]

theorem enc_views_getElem (WBITS : Nat) (p : List Nat) : ∀ (w : Nat → Nat) (prev : Nat)
    (done : List Nat) (i : Nat), i < p.length →
    (enc_views WBITS w prev done p)[i]?
      = some (table_after WBITS w prev (p.take i), hash_after WBITS prev (p.take i),
          done ++ p.take i) := by
  induction p with
  | nil => intro w prev done i hi; simp at hi
  | cons c p ih =>
    intro w prev done i hi
    cases i with
    | zero => simp [enc_views, table_after, hash_after]
    | succ i =>
      have hi' : i < p.length := by
        have hlen : (c :: p).length = p.length + 1 := rfl
        omega
      simp only [enc_views, List.getElem?_cons_succ, List.take_succ_cons, table_after,
        hash_after]
      rw [ih _ _ _ i hi']
      simp

end Lzpgt

namespace Lzpgt2

open Lzpgt

theorem output_trace_hits (WBITS : Nat) (p : List Nat) :
    ∀ (w : Nat → Nat) (prev c0 : Nat) (rest : List Nat) (k : Nat) (put : PutBuf),
    ((output_trace WBITS ((hits WBITS w prev p).map (fun b => if b then 1 else 0))
        ⟨w, prev, c0, ⟨misses WBITS w prev p ++ rest, k⟩, put⟩).1).map DecState.predictor
      = enc_views WBITS w prev put.out p := by
  induction p with
  | nil =>
    intro w prev c0 rest k put
    simp [hits, output_trace, enc_views]
  | cons c p ih =>
    intro w prev c0 rest k put
    by_cases h : w prev = c
    · have hst : store w prev c = w := store_self w prev c h
      have h1 := ih (store w prev c) (update_hash WBITS prev c) c rest k (pfputc put c)
      rw [hst] at h1
      simp only [hits, misses, if_pos h, List.map_cons, decide_eq_true h, if_true, output_trace,
        output_byte, enc_views, hst]
      rw [h, h1]
      simp [pfputc, DecState.predictor]
    · have h1 := ih (store w prev c) (update_hash WBITS prev c) c rest k (pfputc put c)
      simp only [hits, misses, if_neg h, List.map_cons, decide_eq_false h, output_trace,
        output_byte, enc_views, gfgetc, List.cons_append]
      simp only [Bool.false_eq_true, if_false, Nat.zero_ne_one, List.map_cons]
      rw [h1]
      simp [pfputc, DecState.predictor]

theorem block_trace_bytes (BB WBITS : Nat) (hBB : 3 ≤ BB) (p : List Nat)
    (hp : p.length = PPP_BLOCKSIZE BB) (w : Nat → Nat) (prev c0 : Nat) (rest : List Nat)
    (put : PutBuf) :
    ((block_trace BB WBITS ⟨w, prev, c0, ⟨block_bytes WBITS w prev p ++ rest, 0⟩, put⟩).1).map
        DecState.predictor
      = enc_views WBITS w prev put.out p := by
  have hl : (hits WBITS w prev p).length = p.length := hits_length _ _ _ _
  obtain ⟨g1, hg1, _, hg3⟩ := get_bits_section (hits WBITS w prev p)
    (misses WBITS w prev p ++ rest)
  have h8 : (hits WBITS w prev p).length % 8 = 0 := by
    rw [hl, hp]; exact blocksize_mod8 BB hBB
  rw [hg3 h8, hl] at hg1
  simp only [block_trace, block_bytes, List.append_assoc, ← hp, hg1]
  exact output_trace_hits WBITS p w prev c0 rest 0 put

theorem last_trace_bytes (WBITS : Nat) (p : List Nat) (hp : 0 < p.length)
    (w : Nat → Nat) (prev c0 : Nat) (rest : List Nat) (put : PutBuf) :
    ((last_trace WBITS (p.length : Nat)
        ⟨w, prev, c0, ⟨block_bytes WBITS w prev p ++ rest, 0⟩, put⟩).1).map DecState.predictor
      = enc_views WBITS w prev put.out p := by
  have hl : (hits WBITS w prev p).length = p.length := hits_length _ _ _ _
  obtain ⟨g1, hg1, hg2, _⟩ := get_bits_section (hits WBITS w prev p)
    (misses WBITS w prev p ++ rest)
  rw [hl] at hg1
  have hpos : (0 : Int) < (p.length : Nat) := by exact_mod_cast hp
  simp only [last_trace, if_pos hpos, Int.toNat_ofNat, block_bytes, List.append_assoc, hg1, hg2]
  exact output_trace_hits WBITS p w prev c0 rest 0 put

end Lzpgt2
namespace Lzpgt2

open Lzpgt

/-- The states at the head of the decoder's turns on the payload of `input`
carry the encoder's table and context before each byte. -/
theorem trace_stream (BB WBITS : Nat) (hBB : 3 ≤ BB) (fuel : Nat) :
    ∀ (input : List Nat) (w : Nat → Nat) (prev c0 : Nat) (rest : List Nat) (put : PutBuf),
    input.length ≤ fuel →
    ((blocks_trace BB WBITS (input.length / PPP_BLOCKSIZE BB)
          ⟨w, prev, c0, ⟨stream BB WBITS fuel w prev input ++ rest, 0⟩, put⟩).1 ++
      (match decode_blocks BB WBITS (input.length / PPP_BLOCKSIZE BB)
              ⟨w, prev, c0, ⟨stream BB WBITS fuel w prev input ++ rest, 0⟩, put⟩ with
        | none => []
        | some s1 =>
          (last_trace WBITS ((input.length % PPP_BLOCKSIZE BB : Nat) : Int) s1).1)).map
        DecState.predictor
      = enc_views WBITS w prev put.out input := by
  have hB := blocksize_pos BB
  induction fuel with
  | zero =>
    intro input w prev c0 rest put hlen
    have hnil : input = [] := List.length_eq_zero.mp (by omega)
    subst hnil
    simp [blocks_trace, decode_blocks, last_trace, enc_views]
  | succ fuel ih =>
    intro input w prev c0 rest put hlen
    by_cases hnil : input = []
    · subst hnil
      simp [blocks_trace, decode_blocks, last_trace, enc_views]
    · have hpos : 0 < input.length := List.length_pos.mpr hnil
      have htl : (input.take (PPP_BLOCKSIZE BB)).length = min (PPP_BLOCKSIZE BB) input.length :=
        List.length_take _ _
      have hne : (input.take (PPP_BLOCKSIZE BB)).length ≠ 0 := by rw [htl]; omega
      simp only [stream, if_neg hne, List.append_assoc]
      by_cases hfull : PPP_BLOCKSIZE BB ≤ input.length
      · have hp : (input.take (PPP_BLOCKSIZE BB)).length = PPP_BLOCKSIZE BB := by
          rw [htl]; omega
        have hdl : (input.drop (PPP_BLOCKSIZE BB)).length = input.length - PPP_BLOCKSIZE BB :=
          List.length_drop _ _
        have hdiv : input.length / PPP_BLOCKSIZE BB
            = (input.drop (PPP_BLOCKSIZE BB)).length / PPP_BLOCKSIZE BB + 1 := by
          rw [hdl]
          conv_lhs => rw [← Nat.sub_add_cancel hfull]
          rw [Nat.add_div_right _ hB]
        have hmod : input.length % PPP_BLOCKSIZE BB
            = (input.drop (PPP_BLOCKSIZE BB)).length % PPP_BLOCKSIZE BB := by
          rw [hdl]
          conv_lhs => rw [← Nat.sub_add_cancel hfull]
          exact Nat.add_mod_right _ _
        obtain ⟨c1, hc1⟩ := decode_block_bytes BB WBITS hBB _ hp w prev c0
          (stream BB WBITS fuel (table_after WBITS w prev (input.take (PPP_BLOCKSIZE BB)))
            (hash_after WBITS prev (input.take (PPP_BLOCKSIZE BB)))
            (input.drop (PPP_BLOCKSIZE BB)) ++ rest) put
        have hb := block_trace_bytes BB WBITS hBB _ hp w prev c0
          (stream BB WBITS fuel (table_after WBITS w prev (input.take (PPP_BLOCKSIZE BB)))
            (hash_after WBITS prev (input.take (PPP_BLOCKSIZE BB)))
            (input.drop (PPP_BLOCKSIZE BB)) ++ rest) put
        have h2 := ih (input.drop (PPP_BLOCKSIZE BB))
          (table_after WBITS w prev (input.take (PPP_BLOCKSIZE BB)))
          (hash_after WBITS prev (input.take (PPP_BLOCKSIZE BB))) c1 rest
          ⟨put.out ++ input.take (PPP_BLOCKSIZE BB), put.cur, put.p_cnt⟩
          (by rw [hdl]; omega)
        rw [hdiv, hmod]
        simp only [blocks_trace, decode_blocks, block_trace_snd, hc1]
        rw [List.append_assoc, List.map_append, hb, h2, ← enc_views_append,
          List.take_append_drop]
      · have htake : input.take (PPP_BLOCKSIZE BB) = input :=
          List.take_of_length_le (by omega)
        have hdrop : input.drop (PPP_BLOCKSIZE BB) = [] :=
          List.drop_eq_nil_of_le (by omega)
        have hdiv : input.length / PPP_BLOCKSIZE BB = 0 := Nat.div_eq_of_lt (by omega)
        have hmod : input.length % PPP_BLOCKSIZE BB = input.length := Nat.mod_eq_of_lt (by omega)
        have hs : stream BB WBITS fuel (table_after WBITS w prev input)
            (hash_after WBITS prev input) [] = [] := by
          cases fuel <;> simp [stream]
        have hl := last_trace_bytes WBITS input hpos w prev c0 rest put
        rw [hdiv, hmod, htake, hdrop, hs]
        simp only [blocks_trace, decode_blocks, List.nil_append]
        exact hl

theorem blocks_trace_guard (BB WBITS n : Nat) (s : DecState) :
    (if (0 : Int) < (n : Nat) then blocks_trace BB WBITS ((n : Nat) : Int).toNat s
      else ([], some s)) = blocks_trace BB WBITS n s := by
  cases n with
  | zero => simp [blocks_trace]
  | succ n =>
    have : (0 : Int) < ((n + 1 : Nat) : Int) := by exact_mod_cast Nat.succ_pos n
    rw [if_pos this, Int.toNat_ofNat]

/-- The states of the decoder on the header and payload that `compress_LZP`
wrote for `X`: before byte `i` they carry the table and context of the
encoder's run on the first `i` bytes, and those bytes are written. -/
theorem decompress_states_compress (BB WBITS : Nat) (hBB : 3 ≤ BB) (X : List Nat) :
    (decompress_states BB WBITS
        (compress_LZP BB WBITS zero_table init_put_buffer X).ppp_nblocks
        (compress_LZP BB WBITS zero_table init_put_buffer X).ppp_lastblocksize zero_table
        (init_get_buffer (payload BB WBITS X)) init_put_buffer).map DecState.predictor
      = enc_views WBITS zero_table 0 [] X ++
          [(table_after WBITS zero_table 0 X, hash_after WBITS 0 X, X)] := by
  obtain ⟨h1, _, _, h4, h5⟩ := compress_loop_eq BB WBITS hBB X.length X
    ⟨zero_table, 0, [], init_put_buffer, 0, 0⟩ [] (le_refl _) rfl rfl
  have hts := trace_stream BB WBITS hBB X.length X zero_table 0 0 [] init_put_buffer (le_refl _)
  obtain ⟨c1, hc1⟩ := decompress_compress BB WBITS hBB X zero_table [] init_put_buffer
  obtain ⟨c2, hc2⟩ := decode_stream BB WBITS hBB X.length X zero_table 0 0 [] init_put_buffer
    (le_refl _)
  have h5' : (compress_LZP BB WBITS zero_table init_put_buffer X).ppp_lastblocksize
      = ((X.length % PPP_BLOCKSIZE BB : Nat) : Int) := by
    unfold compress_LZP
    rw [h5]
    split
    · next h => rw [h]; rfl
    · rfl
  have h4' : (compress_LZP BB WBITS zero_table init_put_buffer X).ppp_nblocks
      = ((X.length / PPP_BLOCKSIZE BB : Nat) : Int) := by
    unfold compress_LZP
    rw [h4]; simp
  have h1' : (compress_LZP BB WBITS zero_table init_put_buffer X).put.out
      = stream BB WBITS X.length zero_table 0 X := by
    unfold compress_LZP
    rw [h1]; simp
  have hpay : init_get_buffer (payload BB WBITS X)
      = ⟨stream BB WBITS X.length zero_table 0 X ++ [], 0⟩ := by
    unfold init_get_buffer payload
    rw [flush_compress BB WBITS hBB, h1', List.append_nil]
  unfold decompress_states
  rw [decompress_trace_snd, hpay]
  rw [h1', h4', h5'] at hc1
  rw [h4', h5', hc1]
  unfold decompress_trace
  simp only [blocks_trace_guard, blocks_trace_snd]
  cases hd : decode_blocks BB WBITS (X.length / PPP_BLOCKSIZE BB)
      ⟨zero_table, 0, 0, ⟨stream BB WBITS X.length zero_table 0 X ++ [], 0⟩, init_put_buffer⟩ with
  | none =>
    rw [hd] at hc2
    exact absurd hc2 (by simp)
  | some s1 =>
    rw [hd] at hts
    simp only at hts ⊢
    rw [List.map_append, hts]
    simp [Option.toList, DecState.predictor, init_put_buffer]

end Lzpgt2
namespace Lzpgt2

open Lzpgt

theorem take_block (BB : Nat) (X : List Nat) (i : Nat) :
    X.take (i / PPP_BLOCKSIZE BB * PPP_BLOCKSIZE BB) ++
        (block BB X (i / PPP_BLOCKSIZE BB)).take (i % PPP_BLOCKSIZE BB)
      = X.take i := by
  have hB := blocksize_pos BB
  have hr : i % PPP_BLOCKSIZE BB < PPP_BLOCKSIZE BB := Nat.mod_lt _ hB
  have hi : i = i / PPP_BLOCKSIZE BB * PPP_BLOCKSIZE BB + i % PPP_BLOCKSIZE BB := by
    rw [Nat.mul_comm]; exact (Nat.div_add_mod i _).symm
  unfold block
  rw [List.take_take, Nat.min_eq_left (le_of_lt hr)]
  conv_rhs => rw [hi]
  rw [List.take_add]

/-- The table and the context of `compress_LZP` on `X` after `i` bytes are
those that the first `i` bytes of `X` give from the zero table and the
context 0. -/
theorem encoder_at_eq (BB WBITS : Nat) (hBB : 3 ≤ BB) (X : List Nat) (i : Nat) :
    (encoder_at BB WBITS X i).w = table_after WBITS zero_table 0 (X.take i) ∧
    (encoder_at BB WBITS X i).prev = hash_after WBITS 0 (X.take i) := by
  obtain ⟨_, c2, c3⟩ := compress_closed BB WBITS hBB zero_table
    (X.take (i / PPP_BLOCKSIZE BB * PPP_BLOCKSIZE BB))
  unfold encoder_at
  rw [encode_bytes_eq]
  simp only [block_start, c2, c3]
  rw [← table_after_append, ← hash_after_append, take_block]
  exact ⟨rfl, rfl⟩

end Lzpgt2
namespace Lzpgt

/-! ## Byte boundaries at the literal reads and writes -/

theorem pfputc_calls_p_cnt (cbuf : List Nat) : ∀ (s t : PutBuf),
    t ∈ pfputc_calls s cbuf → t.p_cnt = s.p_cnt := by
  induction cbuf with
  | nil => intro s t ht; exact absurd ht (List.not_mem_nil t)
  | cons c cbuf ih =>
    intro s t ht
    simp only [pfputc_calls, List.mem_cons] at ht
    rcases ht with ht | ht
    · rw [ht]
    · exact ih (pfputc s c) t ht

theorem pfputc_calls_length (cbuf : List Nat) : ∀ (s : PutBuf),
    (pfputc_calls s cbuf).length = cbuf.length := by
  induction cbuf with
  | nil => intro s; rfl
  | cons c cbuf ih => intro s; simp [pfputc_calls, ih]

end Lzpgt

namespace Lzpgt2

open Lzpgt

theorem finish_block_literal_put (BB : Nat) (s : EncState) (nread : Nat)
    (h : nread ≤ PPP_BLOCKSIZE BB) :
    (finish_block BB s nread).put = write_mismatched (literal_put BB s nread) s.cbuf := by
  unfold finish_block literal_put
  by_cases h1 : nread = PPP_BLOCKSIZE BB
  · rw [if_pos h1, if_pos h1]
  · have h2 : nread < PPP_BLOCKSIZE BB := by omega
    rw [if_neg h1, if_neg h1, if_pos h2]

theorem literal_put_aligned (BB WBITS : Nat) (hBB : 3 ≤ BB) (s : EncState) (o : List Nat)
    (hput : s.put = ⟨o, 0, 0⟩) (p : List Nat) :
    (literal_put BB (encode_bytes WBITS s p) p.length).p_cnt = 0 := by
  have hcnt : (encode_bytes WBITS s p).put.p_cnt = p.length % 8 := by
    rw [encode_bytes_eq]
    simp only [hput]
    rw [put_bits_p_cnt, hits_length]
  unfold literal_put
  by_cases h1 : p.length = PPP_BLOCKSIZE BB
  · rw [if_pos h1, hcnt, h1]
    exact blocksize_mod8 BB hBB
  · rw [if_neg h1]
    by_cases h2 : 0 < (encode_bytes WBITS s p).put.p_cnt ∧ (encode_bytes WBITS s p).put.p_cnt < 8
    · rw [if_pos h2]
      simp [force_advance, advance_buf]
    · rw [if_neg h2]
      rw [hcnt] at h2 ⊢
      omega

theorem g_cnt_step (WBITS : Nat) (s : DecState) (b : Nat) (s1 : DecState)
    (hs : s.get.g_cnt = 0) (h : output_byte WBITS s b = some s1) : s1.get.g_cnt = 0 := by
  unfold output_byte at h
  by_cases hb : b = 1
  · rw [if_pos hb] at h
    injection h with h
    subst h
    exact hs
  · rw [if_neg hb] at h
    cases hl : s.get.gbuf with
    | nil =>
      simp only [gfgetc, hl] at h
      exact absurd h (by simp)
    | cons x rest =>
      simp only [gfgetc, hl] at h
      injection h with h
      subst h
      exact hs

theorem g_cnt_full (BB : Nat) (hBB : 3 ≤ BB) (s : DecState) (bbuf : List Nat) (g1 : GetBuf)
    (hs : s.get.g_cnt = 0) (h : get_bits (PPP_BLOCKSIZE BB) s.get = some (bbuf, g1)) :
    ({ s with get := g1 } : DecState).get.g_cnt = 0 := by
  have hg : s.get = ⟨s.get.gbuf, 0⟩ := by
    cases hsg : s.get with
    | mk l k => rw [hsg] at hs; simp only at hs; rw [hs]
  rw [hg, get_bits_eq _ _ 0 (by decide)] at h
  by_cases hc : PPP_BLOCKSIZE BB = 0 ∨ (0 + PPP_BLOCKSIZE BB + 7) / 8 ≤ s.get.gbuf.length
  · rw [if_pos hc] at h
    injection h with h
    injection h with _ h2
    rw [← h2]
    have := blocksize_mod8 BB hBB
    simp only
    omega
  · rw [if_neg hc] at h
    exact absurd h (by simp)

theorem g_cnt_last (s : DecState) (n : Nat) (bbuf : List Nat) (g1 : GetBuf)
    (hs : s.get.g_cnt = 0) (h : get_bits n s.get = some (bbuf, g1)) :
    ({ s with get := if 0 < g1.g_cnt ∧ g1.g_cnt < 8 then force_advance_gbuf g1 else g1 } :
      DecState).get.g_cnt = 0 := by
  have hg : s.get = ⟨s.get.gbuf, 0⟩ := by
    cases hsg : s.get with
    | mk l k => rw [hsg] at hs; simp only at hs; rw [hs]
  rw [hg, get_bits_eq _ _ 0 (by decide)] at h
  by_cases hc : n = 0 ∨ (0 + n + 7) / 8 ≤ s.get.gbuf.length
  · rw [if_pos hc] at h
    injection h with h
    injection h with _ h2
    rw [← h2]
    simp only
    by_cases h3 : 0 < (0 + n) % 8 ∧ (0 + n) % 8 < 8
    · rw [if_pos h3]
      simp [force_advance_gbuf, advance_gbuf]
    · rw [if_neg h3]
      simp only
      omega
  · rw [if_neg hc] at h
    exact absurd h (by simp)

/-- The loop over the full blocks of the scalar decoder ends on a byte
boundary of its input. -/
theorem scalar_blocks_aligned (BB WBITS : Nat) (hBB : 3 ≤ BB) (n : Nat) (s s1 : DecState)
    (hs : s.get.g_cnt = 0) (h : decode_blocks BB WBITS n s = some s1) : s1.get.g_cnt = 0 := by
  rw [← blocks_trace_snd] at h
  exact (blocks_trace_inv BB WBITS (fun t => t.get.g_cnt = 0)
    (fun s b s1 hs h => g_cnt_step WBITS s b s1 hs h)
    (fun s bbuf g1 hs h => g_cnt_full BB hBB s bbuf g1 hs h) n s hs).2 s1 h

/-- In every state of the run of the scalar decoder, on any payload, the bit
count `g_cnt` is 0. -/
theorem decompress_states_g_cnt (BB WBITS : Nat) (hBB : 3 ≤ BB) (nb L : Int) (w : Nat → Nat)
    (payload : List Nat) (put : PutBuf) :
    ∀ t ∈ decompress_states BB WBITS nb L w (init_get_buffer payload) put, t.get.g_cnt = 0 :=
  decompress_states_inv BB WBITS (fun t => t.get.g_cnt = 0)
    (fun s b s1 hs h => g_cnt_step WBITS s b s1 hs h)
    (fun s bbuf g1 hs h => g_cnt_full BB hBB s bbuf g1 hs h)
    (fun s n bbuf g1 hs h => g_cnt_last s n bbuf g1 hs h) nb L w _ put rfl

end Lzpgt2
namespace Lzpgt2

open Lzpgt

/-! ## The number of bytes the decoder writes -/

theorem get_bits_length (n : Nat) : ∀ (g g1 : GetBuf) (bbuf : List Nat),
    get_bits n g = some (bbuf, g1) → bbuf.length = n := by
  induction n with
  | zero =>
    intro g g1 bbuf h
    simp only [get_bits, Option.some.injEq, Prod.mk.injEq] at h
    rw [← h.1]; rfl
  | succ n ih =>
    intro g g1 bbuf h
    unfold get_bits at h
    cases h1 : get_bit g with
    | none => rw [h1] at h; exact absurd h (by simp)
    | some r =>
      obtain ⟨bit, g2⟩ := r
      rw [h1] at h
      simp only at h
      cases h2 : get_bits n g2 with
      | none => rw [h2] at h; exact absurd h (by simp)
      | some q =>
        obtain ⟨bb, g3⟩ := q
        rw [h2] at h
        simp only [Option.some.injEq, Prod.mk.injEq] at h
        rw [← h.1, List.length_cons, ih g2 g3 bb h2]

theorem output_byte_put (WBITS : Nat) (s s1 : DecState) (b : Nat)
    (h : output_byte WBITS s b = some s1) :
    s1.put.out.length = s.put.out.length + 1 ∧ s1.put.cur = s.put.cur ∧
      s1.put.p_cnt = s.put.p_cnt := by
  unfold output_byte at h
  by_cases hb : b = 1
  · rw [if_pos hb] at h
    injection h with h
    subst h
    simp [pfputc]
  · rw [if_neg hb] at h
    cases hg : gfgetc s.get with
    | none => rw [hg] at h; exact absurd h (by simp)
    | some r =>
      obtain ⟨c, g1⟩ := r
      rw [hg] at h
      injection h with h
      subst h
      simp [pfputc]

theorem output_bytes_put (WBITS : Nat) (bbuf : List Nat) : ∀ (s s1 : DecState),
    output_bytes WBITS bbuf s = some s1 →
    s1.put.out.length = s.put.out.length + bbuf.length ∧ s1.put.cur = s.put.cur ∧
      s1.put.p_cnt = s.put.p_cnt := by
  induction bbuf with
  | nil =>
    intro s s1 h
    simp only [output_bytes, Option.some.injEq] at h
    subst h
    simp
  | cons b bbuf ih =>
    intro s s1 h
    unfold output_bytes at h
    cases h1 : output_byte WBITS s b with
    | none => rw [h1] at h; exact absurd h (by simp)
    | some s2 =>
      rw [h1] at h
      obtain ⟨a1, a2, a3⟩ := output_byte_put WBITS s s2 b h1
      obtain ⟨b1, b2, b3⟩ := ih s2 s1 h
      refine ⟨?_, by rw [b2, a2], by rw [b3, a3]⟩
      rw [b1, a1, List.length_cons]
      omega

theorem decode_block_put (BB WBITS : Nat) (s s1 : DecState)
    (h : decode_block BB WBITS s = some s1) :
    s1.put.out.length = s.put.out.length + PPP_BLOCKSIZE BB ∧ s1.put.cur = s.put.cur ∧
      s1.put.p_cnt = s.put.p_cnt := by
  unfold decode_block at h
  cases h1 : get_bits (PPP_BLOCKSIZE BB) s.get with
  | none => rw [h1] at h; exact absurd h (by simp)
  | some r =>
    obtain ⟨bbuf, g1⟩ := r
    rw [h1] at h
    have hl := get_bits_length _ _ _ _ h1
    have := output_bytes_put WBITS bbuf _ s1 h
    rw [hl] at this
    exact this

theorem decode_blocks_put (BB WBITS : Nat) (n : Nat) : ∀ (s s1 : DecState),
    decode_blocks BB WBITS n s = some s1 →
    s1.put.out.length = s.put.out.length + n * PPP_BLOCKSIZE BB ∧ s1.put.cur = s.put.cur ∧
      s1.put.p_cnt = s.put.p_cnt := by
  induction n with
  | zero =>
    intro s s1 h
    simp only [decode_blocks, Option.some.injEq] at h
    subst h
    simp
  | succ n ih =>
    intro s s1 h
    unfold decode_blocks at h
    cases h1 : decode_block BB WBITS s with
    | none => rw [h1] at h; exact absurd h (by simp)
    | some s2 =>
      rw [h1] at h
      obtain ⟨a1, a2, a3⟩ := decode_block_put BB WBITS s s2 h1
      obtain ⟨b1, b2, b3⟩ := ih s2 s1 h
      refine ⟨?_, by rw [b2, a2], by rw [b3, a3]⟩
      rw [b1, a1, Nat.succ_mul]
      omega

theorem decode_last_put (WBITS : Nat) (L : Int) (s s1 : DecState)
    (h : decode_last WBITS L s = some s1) :
    s1.put.out.length = s.put.out.length + L.toNat ∧ s1.put.cur = s.put.cur ∧
      s1.put.p_cnt = s.put.p_cnt := by
  unfold decode_last at h
  by_cases hL : 0 < L
  · rw [if_pos hL] at h
    cases h1 : get_bits L.toNat s.get with
    | none => rw [h1] at h; exact absurd h (by simp)
    | some r =>
      obtain ⟨bbuf, g1⟩ := r
      rw [h1] at h
      have hl := get_bits_length _ _ _ _ h1
      have := output_bytes_put WBITS bbuf _ s1 h
      rw [hl] at this
      exact this
  · rw [if_neg hL] at h
    injection h with h
    subst h
    have : L.toNat = 0 := Int.toNat_eq_zero.mpr (not_lt.mp hL)
    simp [this]

/-- The scalar decoder, when it returns, has written `ppp_nblocks * B +
ppp_lastblocksize` bytes (counters below 0 count as 0) and has left the
accumulator of the output stream as it was. -/
theorem decompress_put (BB WBITS : Nat) (nb L : Int) (w : Nat → Nat) (get : GetBuf)
    (put : PutBuf) (s : DecState) (h : decompress_LZP BB WBITS nb L w get put = some s) :
    s.put.out.length = put.out.length + nb.toNat * PPP_BLOCKSIZE BB + L.toNat ∧
      s.put.cur = put.cur ∧ s.put.p_cnt = put.p_cnt := by
  unfold decompress_LZP at h
  simp only at h
  by_cases hn : 0 < nb
  · rw [if_pos hn] at h
    cases h1 : decode_blocks BB WBITS nb.toNat ⟨w, 0, 0, get, put⟩ with
    | none => rw [h1] at h; exact absurd h (by simp)
    | some s1 =>
      rw [h1] at h
      obtain ⟨a1, a2, a3⟩ := decode_blocks_put BB WBITS _ _ s1 h1
      obtain ⟨b1, b2, b3⟩ := decode_last_put WBITS L s1 s h
      exact ⟨by rw [b1, a1], by rw [b2, a2], by rw [b3, a3]⟩
  · rw [if_neg hn] at h
    obtain ⟨b1, b2, b3⟩ := decode_last_put WBITS L _ s h
    have : nb.toNat = 0 := Int.toNat_eq_zero.mpr (not_lt.mp hn)
    exact ⟨by rw [b1, this]; simp, b2, b3⟩

end Lzpgt2
namespace Lzpgt2

open Lzpgt

/-! ## A payload that is long enough lets the decoder return -/

theorem output_bytes_some (WBITS : Nat) (bbuf : List Nat) : ∀ (s : DecState),
    bbuf.length ≤ s.get.gbuf.length →
    ∃ s1, output_bytes WBITS bbuf s = some s1 ∧
      s.get.gbuf.length ≤ s1.get.gbuf.length + bbuf.length := by
  induction bbuf with
  | nil => intro s _; exact ⟨s, rfl, by simp⟩
  | cons b bbuf ih =>
    intro s hlen
    have hl : (b :: bbuf).length = bbuf.length + 1 := rfl
    rw [hl] at hlen
    unfold output_bytes
    by_cases hb : b = 1
    · have h1 : output_byte WBITS s b
          = some { s with c := s.w s.prev, put := pfputc s.put (s.w s.prev),
                          prev := update_hash WBITS s.prev (s.w s.prev) } := by
        unfold output_byte
        rw [if_pos hb]
      obtain ⟨s1, e1, e2⟩ := ih
        { s with c := s.w s.prev, put := pfputc s.put (s.w s.prev),
                 prev := update_hash WBITS s.prev (s.w s.prev) } (by simp only; omega)
      rw [h1]
      refine ⟨s1, e1, ?_⟩
      simp only at e2
      rw [hl]
      omega
    · cases hg : s.get.gbuf with
      | nil => rw [hg] at hlen; simp at hlen
      | cons x rest =>
        have h1 : output_byte WBITS s b
            = some { s with c := x, get := ⟨rest, s.get.g_cnt⟩, put := pfputc s.put x,
                            w := store s.w s.prev x, prev := update_hash WBITS s.prev x } := by
          unfold output_byte
          rw [if_neg hb]
          simp only [gfgetc, hg]
        rw [hg] at hlen
        simp only [List.length_cons] at hlen
        obtain ⟨s1, e1, e2⟩ := ih
          { s with c := x, get := ⟨rest, s.get.g_cnt⟩, put := pfputc s.put x,
                   w := store s.w s.prev x, prev := update_hash WBITS s.prev x }
          (by simp only; omega)
        rw [h1]
        refine ⟨s1, e1, ?_⟩
        simp only at e2
        rw [hl, List.length_cons]
        omega

theorem scalar_output_g_cnt (WBITS : Nat) (bbuf : List Nat) : ∀ (s s1 : DecState),
    output_bytes WBITS bbuf s = some s1 → s1.get.g_cnt = s.get.g_cnt := by
  induction bbuf with
  | nil =>
    intro s s1 h
    simp only [output_bytes, Option.some.injEq] at h
    rw [h]
  | cons b bbuf ih =>
    intro s s1 h
    unfold output_bytes at h
    cases h1 : output_byte WBITS s b with
    | none => rw [h1] at h; exact absurd h (by simp)
    | some s2 =>
      rw [h1] at h
      rw [ih s2 s1 h]
      unfold output_byte at h1
      by_cases hb : b = 1
      · rw [if_pos hb] at h1
        injection h1 with h1
        subst h1
        rfl
      · rw [if_neg hb] at h1
        cases hl : s.get.gbuf with
        | nil =>
          simp only [gfgetc, hl] at h1
          exact absurd h1 (by simp)
        | cons x rest =>
          simp only [gfgetc, hl] at h1
          injection h1 with h1
          subst h1
          rfl

theorem decode_block_some (BB WBITS : Nat) (hBB : 3 ≤ BB) (s : DecState)
    (hg : s.get.g_cnt = 0)
    (hlen : PPP_BLOCKSIZE BB / 8 + PPP_BLOCKSIZE BB ≤ s.get.gbuf.length) :
    ∃ s1, decode_block BB WBITS s = some s1 ∧ s1.get.g_cnt = 0 ∧
      s.get.gbuf.length ≤ s1.get.gbuf.length + (PPP_BLOCKSIZE BB / 8 + PPP_BLOCKSIZE BB) := by
  have h8 := blocksize_mod8 BB hBB
  have hget : s.get = ⟨s.get.gbuf, 0⟩ := by
    cases hsg : s.get with
    | mk l k => rw [hsg] at hg; simp only at hg; rw [hg]
  have hc : PPP_BLOCKSIZE BB = 0 ∨ (0 + PPP_BLOCKSIZE BB + 7) / 8 ≤ s.get.gbuf.length := by
    right; omega
  have h1 := get_bits_eq (PPP_BLOCKSIZE BB) s.get.gbuf 0 (by decide)
  rw [if_pos hc, ← hget] at h1
  have hl := get_bits_length _ _ _ _ h1
  have hq : (0 + PPP_BLOCKSIZE BB) / 8 = PPP_BLOCKSIZE BB / 8 := by rw [Nat.zero_add]
  have hm : (0 + PPP_BLOCKSIZE BB) % 8 = 0 := by rw [Nat.zero_add]; exact h8
  obtain ⟨s1, e1, e2⟩ := output_bytes_some WBITS
    ((unpack (PPP_BLOCKSIZE BB) s.get.gbuf 0).map (fun b => if b then 1 else 0))
    { s with get := ⟨s.get.gbuf.drop ((0 + PPP_BLOCKSIZE BB) / 8), (0 + PPP_BLOCKSIZE BB) % 8⟩ }
    (by rw [hl]; simp only [List.length_drop]; omega)
  have e3 := scalar_output_g_cnt WBITS _ _ s1 e1
  refine ⟨s1, ?_, ?_, ?_⟩
  · unfold decode_block
    rw [h1]
    exact e1
  · rw [e3]
    exact hm
  · rw [hl] at e2
    simp only [List.length_drop] at e2
    omega

theorem decode_blocks_some (BB WBITS : Nat) (hBB : 3 ≤ BB) (n : Nat) : ∀ (s : DecState),
    s.get.g_cnt = 0 →
    n * (PPP_BLOCKSIZE BB / 8 + PPP_BLOCKSIZE BB) ≤ s.get.gbuf.length →
    ∃ s1, decode_blocks BB WBITS n s = some s1 ∧ s1.get.g_cnt = 0 ∧
      s.get.gbuf.length ≤ s1.get.gbuf.length + n * (PPP_BLOCKSIZE BB / 8 + PPP_BLOCKSIZE BB) := by
  induction n with
  | zero => intro s hg _; exact ⟨s, rfl, hg, by simp⟩
  | succ n ih =>
    intro s hg hlen
    rw [Nat.succ_mul] at hlen
    obtain ⟨s1, e1, e2, e3⟩ := decode_block_some BB WBITS hBB s hg (by omega)
    obtain ⟨s2, f1, f2, f3⟩ := ih s1 e2 (by omega)
    refine ⟨s2, ?_, f2, ?_⟩
    · unfold decode_blocks
      rw [e1]
      exact f1
    · rw [Nat.succ_mul]
      omega

theorem decode_last_some (WBITS : Nat) (L : Int) (s : DecState) (hg : s.get.g_cnt = 0)
    (hlen : (L.toNat + 7) / 8 + L.toNat ≤ s.get.gbuf.length) :
    ∃ s1, decode_last WBITS L s = some s1 := by
  unfold decode_last
  by_cases hL : 0 < L
  · rw [if_pos hL]
    have hget : s.get = ⟨s.get.gbuf, 0⟩ := by
      cases hsg : s.get with
      | mk l k => rw [hsg] at hg; simp only at hg; rw [hg]
    have hc : L.toNat = 0 ∨ (0 + L.toNat + 7) / 8 ≤ s.get.gbuf.length := by
      right; omega
    have h1 := get_bits_eq L.toNat s.get.gbuf 0 (by decide)
    rw [if_pos hc, ← hget] at h1
    have hl := get_bits_length _ _ _ _ h1
    rw [h1]
    simp only
    by_cases h3 : 0 < (0 + L.toNat) % 8 ∧ (0 + L.toNat) % 8 < 8
    · rw [if_pos h3]
      obtain ⟨s1, e1, _⟩ := output_bytes_some WBITS
        ((unpack L.toNat s.get.gbuf 0).map (fun b => if b then 1 else 0))
        { s with get :=
            force_advance_gbuf ⟨s.get.gbuf.drop ((0 + L.toNat) / 8), (0 + L.toNat) % 8⟩ }
        (by
          rw [hl]
          simp only [force_advance_gbuf, advance_gbuf, if_true, List.length_tail,
            List.length_drop]
          omega)
      exact ⟨s1, e1⟩
    · rw [if_neg h3]
      obtain ⟨s1, e1, _⟩ := output_bytes_some WBITS
        ((unpack L.toNat s.get.gbuf 0).map (fun b => if b then 1 else 0))
        { s with get := ⟨s.get.gbuf.drop ((0 + L.toNat) / 8), (0 + L.toNat) % 8⟩ }
        (by
          rw [hl]
          simp only [List.length_drop]
          omega)
      exact ⟨s1, e1⟩
  · rw [if_neg hL]
    exact ⟨s, rfl⟩

/-- On a payload that has room for every bit section and for a literal per
byte, the scalar decoder returns. -/
theorem decompress_some (BB WBITS : Nat) (hBB : 3 ≤ BB) (nb L : Int) (w : Nat → Nat)
    (payload : List Nat) (put : PutBuf)
    (hlen : nb.toNat * (PPP_BLOCKSIZE BB / 8 + PPP_BLOCKSIZE BB)
      + ((L.toNat + 7) / 8 + L.toNat) ≤ payload.length) :
    ∃ s, decompress_LZP BB WBITS nb L w (init_get_buffer payload) put = some s := by
  unfold decompress_LZP
  simp only
  by_cases hn : 0 < nb
  · rw [if_pos hn]
    obtain ⟨s1, e1, e2, e3⟩ := decode_blocks_some BB WBITS hBB nb.toNat
      ⟨w, 0, 0, init_get_buffer payload, put⟩ rfl
      (by simp only [init_get_buffer]; omega)
    rw [e1]
    simp only [init_get_buffer] at e3
    exact decode_last_some WBITS L s1 e2 (by omega)
  · rw [if_neg hn]
    exact decode_last_some WBITS L _ rfl (by simp only [init_get_buffer]; omega)

end Lzpgt2
namespace Lzpgt2

open Lzpgt

/-! ## Decoding does not depend on what follows the bytes it reads -/

theorem get_bit_extend (g g1 : GetBuf) (b : Bool) (e : List Nat)
    (h : get_bit g = some (b, g1)) : get_bit (g.extend e) = some (b, g1.extend e) := by
  cases hl : g.gbuf with
  | nil =>
    simp only [get_bit, hl] at h
    exact absurd h (by simp)
  | cons x l =>
    simp only [get_bit, hl, Option.some.injEq, Prod.mk.injEq] at h
    obtain ⟨h1, h2⟩ := h
    simp only [get_bit, GetBuf.extend, hl, List.cons_append, Option.some.injEq, Prod.mk.injEq]
    refine ⟨h1, ?_⟩
    rw [← h2]
    unfold advance_gbuf
    by_cases h8 : g.g_cnt + 1 = 8
    · simp [h8, hl]
    · simp [h8, hl]

theorem get_bits_extend (n : Nat) (e : List Nat) : ∀ (g g1 : GetBuf) (bbuf : List Nat),
    get_bits n g = some (bbuf, g1) → get_bits n (g.extend e) = some (bbuf, g1.extend e) := by
  induction n with
  | zero =>
    intro g g1 bbuf h
    simp only [get_bits, Option.some.injEq, Prod.mk.injEq] at h
    simp only [get_bits, Option.some.injEq, Prod.mk.injEq]
    exact ⟨h.1, by rw [h.2]⟩
  | succ n ih =>
    intro g g1 bbuf h
    unfold get_bits at h
    cases h1 : get_bit g with
    | none => rw [h1] at h; exact absurd h (by simp)
    | some r =>
      obtain ⟨bit, g2⟩ := r
      rw [h1] at h
      simp only at h
      cases h2 : get_bits n g2 with
      | none => rw [h2] at h; exact absurd h (by simp)
      | some q =>
        obtain ⟨bb, g3⟩ := q
        rw [h2] at h
        simp only [Option.some.injEq, Prod.mk.injEq] at h
        unfold get_bits
        rw [get_bit_extend g g2 bit e h1]
        simp only
        rw [ih g2 g3 bb h2]
        simp only [Option.some.injEq, Prod.mk.injEq]
        exact ⟨h.1, by rw [h.2]⟩

theorem output_byte_extend (WBITS : Nat) (s s1 : DecState) (b : Nat) (e : List Nat)
    (h : output_byte WBITS s b = some s1) :
    output_byte WBITS (s.extend e) b = some (s1.extend e) := by
  unfold output_byte at h ⊢
  by_cases hb : b = 1
  · rw [if_pos hb] at h ⊢
    injection h with h
    subst h
    rfl
  · rw [if_neg hb] at h ⊢
    cases hl : s.get.gbuf with
    | nil =>
      simp only [gfgetc, hl] at h
      exact absurd h (by simp)
    | cons x rest =>
      simp only [gfgetc, hl] at h
      injection h with h
      subst h
      simp only [gfgetc, DecState.extend, GetBuf.extend, hl, List.cons_append]

theorem output_bytes_extend (WBITS : Nat) (e : List Nat) (bbuf : List Nat) :
    ∀ (s s1 : DecState), output_bytes WBITS bbuf s = some s1 →
    output_bytes WBITS bbuf (s.extend e) = some (s1.extend e) := by
  induction bbuf with
  | nil =>
    intro s s1 h
    simp only [output_bytes, Option.some.injEq] at h
    subst h
    rfl
  | cons b bbuf ih =>
    intro s s1 h
    unfold output_bytes at h ⊢
    cases h1 : output_byte WBITS s b with
    | none => rw [h1] at h; exact absurd h (by simp)
    | some s2 =>
      rw [h1] at h
      rw [output_byte_extend WBITS s s2 b e h1]
      exact ih s2 s1 h

theorem decode_block_extend (BB WBITS : Nat) (e : List Nat) (s s1 : DecState)
    (h : decode_block BB WBITS s = some s1) :
    decode_block BB WBITS (s.extend e) = some (s1.extend e) := by
  unfold decode_block at h ⊢
  cases h1 : get_bits (PPP_BLOCKSIZE BB) s.get with
  | none => rw [h1] at h; exact absurd h (by simp)
  | some r =>
    obtain ⟨bbuf, g1⟩ := r
    rw [h1] at h
    have h2 : get_bits (PPP_BLOCKSIZE BB) (s.extend e).get = some (bbuf, g1.extend e) :=
      get_bits_extend _ e _ _ _ h1
    rw [h2]
    exact output_bytes_extend WBITS e bbuf _ s1 h

theorem decode_blocks_extend (BB WBITS : Nat) (e : List Nat) (n : Nat) :
    ∀ (s s1 : DecState), decode_blocks BB WBITS n s = some s1 →
    decode_blocks BB WBITS n (s.extend e) = some (s1.extend e) := by
  induction n with
  | zero =>
    intro s s1 h
    simp only [decode_blocks, Option.some.injEq] at h
    subst h
    rfl
  | succ n ih =>
    intro s s1 h
    unfold decode_blocks at h ⊢
    cases h1 : decode_block BB WBITS s with
    | none => rw [h1] at h; exact absurd h (by simp)
    | some s2 =>
      rw [h1] at h
      rw [decode_block_extend BB WBITS e s s2 h1]
      exact ih s2 s1 h

theorem get_bits_current (n : Nat) (g g1 : GetBuf) (bbuf : List Nat) (hg : g.g_cnt = 0)
    (h : get_bits n g = some (bbuf, g1)) (hpos : 0 < g1.g_cnt) : g1.gbuf ≠ [] := by
  have hget : g = ⟨g.gbuf, 0⟩ := by
    cases g with
    | mk l k => simp only at hg; rw [hg]
  rw [hget, get_bits_eq _ _ 0 (by decide)] at h
  by_cases hc : n = 0 ∨ (0 + n + 7) / 8 ≤ g.gbuf.length
  · rw [if_pos hc] at h
    injection h with h
    injection h with _ h2
    rw [← h2] at hpos ⊢
    simp only at hpos ⊢
    intro hnil
    have hl := congrArg List.length hnil
    simp only [List.length_drop, List.length_nil] at hl
    omega
  · rw [if_neg hc] at h
    exact absurd h (by simp)

theorem decode_last_extend (WBITS : Nat) (e : List Nat) (L : Int) (s s1 : DecState)
    (hg : s.get.g_cnt = 0) (h : decode_last WBITS L s = some s1) :
    decode_last WBITS L (s.extend e) = some (s1.extend e) := by
  unfold decode_last at h ⊢
  by_cases hL : 0 < L
  · rw [if_pos hL] at h ⊢
    cases h1 : get_bits L.toNat s.get with
    | none => rw [h1] at h; exact absurd h (by simp)
    | some r =>
      obtain ⟨bbuf, g1⟩ := r
      rw [h1] at h
      have h2 : get_bits L.toNat (s.extend e).get = some (bbuf, g1.extend e) :=
        get_bits_extend _ e _ _ _ h1
      rw [h2]
      simp only at h ⊢
      have h3 : (if 0 < (g1.extend e).g_cnt ∧ (g1.extend e).g_cnt < 8
            then force_advance_gbuf (g1.extend e) else g1.extend e)
          = (if 0 < g1.g_cnt ∧ g1.g_cnt < 8 then force_advance_gbuf g1 else g1).extend e := by
        by_cases hc : 0 < g1.g_cnt ∧ g1.g_cnt < 8
        · have hne := get_bits_current _ _ _ _ hg h1 hc.1
          have hc' : 0 < (g1.extend e).g_cnt ∧ (g1.extend e).g_cnt < 8 := hc
          rw [if_pos hc, if_pos hc']
          cases hl : g1.gbuf with
          | nil => exact absurd hl hne
          | cons x l =>
            simp [force_advance_gbuf, advance_gbuf, GetBuf.extend, hl]
        · have hc' : ¬ (0 < (g1.extend e).g_cnt ∧ (g1.extend e).g_cnt < 8) := hc
          rw [if_neg hc, if_neg hc']
      have h4 := output_bytes_extend WBITS e bbuf _ s1 h
      simp only [DecState.extend] at h4 ⊢
      rw [h3]
      exact h4
  · rw [if_neg hL] at h ⊢
    injection h with h
    subst h
    rfl

end Lzpgt2
namespace Lzpgt2

open Lzpgt

theorem decompress_extend (BB WBITS : Nat) (hBB : 3 ≤ BB) (nb L : Int) (w : Nat → Nat)
    (payload e : List Nat) (put : PutBuf) (s : DecState)
    (h : decompress_LZP BB WBITS nb L w (init_get_buffer payload) put = some s) :
    decompress_LZP BB WBITS nb L w (init_get_buffer (payload ++ e)) put = some (s.extend e) := by
  unfold decompress_LZP at h ⊢
  simp only at h ⊢
  have h0 : (⟨w, 0, 0, init_get_buffer (payload ++ e), put⟩ : DecState)
      = DecState.extend ⟨w, 0, 0, init_get_buffer payload, put⟩ e := rfl
  rw [h0]
  by_cases hn : 0 < nb
  · rw [if_pos hn] at h ⊢
    cases h1 : decode_blocks BB WBITS nb.toNat ⟨w, 0, 0, init_get_buffer payload, put⟩ with
    | none => rw [h1] at h; exact absurd h (by simp)
    | some s1 =>
      rw [h1] at h
      have hg := scalar_blocks_aligned BB WBITS hBB _ _ s1 rfl h1
      rw [decode_blocks_extend BB WBITS e _ _ s1 h1]
      exact decode_last_extend WBITS e L s1 s hg h
  · rw [if_neg hn] at h ⊢
    exact decode_last_extend WBITS e L _ s rfl h

/-- Decoding a strict prefix of the payload that `compress_LZP` wrote, under
the header it wrote, asks for a byte after the end of the prefix. -/
theorem decompress_prefix (BB WBITS : Nat) (hBB : 3 ≤ BB) (X P e : List Nat) (he : e ≠ [])
    (hP : payload BB WBITS X = P ++ e) :
    decompress_LZP BB WBITS
        (compress_LZP BB WBITS zero_table init_put_buffer X).ppp_nblocks
        (compress_LZP BB WBITS zero_table init_put_buffer X).ppp_lastblocksize zero_table
        (init_get_buffer P) init_put_buffer = none := by
  cases h : decompress_LZP BB WBITS
        (compress_LZP BB WBITS zero_table init_put_buffer X).ppp_nblocks
        (compress_LZP BB WBITS zero_table init_put_buffer X).ppp_lastblocksize zero_table
        (init_get_buffer P) init_put_buffer with
  | none => rfl
  | some s =>
    exfalso
    have h1 := decompress_extend BB WBITS hBB _ _ _ P e _ s h
    obtain ⟨c1, hc1⟩ := decompress_compress BB WBITS hBB X zero_table [] init_put_buffer
    have hpay : (compress_LZP BB WBITS zero_table init_put_buffer X).put.out ++ []
        = P ++ e := by
      rw [List.append_nil, ← hP]
      unfold payload
      rw [flush_compress BB WBITS hBB]
    rw [hpay] at hc1
    change decompress_LZP BB WBITS _ _ zero_table ⟨P ++ e, 0⟩ init_put_buffer = _ at h1
    rw [h1] at hc1
    injection hc1 with hc1
    have hg := congrArg (fun t : DecState => t.get.gbuf) hc1
    simp only [DecState.extend, GetBuf.extend] at hg
    have hl := congrArg List.length hg
    simp only [List.length_append, List.length_nil] at hl
    have : 0 < e.length := List.length_pos.mpr he
    omega

end Lzpgt2
namespace Lzpgt

/-! ## The counter of the loop over the full blocks -/

theorem int64_id (x : Int) (h1 : -2 ^ 63 ≤ x) (h2 : x < 2 ^ 63) : int64 x = x := by
  unfold int64
  norm_num at h1 h2 ⊢
  omega

/-- From a counter `k ≥ 0` the loop `while ( ppp_nblocks-- )` runs its body
exactly `k` times and leaves the counter at -1. -/
theorem while_nblocks_eq {σ : Type} (body : σ → Option σ) (k : Nat) :
    ∀ (fuel turns : Nat) (s : Option σ), (k : Int) < 2 ^ 63 → k + 1 ≤ fuel →
    while_nblocks body fuel (k : Int) turns s
      = some (-1, turns + k, Nat.iterate (fun o => o.bind body) k s) := by
  induction k with
  | zero =>
    intro fuel turns s _ hf
    obtain ⟨f, rfl⟩ : ∃ f, fuel = f + 1 := ⟨fuel - 1, by omega⟩
    simp only [while_nblocks, Nat.cast_zero, ne_eq, not_true_eq_false, if_false, zero_sub,
      Nat.add_zero, Function.iterate_zero, id_eq]
    rw [int64_id (-1) (by norm_num) (by norm_num)]
  | succ k ih =>
    intro fuel turns s hk hf
    obtain ⟨f, rfl⟩ : ∃ f, fuel = f + 1 := ⟨fuel - 1, by omega⟩
    have hne : ((k + 1 : Nat) : Int) ≠ 0 := by
      exact_mod_cast Nat.succ_ne_zero k
    have hk' : (k : Int) < 2 ^ 63 := by
      have : ((k + 1 : Nat) : Int) = (k : Int) + 1 := by push_cast; rfl
      omega
    have hdec : int64 (((k + 1 : Nat) : Int) - 1) = (k : Int) := by
      have : ((k + 1 : Nat) : Int) - 1 = (k : Int) := by push_cast; ring
      rw [this]
      exact int64_id _ (by have := Int.natCast_nonneg k; norm_num; omega) hk'
    rw [while_nblocks, if_pos hne, hdec, ih f (turns + 1) (s.bind body) hk' (by omega)]
    rw [Function.iterate_succ_apply]
    have : turns + 1 + k = turns + (k + 1) := by omega
    rw [this]

end Lzpgt

namespace Lzpgt2

open Lzpgt

theorem decode_blocks_iterate (BB WBITS : Nat) (n : Nat) : ∀ (s : Option DecState),
    Nat.iterate (fun o => o.bind (decode_block BB WBITS)) n s
      = s.bind (decode_blocks BB WBITS n) := by
  induction n with
  | zero =>
    intro s
    cases s <;> rfl
  | succ n ih =>
    intro s
    rw [Function.iterate_succ_apply, ih]
    cases s with
    | none => rfl
    | some s0 =>
      show (decode_block BB WBITS s0).bind (decode_blocks BB WBITS n)
        = decode_blocks BB WBITS (n + 1) s0
      conv_rhs => unfold decode_blocks
      cases h : decode_block BB WBITS s0 <;> rfl

end Lzpgt2

namespace Lzpgt7

open Lzpgt

theorem decode_blocks_iterate7 (BB WBITS : Nat) (n : Nat) : ∀ (s : Option DecState),
    Nat.iterate (fun o => o.bind (decode_block BB WBITS)) n s
      = s.bind (decode_blocks BB WBITS n) := by
  induction n with
  | zero =>
    intro s
    cases s <;> rfl
  | succ n ih =>
    intro s
    rw [Function.iterate_succ_apply, ih]
    cases s with
    | none => rfl
    | some s0 =>
      show (decode_block BB WBITS s0).bind (decode_blocks BB WBITS n)
        = decode_blocks BB WBITS (n + 1) s0
      conv_rhs => unfold decode_blocks
      cases h : decode_block BB WBITS s0 <;> rfl

end Lzpgt7
namespace Lzpgt

/-! ## The size of the payload -/

theorem misses_append (WBITS : Nat) (p : List Nat) : ∀ (w : Nat → Nat) (prev : Nat)
    (q : List Nat), misses WBITS w prev (p ++ q)
      = misses WBITS w prev p ++
        misses WBITS (table_after WBITS w prev p) (hash_after WBITS prev p) q := by
  induction p with
  | nil => intro w prev q; rfl
  | cons c p ih =>
    intro w prev q
    by_cases h : w prev = c
    · simp [misses, table_after, hash_after, h, ih]
    · simp [misses, table_after, hash_after, h, ih]

theorem block_bytes_length (WBITS : Nat) (w : Nat → Nat) (prev : Nat) (p : List Nat) :
    (block_bytes WBITS w prev p).length
      = (p.length + 7) / 8 + (misses WBITS w prev p).length := by
  unfold block_bytes
  rw [List.length_append, pack_bits_length]

/-- The number of bytes that `compress_LZP` writes for `input`: the bit
sections of the full blocks, the bit section of the short block, and the
mismatched bytes. -/
theorem stream_length (BB WBITS : Nat) (hBB : 3 ≤ BB) (fuel : Nat) :
    ∀ (input : List Nat) (w : Nat → Nat) (prev : Nat), input.length ≤ fuel →
    (stream BB WBITS fuel w prev input).length
      = input.length / PPP_BLOCKSIZE BB * (PPP_BLOCKSIZE BB / 8)
        + (input.length % PPP_BLOCKSIZE BB + 7) / 8
        + (misses WBITS w prev input).length := by
  have hB := blocksize_pos BB
  have h8 := blocksize_mod8 BB hBB
  induction fuel with
  | zero =>
    intro input w prev hlen
    have hnil : input = [] := List.length_eq_zero.mp (by omega)
    subst hnil
    simp [stream, misses]
  | succ fuel ih =>
    intro input w prev hlen
    by_cases hnil : input = []
    · subst hnil
      simp [stream, misses]
    · have hpos : 0 < input.length := List.length_pos.mpr hnil
      have htl : (input.take (PPP_BLOCKSIZE BB)).length = min (PPP_BLOCKSIZE BB) input.length :=
        List.length_take _ _
      have hne : (input.take (PPP_BLOCKSIZE BB)).length ≠ 0 := by rw [htl]; omega
      have hm : misses WBITS w prev input
          = misses WBITS w prev (input.take (PPP_BLOCKSIZE BB)) ++
            misses WBITS (table_after WBITS w prev (input.take (PPP_BLOCKSIZE BB)))
              (hash_after WBITS prev (input.take (PPP_BLOCKSIZE BB)))
              (input.drop (PPP_BLOCKSIZE BB)) := by
        rw [← misses_append, List.take_append_drop]
      simp only [stream, if_neg hne]
      rw [List.length_append, block_bytes_length, hm, List.length_append]
      by_cases hfull : PPP_BLOCKSIZE BB ≤ input.length
      · have hp : (input.take (PPP_BLOCKSIZE BB)).length = PPP_BLOCKSIZE BB := by
          rw [htl]; omega
        have hdl : (input.drop (PPP_BLOCKSIZE BB)).length = input.length - PPP_BLOCKSIZE BB :=
          List.length_drop _ _
        have hdiv : input.length / PPP_BLOCKSIZE BB
            = (input.drop (PPP_BLOCKSIZE BB)).length / PPP_BLOCKSIZE BB + 1 := by
          rw [hdl]
          conv_lhs => rw [← Nat.sub_add_cancel hfull]
          rw [Nat.add_div_right _ hB]
        have hmod : input.length % PPP_BLOCKSIZE BB
            = (input.drop (PPP_BLOCKSIZE BB)).length % PPP_BLOCKSIZE BB := by
          rw [hdl]
          conv_lhs => rw [← Nat.sub_add_cancel hfull]
          exact Nat.add_mod_right _ _
        rw [ih (input.drop (PPP_BLOCKSIZE BB)) _ _ (by rw [hdl]; omega), hp, hdiv, hmod,
          Nat.succ_mul]
        have h78 : (PPP_BLOCKSIZE BB + 7) / 8 = PPP_BLOCKSIZE BB / 8 := by omega
        rw [h78]
        omega
      · have htake : input.take (PPP_BLOCKSIZE BB) = input :=
          List.take_of_length_le (by omega)
        have hdrop : input.drop (PPP_BLOCKSIZE BB) = [] :=
          List.drop_eq_nil_of_le (by omega)
        have hdiv : input.length / PPP_BLOCKSIZE BB = 0 := Nat.div_eq_of_lt (by omega)
        have hmod : input.length % PPP_BLOCKSIZE BB = input.length := Nat.mod_eq_of_lt (by omega)
        have hs : stream BB WBITS fuel (table_after WBITS w prev input)
            (hash_after WBITS prev input) [] = [] := by
          cases fuel <;> simp [stream]
        rw [hdiv, hmod, htake, hdrop, hs]
        simp [misses]

theorem bit_bytes_ceil (B n : Nat) (h8 : B % 8 = 0) :
    n / B * (B / 8) + (n % B + 7) / 8 = (n + 7) / 8 := by
  obtain ⟨b, hb⟩ : ∃ b, B = 8 * b := ⟨B / 8, by omega⟩
  have hn := Nat.div_add_mod n B
  have h1 : B / 8 = b := by omega
  rw [h1]
  have h2 : n + 7 = 8 * (n / B * b) + (n % B + 7) := by
    have : B * (n / B) = 8 * (n / B * b) := by rw [hb]; ring
    omega
  rw [h2, Nat.mul_add_div (by decide)]

end Lzpgt

namespace Lzpgt2

open Lzpgt

/-- The positions at which the prediction fails are as many as the
mismatched bytes that the inner loop records. -/
theorem mismatches_eq (BB WBITS : Nat) (hBB : 3 ≤ BB) (X : List Nat) :
    mismatches BB WBITS X = (misses WBITS zero_table 0 X).length := by
  unfold mismatches
  rw [misses_length]
  have h := countP_not_getD (hits WBITS zero_table 0 X) X.length
    (by rw [hits_length])
  rw [hits_length, Nat.sub_self, Nat.add_zero] at h
  rw [← h]
  apply List.countP_congr
  intro i hi
  have hi' : i < X.length := List.mem_range.mp hi
  obtain ⟨e1, e2⟩ := encoder_at_eq BB WBITS hBB X i
  rw [e1, e2, hits_getD WBITS X zero_table 0 i hi']
  simp

theorem mismatches_le (BB WBITS : Nat) (X : List Nat) : mismatches BB WBITS X ≤ X.length := by
  unfold mismatches
  have h := List.countP_le_length
    (fun i => decide ((encoder_at BB WBITS X i).w (encoder_at BB WBITS X i).prev ≠ X.getD i 0))
    (l := List.range X.length)
  rw [List.length_range] at h
  exact h

theorem payload_length (BB WBITS : Nat) (hBB : 3 ≤ BB) (X : List Nat) :
    (payload BB WBITS X).length
      = X.length / PPP_BLOCKSIZE BB * (PPP_BLOCKSIZE BB / 8)
        + (X.length % PPP_BLOCKSIZE BB + 7) / 8 + mismatches BB WBITS X := by
  obtain ⟨c1, _, _⟩ := compress_closed BB WBITS hBB zero_table X
  unfold payload
  rw [flush_compress BB WBITS hBB, c1, mismatches_eq BB WBITS hBB]
  exact stream_length BB WBITS hBB X.length X zero_table 0 (le_refl _)

end Lzpgt2
namespace Lzpgt2

open Lzpgt

theorem blocks_misses (BB WBITS : Nat) (X : List Nat) (N : Nat) :
    ((List.range N).map (fun k =>
        (misses WBITS (table_after WBITS zero_table 0 (X.take (k * PPP_BLOCKSIZE BB)))
          (hash_after WBITS 0 (X.take (k * PPP_BLOCKSIZE BB))) (block BB X k)).length)).sum
      = (misses WBITS zero_table 0 (X.take (N * PPP_BLOCKSIZE BB))).length := by
  induction N with
  | zero => simp [misses]
  | succ N ih =>
    rw [List.range_succ, List.map_append, List.sum_append, ih]
    have ht : X.take ((N + 1) * PPP_BLOCKSIZE BB)
        = X.take (N * PPP_BLOCKSIZE BB) ++ block BB X N := by
      rw [Nat.succ_mul, List.take_add]
      rfl
    rw [ht, misses_append, List.length_append]
    simp

/-- The literal bytes written to the payload, block by block, are as many as
the positions at which the prediction fails. -/
theorem payload_literals_eq (BB WBITS : Nat) (hBB : 3 ≤ BB) (X : List Nat) :
    payload_literals BB WBITS X = mismatches BB WBITS X := by
  have hB := blocksize_pos BB
  rw [mismatches_eq BB WBITS hBB]
  unfold payload_literals
  have hc : (List.range (num_blocks BB X)).map
      (fun k => (encode_bytes WBITS (block_start BB WBITS X k) (block BB X k)).cbuf.length)
      = (List.range (num_blocks BB X)).map (fun k =>
        (misses WBITS (table_after WBITS zero_table 0 (X.take (k * PPP_BLOCKSIZE BB)))
          (hash_after WBITS 0 (X.take (k * PPP_BLOCKSIZE BB))) (block BB X k)).length) := by
    apply List.map_congr_left
    intro k hk
    have hk' : k < num_blocks BB X := List.mem_range.mp hk
    have hin := block_in_input BB X k hk'
    obtain ⟨_, h2⟩ := block_sections BB WBITS hBB X k hin
    obtain ⟨_, c2, c3⟩ := compress_closed BB WBITS hBB zero_table
      (X.take (k * PPP_BLOCKSIZE BB))
    rw [h2]
    simp only [block_start, c2, c3]
  rw [hc, blocks_misses]
  have hN : X.length ≤ num_blocks BB X * PPP_BLOCKSIZE BB := by
    unfold num_blocks
    have h1 := Nat.div_add_mod X.length (PPP_BLOCKSIZE BB)
    have h2 := Nat.mod_lt X.length hB
    rw [Nat.mul_comm] at h1
    by_cases hL : X.length % PPP_BLOCKSIZE BB = 0
    · rw [if_pos hL, Nat.add_zero]; omega
    · rw [if_neg hL, Nat.add_mul, Nat.one_mul]; omega
  rw [List.take_of_length_le hN]

end Lzpgt2
namespace Lzpgt2

open Lzpgt

/-! ## The read cursor of the decoder -/

theorem get_bit_suffix (g g1 : GetBuf) (b : Bool) (h : get_bit g = some (b, g1)) :
    g1.gbuf <:+ g.gbuf := by
  cases hl : g.gbuf with
  | nil =>
    simp only [get_bit, hl] at h
    exact absurd h (by simp)
  | cons x l =>
    simp only [get_bit, hl, Option.some.injEq, Prod.mk.injEq] at h
    rw [← h.2]
    unfold advance_gbuf
    by_cases h8 : g.g_cnt + 1 = 8
    · rw [if_pos h8]
      simp only [hl, List.tail_cons]
      exact List.suffix_cons x l
    · rw [if_neg h8]
      simp only [hl]
      exact List.suffix_refl _

theorem get_bits_suffix (n : Nat) : ∀ (g g1 : GetBuf) (bbuf : List Nat),
    get_bits n g = some (bbuf, g1) → g1.gbuf <:+ g.gbuf := by
  induction n with
  | zero =>
    intro g g1 bbuf h
    simp only [get_bits, Option.some.injEq, Prod.mk.injEq] at h
    rw [← h.2]
  | succ n ih =>
    intro g g1 bbuf h
    unfold get_bits at h
    cases h1 : get_bit g with
    | none => rw [h1] at h; exact absurd h (by simp)
    | some r =>
      obtain ⟨bit, g2⟩ := r
      rw [h1] at h
      simp only at h
      cases h2 : get_bits n g2 with
      | none => rw [h2] at h; exact absurd h (by simp)
      | some q =>
        obtain ⟨bb, g3⟩ := q
        rw [h2] at h
        simp only [Option.some.injEq, Prod.mk.injEq] at h
        rw [← h.2]
        exact List.IsSuffix.trans (ih g2 g3 bb h2) (get_bit_suffix g g2 bit h1)

/-- In every state of the run of the scalar decoder, what is left to read
is a suffix of the payload it started with. -/
theorem decompress_states_suffix (BB WBITS : Nat) (nb L : Int) (w : Nat → Nat)
    (payload : List Nat) (put : PutBuf) :
    ∀ t ∈ decompress_states BB WBITS nb L w (init_get_buffer payload) put,
      t.get.gbuf <:+ payload := by
  apply decompress_states_inv BB WBITS (fun t => t.get.gbuf <:+ payload)
  · intro s b s1 hs h
    unfold output_byte at h
    by_cases hb : b = 1
    · rw [if_pos hb] at h
      injection h with h
      subst h
      exact hs
    · rw [if_neg hb] at h
      cases hl : s.get.gbuf with
      | nil =>
        simp only [gfgetc, hl] at h
        exact absurd h (by simp)
      | cons x rest =>
        simp only [gfgetc, hl] at h
        injection h with h
        subst h
        simp only
        rw [hl] at hs
        exact List.IsSuffix.trans (List.suffix_cons x rest) hs
  · intro s bbuf g1 hs h
    exact List.IsSuffix.trans (get_bits_suffix _ _ _ _ h) hs
  · intro s n bbuf g1 hs h
    have h1 := List.IsSuffix.trans (get_bits_suffix _ _ _ _ h) hs
    simp only
    by_cases hc : 0 < g1.g_cnt ∧ g1.g_cnt < 8
    · rw [if_pos hc]
      simp only [force_advance_gbuf, advance_gbuf, if_true]
      exact List.IsSuffix.trans (List.tail_suffix _) h1
    · rw [if_neg hc]
      exact h1
  · exact List.suffix_refl _

end Lzpgt2
namespace Lzpgt7.Buffered

open Lzpgt

/-! ## The bulk decoder on its input buffer follows the decoder on the byte
sequence -/

theorem fread_pending (gBUFSIZE : Nat) (mem : Nat → Nat) (gIN : List Nat) :
    (List.range (fread gBUFSIZE mem gIN).2.1).map (fun i => (fread gBUFSIZE mem gIN).1 (0 + i))
        ++ (fread gBUFSIZE mem gIN).2.2 = gIN := by
  simp only [fread, Nat.zero_add]
  have hn : min gBUFSIZE gIN.length ≤ gIN.length := Nat.min_le_right _ _
  have h1 : (List.range (min gBUFSIZE gIN.length)).map
      (fun i => if i < min gBUFSIZE gIN.length then gIN.getD i 0 else mem i)
      = gIN.take (min gBUFSIZE gIN.length) := by
    apply List.ext_getElem
    · simp
    · intro i h1 h2
      simp only [List.length_map, List.length_range] at h1
      simp only [List.getElem_map, List.getElem_range, if_pos h1, List.getElem_take]
      rw [List.getD_eq_getElem _ _ (by omega)]
  rw [h1, List.take_append_drop]

theorem init_get_buffer_abs (gBUFSIZE : Nat) (mem : Nat → Nat) (file : List Nat) :
    (init_get_buffer gBUFSIZE mem file).abs = Lzpgt.init_get_buffer file := by
  unfold GIn.abs GIn.pending init_get_buffer Lzpgt.init_get_buffer
  simp only [Nat.sub_zero]
  rw [fread_pending]

theorem fread_ok (gBUFSIZE : Nat) (hpos : 0 < gBUFSIZE) (mem : Nat → Nat) (gIN : List Nat) :
    (fread gBUFSIZE mem gIN).2.1 ≤ gBUFSIZE ∧
    (0 < (fread gBUFSIZE mem gIN).2.1 ∨
      (0 = (fread gBUFSIZE mem gIN).2.1 ∧ (fread gBUFSIZE mem gIN).2.2 = [])) := by
  simp only [fread]
  refine ⟨Nat.min_le_left _ _, ?_⟩
  by_cases h : gIN = []
  · right
    subst h
    simp
  · left
    have : 0 < gIN.length := List.length_pos.mpr h
    omega

theorem init_get_buffer_ok (gBUFSIZE : Nat) (hpos : 0 < gBUFSIZE) (mem : Nat → Nat)
    (file : List Nat) : (init_get_buffer gBUFSIZE mem file).ok gBUFSIZE := by
  unfold GIn.ok init_get_buffer
  exact fread_ok gBUFSIZE hpos mem file

/-- A read through the buffer, while bytes are left, takes the next byte of
the sequence. -/
theorem next_byte_sim (gBUFSIZE : Nat) (hpos : 0 < gBUFSIZE) (g : GIn) (hok : g.ok gBUFSIZE)
    (x : Nat) (a : GetBuf) (h : Lzpgt7.next_byte g.abs = some (x, a)) :
    ∃ g1, next_byte gBUFSIZE g = some (x, g1) ∧ g1.ok gBUFSIZE ∧ g1.abs = a := by
  obtain ⟨hend, hcur⟩ := hok
  have hlt : g.gbuf < g.gbuf_end := by
    rcases hcur with hc | ⟨hc1, hc2⟩
    · exact hc
    · exfalso
      simp [Lzpgt7.next_byte, GIn.abs, GIn.pending, hc1, hc2] at h
  obtain ⟨d, hd⟩ : ∃ d, g.gbuf_end - g.gbuf = d + 1 := ⟨g.gbuf_end - g.gbuf - 1, by omega⟩
  have hp : g.pending
      = g.mem g.gbuf :: ((List.range d).map (fun i => g.mem (g.gbuf + 1 + i)) ++ g.gIN) := by
    unfold GIn.pending
    rw [hd, List.range_succ_eq_map, List.map_cons, List.map_map, List.cons_append]
    congr 2
    apply List.map_congr_left
    intro i _
    simp only [Function.comp, Nat.succ_eq_add_one]
    congr 1
    omega
  simp only [Lzpgt7.next_byte, GIn.abs, hp, Option.some.injEq, Prod.mk.injEq] at h
  obtain ⟨hx, ha⟩ := h
  unfold next_byte
  rw [if_pos (by omega)]
  by_cases hlast : g.gbuf + 1 = g.gbuf_end
  · rw [if_pos hlast]
    have hd0 : d = 0 := by omega
    refine ⟨{ g with gbuf := 0, mem := (fread gBUFSIZE g.mem g.gIN).1,
                     nfread := (fread gBUFSIZE g.mem g.gIN).2.1,
                     gbuf_end := (fread gBUFSIZE g.mem g.gIN).2.1,
                     gIN := (fread gBUFSIZE g.mem g.gIN).2.2 }, by rw [hx], ?_, ?_⟩
    · exact fread_ok gBUFSIZE hpos g.mem g.gIN
    · rw [← ha, hd0]
      simp only [GIn.abs, GIn.pending, Nat.sub_zero, List.range_zero, List.map_nil,
        List.nil_append]
      rw [fread_pending]
  · rw [if_neg hlast]
    refine ⟨{ g with gbuf := g.gbuf + 1 }, by rw [hx], ⟨hend, Or.inl ?_⟩, ?_⟩
    · show g.gbuf + 1 < g.gbuf_end
      omega
    · rw [← ha]
      have hsub : g.gbuf_end - (g.gbuf + 1) = d := by omega
      simp only [GIn.abs, GIn.pending, hsub]

end Lzpgt7.Buffered
namespace Lzpgt7.Buffered

open Lzpgt

theorem copy_bits_sim (gBUFSIZE : Nat) (hpos : 0 < gBUFSIZE) (n : Nat) :
    ∀ (g : GIn), g.ok gBUFSIZE → ∀ (gb : List Nat) (a : GetBuf),
    Lzpgt7.copy_bits n g.abs = some (gb, a) →
    ∃ g1, copy_bits gBUFSIZE n g = some (gb, g1) ∧ g1.ok gBUFSIZE ∧ g1.abs = a := by
  induction n with
  | zero =>
    intro g hok gb a h
    simp only [Lzpgt7.copy_bits, Option.some.injEq, Prod.mk.injEq] at h
    exact ⟨g, by simp only [copy_bits, h.1], hok, h.2⟩
  | succ n ih =>
    intro g hok gb a h
    unfold Lzpgt7.copy_bits at h
    cases h1 : Lzpgt7.next_byte g.abs with
    | none => rw [h1] at h; exact absurd h (by simp)
    | some r =>
      obtain ⟨x, a1⟩ := r
      rw [h1] at h
      simp only at h
      obtain ⟨g1, e1, ok1, ab1⟩ := next_byte_sim gBUFSIZE hpos g hok x a1 h1
      cases h2 : Lzpgt7.copy_bits n a1 with
      | none => rw [h2] at h; exact absurd h (by simp)
      | some q =>
        obtain ⟨gb2, a2⟩ := q
        rw [h2] at h
        simp only [Option.some.injEq, Prod.mk.injEq] at h
        rw [← ab1] at h2
        obtain ⟨g2, e2, ok2, ab2⟩ := ih g1 ok1 gb2 a2 h2
        refine ⟨g2, ?_, ok2, by rw [ab2, h.2]⟩
        unfold copy_bits
        rw [e1]
        simp only
        rw [e2, ← h.1]

theorem mask_byte_sim (gBUFSIZE WBITS : Nat) (hpos : 0 < gBUFSIZE) (gbstart : List Nat)
    (s : DecState) (hok : s.get.ok gBUFSIZE) (gbs1 : List Nat) (t : Lzpgt.DecState)
    (h : Lzpgt7.mask_byte WBITS gbstart s.abs = some (gbs1, t)) :
    ∃ s1, mask_byte gBUFSIZE WBITS gbstart s = some (gbs1, s1) ∧ s1.get.ok gBUFSIZE ∧
      s1.abs = t := by
  unfold Lzpgt7.mask_byte at h
  unfold mask_byte
  simp only [DecState.abs, GIn.abs] at h
  by_cases ht : gbstart.headD 0 &&& (1 <<< s.get.g_cnt) ≠ 0
  · simp only [if_pos ht] at h ⊢
    by_cases h8 : s.get.g_cnt + 1 = 8
    · simp only [if_pos h8, Option.some.injEq, Prod.mk.injEq] at h ⊢
      exact ⟨_, ⟨h.1, rfl⟩, hok, h.2⟩
    · simp only [if_neg h8, Option.some.injEq, Prod.mk.injEq] at h ⊢
      exact ⟨_, ⟨h.1, rfl⟩, hok, h.2⟩
  · simp only [if_neg ht] at h ⊢
    have hok0 : GIn.ok gBUFSIZE { s.get with g_cnt := s.get.g_cnt + 1 } := hok
    cases h1 : Lzpgt7.next_byte ⟨s.get.pending, s.get.g_cnt + 1⟩ with
    | none => rw [h1] at h; exact absurd h (by simp)
    | some r =>
      obtain ⟨x, a1⟩ := r
      rw [h1] at h
      have h1' : Lzpgt7.next_byte (GIn.abs { s.get with g_cnt := s.get.g_cnt + 1 })
          = some (x, a1) := h1
      obtain ⟨g1, e1, ok1, ab1⟩ := next_byte_sim gBUFSIZE hpos _ hok0 x a1 h1'
      rw [e1]
      have hcnt : a1.g_cnt = g1.g_cnt := by rw [← ab1]; rfl
      have hgb : a1.gbuf = g1.pending := by rw [← ab1]; rfl
      by_cases h8 : g1.g_cnt = 8
      · have h8' : a1.g_cnt = 8 := by rw [hcnt]; exact h8
        simp only [if_pos h8, if_pos h8', Option.some.injEq, Prod.mk.injEq] at h ⊢
        refine ⟨_, ⟨h.1, rfl⟩, ok1, ?_⟩
        rw [← h.2]
        simp only [DecState.abs, GIn.abs, GIn.pending, hgb]
      · have h8' : ¬ a1.g_cnt = 8 := by rw [hcnt]; exact h8
        simp only [if_neg h8, if_neg h8', Option.some.injEq, Prod.mk.injEq] at h ⊢
        refine ⟨_, ⟨h.1, rfl⟩, ok1, ?_⟩
        rw [← h.2]
        simp only [DecState.abs, ab1]

end Lzpgt7.Buffered
namespace Lzpgt7.Buffered

open Lzpgt

theorem mask_bytes_sim (gBUFSIZE WBITS : Nat) (hpos : 0 < gBUFSIZE) (n : Nat) :
    ∀ (gbstart : List Nat) (s : DecState), s.get.ok gBUFSIZE → ∀ (t : Lzpgt.DecState),
    Lzpgt7.mask_bytes WBITS n gbstart s.abs = some t →
    ∃ s1, mask_bytes gBUFSIZE WBITS n gbstart s = some s1 ∧ s1.get.ok gBUFSIZE ∧ s1.abs = t := by
  induction n with
  | zero =>
    intro gbstart s hok t h
    simp only [Lzpgt7.mask_bytes, Option.some.injEq] at h
    exact ⟨s, rfl, hok, h⟩
  | succ n ih =>
    intro gbstart s hok t h
    unfold Lzpgt7.mask_bytes at h
    cases h1 : Lzpgt7.mask_byte WBITS gbstart s.abs with
    | none => rw [h1] at h; exact absurd h (by simp)
    | some r =>
      obtain ⟨gbs1, t1⟩ := r
      rw [h1] at h
      simp only at h
      obtain ⟨s1, e1, ok1, ab1⟩ := mask_byte_sim gBUFSIZE WBITS hpos gbstart s hok gbs1 t1 h1
      rw [← ab1] at h
      obtain ⟨s2, e2, ok2, ab2⟩ := ih gbs1 s1 ok1 t h
      refine ⟨s2, ?_, ok2, ab2⟩
      unfold mask_bytes
      rw [e1]
      exact e2

theorem decode_block_sim (gBUFSIZE BB WBITS : Nat) (hpos : 0 < gBUFSIZE) (s : DecState)
    (hok : s.get.ok gBUFSIZE) (t : Lzpgt.DecState)
    (h : Lzpgt7.decode_block BB WBITS s.abs = some t) :
    ∃ s1, decode_block gBUFSIZE BB WBITS s = some s1 ∧ s1.get.ok gBUFSIZE ∧ s1.abs = t := by
  unfold Lzpgt7.decode_block at h
  cases h1 : Lzpgt7.copy_bits (PPP_BLOCKSIZE BB / 8) s.abs.get with
  | none => rw [h1] at h; exact absurd h (by simp)
  | some r =>
    obtain ⟨gb, a1⟩ := r
    rw [h1] at h
    simp only at h
    obtain ⟨g1, e1, ok1, ab1⟩ := copy_bits_sim gBUFSIZE hpos _ s.get hok gb a1 h1
    have hs : ({ s.abs with get := a1 } : Lzpgt.DecState)
        = DecState.abs { s with get := g1 } := by
      simp only [DecState.abs, ab1]
    rw [hs] at h
    obtain ⟨s2, e2, ok2, ab2⟩ := mask_bytes_sim gBUFSIZE WBITS hpos _ gb
      { s with get := g1 } ok1 t h
    refine ⟨s2, ?_, ok2, ab2⟩
    unfold decode_block
    rw [e1]
    exact e2

theorem decode_blocks_sim (gBUFSIZE BB WBITS : Nat) (hpos : 0 < gBUFSIZE) (n : Nat) :
    ∀ (s : DecState), s.get.ok gBUFSIZE → ∀ (t : Lzpgt.DecState),
    Lzpgt7.decode_blocks BB WBITS n s.abs = some t →
    ∃ s1, decode_blocks gBUFSIZE BB WBITS n s = some s1 ∧ s1.get.ok gBUFSIZE ∧ s1.abs = t := by
  induction n with
  | zero =>
    intro s hok t h
    simp only [Lzpgt7.decode_blocks, Option.some.injEq] at h
    exact ⟨s, rfl, hok, h⟩
  | succ n ih =>
    intro s hok t h
    unfold Lzpgt7.decode_blocks at h
    cases h1 : Lzpgt7.decode_block BB WBITS s.abs with
    | none => rw [h1] at h; exact absurd h (by simp)
    | some t1 =>
      rw [h1] at h
      simp only at h
      obtain ⟨s1, e1, ok1, ab1⟩ := decode_block_sim gBUFSIZE BB WBITS hpos s hok t1 h1
      rw [← ab1] at h
      obtain ⟨s2, e2, ok2, ab2⟩ := ih s1 ok1 t h
      refine ⟨s2, ?_, ok2, ab2⟩
      unfold decode_blocks
      rw [e1]
      exact e2

theorem gfgetc_sim (gBUFSIZE : Nat) (hpos : 0 < gBUFSIZE) (g : GIn) (hok : g.ok gBUFSIZE)
    (x : Nat) (a : GetBuf) (h : Lzpgt.gfgetc g.abs = some (x, a)) :
    ∃ g1, gfgetc gBUFSIZE g = some (x, g1) ∧ g1.ok gBUFSIZE ∧ g1.abs = a := by
  have hn : Lzpgt7.next_byte g.abs = some (x, a) := h
  have hne : g.gbuf ≠ g.gbuf_end := by
    intro he
    rcases hok.2 with hc | ⟨_, hc2⟩
    · omega
    · simp [Lzpgt.gfgetc, GIn.abs, GIn.pending, he, hc2] at h
  unfold gfgetc
  rw [if_neg hne]
  exact next_byte_sim gBUFSIZE hpos g hok x a hn

theorem decode_last_sim (gBUFSIZE WBITS : Nat) (hpos : 0 < gBUFSIZE) (L : Int) (s : DecState)
    (hok : s.get.ok gBUFSIZE) (t : Lzpgt.DecState)
    (h : Lzpgt7.decode_last WBITS L s.abs = some t) :
    ∃ s1, decode_last gBUFSIZE WBITS L s = some s1 ∧ s1.get.ok gBUFSIZE ∧ s1.abs = t := by
  unfold Lzpgt7.decode_last at h
  unfold decode_last
  by_cases hL : 0 < L
  · rw [if_pos hL] at h ⊢
    cases h1 : Lzpgt7.copy_bits (L.toNat / 8) s.abs.get with
    | none => rw [h1] at h; exact absurd h (by simp)
    | some r =>
      obtain ⟨gb, a1⟩ := r
      rw [h1] at h
      simp only at h
      obtain ⟨g1, e1, ok1, ab1⟩ := copy_bits_sim gBUFSIZE hpos _ s.get hok gb a1 h1
      rw [e1]
      simp only
      by_cases hm : L.toNat % 8 ≠ 0
      · rw [if_pos hm] at h ⊢
        cases h2 : Lzpgt.gfgetc a1 with
        | none => rw [h2] at h; exact absurd h (by simp)
        | some q =>
          obtain ⟨x, a2⟩ := q
          rw [h2] at h
          simp only at h
          rw [← ab1] at h2
          obtain ⟨g2, e2, ok2, ab2⟩ := gfgetc_sim gBUFSIZE hpos g1 ok1 x a2 h2
          rw [e2]
          simp only
          have hs : ({ s.abs with get := a2 } : Lzpgt.DecState)
              = DecState.abs { s with get := g2 } := by
            simp only [DecState.abs, ab2]
          rw [hs] at h
          exact mask_bytes_sim gBUFSIZE WBITS hpos _ _ { s with get := g2 } ok2 t h
      · rw [if_neg hm] at h ⊢
        simp only at h ⊢
        have hs : ({ s.abs with get := a1 } : Lzpgt.DecState)
            = DecState.abs { s with get := g1 } := by
          simp only [DecState.abs, ab1]
        rw [hs] at h
        exact mask_bytes_sim gBUFSIZE WBITS hpos _ _ { s with get := g1 } ok1 t h
  · rw [if_neg hL] at h ⊢
    injection h with h
    exact ⟨s, rfl, hok, h⟩

/-- When the bulk decoder on the byte sequence of a payload returns, so does
the bulk decoder on its input buffer filled from that payload, whatever the
size of the buffer and its content before, and in the state that stands for
the same decoder state: every read through the buffer took the next byte of
the payload. -/
theorem decompress_sim (gBUFSIZE BB WBITS : Nat) (hpos : 0 < gBUFSIZE) (nb L : Int)
    (w : Nat → Nat) (mem : Nat → Nat) (payload : List Nat) (put : PutBuf) (t : Lzpgt.DecState)
    (h : Lzpgt7.decompress_LZP BB WBITS nb L w (Lzpgt.init_get_buffer payload) put = some t) :
    ∃ s1, decompress_LZP gBUFSIZE BB WBITS nb L w (init_get_buffer gBUFSIZE mem payload) put
        = some s1 ∧ s1.get.ok gBUFSIZE ∧ s1.abs = t := by
  have hok := init_get_buffer_ok gBUFSIZE hpos mem payload
  have hab := init_get_buffer_abs gBUFSIZE mem payload
  have h0 : (⟨w, 0, 0, Lzpgt.init_get_buffer payload, put⟩ : Lzpgt.DecState)
      = DecState.abs ⟨w, 0, 0, init_get_buffer gBUFSIZE mem payload, put⟩ := by
    simp only [DecState.abs, hab]
  unfold Lzpgt7.decompress_LZP at h
  simp only at h
  rw [h0] at h
  unfold decompress_LZP
  simp only
  by_cases hn : 0 < nb
  · rw [if_pos hn] at h ⊢
    cases h1 : Lzpgt7.decode_blocks BB WBITS nb.toNat
        (DecState.abs ⟨w, 0, 0, init_get_buffer gBUFSIZE mem payload, put⟩) with
    | none => rw [h1] at h; exact absurd h (by simp)
    | some t1 =>
      rw [h1] at h
      simp only at h
      obtain ⟨s1, e1, ok1, ab1⟩ := decode_blocks_sim gBUFSIZE BB WBITS hpos _ _ hok t1 h1
      rw [e1]
      simp only
      rw [← ab1] at h
      exact decode_last_sim gBUFSIZE WBITS hpos L s1 ok1 t h
  · rw [if_neg hn] at h ⊢
    simp only at h ⊢
    exact decode_last_sim gBUFSIZE WBITS hpos L _ hok t h

end Lzpgt7.Buffered

/-! ## The claims -/

open Lzpgt

/-- C1. Round trip, scalar variant (`lzpgt2.c`; `lzpgt.c` is the instance
`WBITS = 20`): for every block size `2 ^ BB` with `BB ≥ 3`, every table width
`15 ≤ WBITS ≤ 30` and every input byte sequence `X`, `decompress_LZP` run on
the header counters and the payload that `compress_LZP` produces for `X`,
both from an all-zero table and context 0, outputs exactly `X`. -/
theorem C1_roundtrip_scalar (BB WBITS : Nat) (hBB : 3 ≤ BB) (_hW : 15 ≤ WBITS ∧ WBITS ≤ 30)
    (X : List Nat) (_hX : ∀ x ∈ X, x < 256) :
    (Lzpgt2.decompress_LZP BB WBITS
        (Lzpgt2.compress_LZP BB WBITS zero_table init_put_buffer X).ppp_nblocks
        (Lzpgt2.compress_LZP BB WBITS zero_table init_put_buffer X).ppp_lastblocksize
        zero_table
        (init_get_buffer (Lzpgt2.payload BB WBITS X))
        init_put_buffer).map (fun s => flush_put_buffer s.put) = some X := by
  simp only [Lzpgt2.payload]
  obtain ⟨c1, hc1⟩ := Lzpgt2.decompress_compress BB WBITS hBB X zero_table [] init_put_buffer
  rw [List.append_nil] at hc1
  rw [Lzpgt2.flush_compress BB WBITS hBB]
  unfold init_get_buffer
  rw [hc1]
  simp [init_put_buffer, flush_put_buffer]

/-- Witness of C1 at `PPP_BLOCKBITS = 15`, `WBITS = 20` and the input "AAAA". -/
theorem C1_roundtrip_scalar_witness :
    (3 ≤ 15) ∧
    (15 ≤ 20 ∧ 20 ≤ 30) ∧
    (∀ x ∈ [0x41, 0x41, 0x41, 0x41], x < 256) ∧
    ((Lzpgt2.decompress_LZP 15 20
        (Lzpgt2.compress_LZP 15 20 zero_table init_put_buffer [0x41, 0x41, 0x41, 0x41]).ppp_nblocks
        (Lzpgt2.compress_LZP 15 20 zero_table init_put_buffer [0x41, 0x41, 0x41, 0x41]).ppp_lastblocksize
        zero_table
        (init_get_buffer (Lzpgt2.payload 15 20 [0x41, 0x41, 0x41, 0x41]))
        init_put_buffer).map (fun s => flush_put_buffer s.put) = some [0x41, 0x41, 0x41, 0x41]) :=
  ⟨by decide, by decide, by decide,
    C1_roundtrip_scalar 15 20 (by decide) (by decide) [0x41, 0x41, 0x41, 0x41] (by decide)⟩

/-- C2. Round trip, bulk variant (`lzpgt7.c`; `lzpgt6.c` is the instance
`WBITS = 21`): for every block size `2 ^ BB` with `BB ≥ 3`, every table width
`15 ≤ WBITS ≤ 30` and every input byte sequence `X`, the decoder that copies
a block's bit-vector bytes into `gb` and then tests the bits with
`1 << g_cnt`, run on the header counters and the payload that the
`compress_LZP` of the same file produces for `X`, outputs exactly `X`. -/
theorem C2_roundtrip_bulk (BB WBITS : Nat) (hBB : 3 ≤ BB) (_hW : 15 ≤ WBITS ∧ WBITS ≤ 30)
    (X : List Nat) (_hX : ∀ x ∈ X, x < 256) :
    (Lzpgt7.decompress_LZP BB WBITS
        (Lzpgt7.compress_LZP BB WBITS zero_table init_put_buffer X).ppp_nblocks
        (Lzpgt7.compress_LZP BB WBITS zero_table init_put_buffer X).ppp_lastblocksize
        zero_table
        (init_get_buffer (Lzpgt7.payload BB WBITS X))
        init_put_buffer).map (fun s => flush_put_buffer s.put) = some X := by
  simp only [Lzpgt7.payload]
  obtain ⟨e1, e2, e3, _, _⟩ := Lzpgt7.compress_agree BB WBITS hBB zero_table X
  obtain ⟨c1, hc1⟩ := Lzpgt2.decompress_compress BB WBITS hBB X zero_table [] init_put_buffer
  rw [List.append_nil] at hc1
  have hv := Lzpgt7.decompress_agree BB WBITS hBB
    (Lzpgt2.compress_LZP BB WBITS zero_table init_put_buffer X).ppp_nblocks
    (Lzpgt2.compress_LZP BB WBITS zero_table init_put_buffer X).ppp_lastblocksize zero_table
    (Lzpgt2.compress_LZP BB WBITS zero_table init_put_buffer X).put.out init_put_buffer
  rw [hc1] at hv
  have ho := congrArg (Option.map (fun v => flush_put_buffer v.2.2.2.2)) hv
  simp only [Option.map_map, Option.map_some'] at ho
  rw [Lzpgt7.flush_compress7 BB WBITS hBB]
  unfold init_get_buffer
  rw [e1, e2, e3]
  exact ho

/-- Witness of C2 at `PPP_BLOCKBITS = 20`, `WBITS = 21` and the input "AAAA". -/
theorem C2_roundtrip_bulk_witness :
    (3 ≤ 20) ∧
    (15 ≤ 21 ∧ 21 ≤ 30) ∧
    (∀ x ∈ [0x41, 0x41, 0x41, 0x41], x < 256) ∧
    ((Lzpgt7.decompress_LZP 20 21
        (Lzpgt7.compress_LZP 20 21 zero_table init_put_buffer [0x41, 0x41, 0x41, 0x41]).ppp_nblocks
        (Lzpgt7.compress_LZP 20 21 zero_table init_put_buffer [0x41, 0x41, 0x41, 0x41]).ppp_lastblocksize
        zero_table
        (init_get_buffer (Lzpgt7.payload 20 21 [0x41, 0x41, 0x41, 0x41]))
        init_put_buffer).map (fun s => flush_put_buffer s.put) = some [0x41, 0x41, 0x41, 0x41]) :=
  ⟨by decide, by decide, by decide,
    C2_roundtrip_bulk 20 21 (by decide) (by decide) [0x41, 0x41, 0x41, 0x41] (by decide)⟩

/-- C3. Header consistency: for every input `X` of length `n` and block size
`B = 2 ^ BB`, after `compress_LZP` the counters are `ppp_nblocks = n / B`
and `ppp_lastblocksize = n % B`; hence `ppp_nblocks ≥ 0`,
`0 ≤ ppp_lastblocksize < B` and `n = ppp_nblocks * B + ppp_lastblocksize`. -/
theorem C3_header_consistency (BB WBITS : Nat) (w : Nat → Nat) (put : PutBuf) (X : List Nat) :
    (Lzpgt2.compress_LZP BB WBITS w put X).ppp_nblocks = ((X.length / 2 ^ BB : Nat) : Int) ∧
    (Lzpgt2.compress_LZP BB WBITS w put X).ppp_lastblocksize
      = ((X.length % 2 ^ BB : Nat) : Int) ∧
    0 ≤ (Lzpgt2.compress_LZP BB WBITS w put X).ppp_nblocks ∧
    0 ≤ (Lzpgt2.compress_LZP BB WBITS w put X).ppp_lastblocksize ∧
    (Lzpgt2.compress_LZP BB WBITS w put X).ppp_lastblocksize < 2 ^ BB ∧
    (X.length : Int) = (Lzpgt2.compress_LZP BB WBITS w put X).ppp_nblocks * 2 ^ BB
      + (Lzpgt2.compress_LZP BB WBITS w put X).ppp_lastblocksize := by
  obtain ⟨h1, h2⟩ := Lzpgt2.compress_loop_counters BB WBITS X.length X
    ⟨w, 0, [], put, 0, 0⟩ (le_refl _)
  have hnb : (Lzpgt2.compress_LZP BB WBITS w put X).ppp_nblocks
      = ((X.length / 2 ^ BB : Nat) : Int) := by
    unfold Lzpgt2.compress_LZP
    rw [h1, blocksize_eq]; simp
  have hlb : (Lzpgt2.compress_LZP BB WBITS w put X).ppp_lastblocksize
      = ((X.length % 2 ^ BB : Nat) : Int) := by
    unfold Lzpgt2.compress_LZP
    rw [h2, blocksize_eq]
    split
    · next h => rw [h]; rfl
    · rfl
  have hpos : 0 < 2 ^ BB := Nat.pos_pow_of_pos _ (by decide)
  have hlt : X.length % 2 ^ BB < 2 ^ BB := Nat.mod_lt _ hpos
  refine ⟨hnb, hlb, ?_, ?_, ?_, ?_⟩
  · rw [hnb]; exact Int.ofNat_nonneg _
  · rw [hlb]; exact Int.ofNat_nonneg _
  · rw [hlb]; exact_mod_cast hlt
  · rw [hnb, hlb]
    have := Nat.div_add_mod X.length (2 ^ BB)
    have h2 : (X.length : Int) = ((2 ^ BB * (X.length / 2 ^ BB) + X.length % 2 ^ BB : Nat) : Int) := by
      rw [this]
    rw [h2]; push_cast; ring

/-- C4. Block content: for every input `X` and every block `k` of it, (0)
the run of `compress_LZP` on `X` is in the state `block_start` when it reads
block `k`, and goes on from there; with `off` the number of payload bytes
written by then, (1) the payload up to `off` is what that state has written;
(2) bit `i` of the bit section at `off` is 1 if and only if byte `i` of the
block equals the table entry `w[prev]` of the encoder state just before that
byte; (3) the bytes after the bit section are exactly the bytes of the block
whose bit is 0, in input order; (4) their count is the number of 0 bits
among the first `nread` bits. -/
theorem C4_block_content (BB WBITS : Nat) (hBB : 3 ≤ BB) (X : List Nat) (k : Nat)
    (hk : k * PPP_BLOCKSIZE BB < X.length) :
    (Lzpgt2.compress_LZP BB WBITS zero_table init_put_buffer X
      = Lzpgt2.compress_loop BB WBITS (X.drop (k * PPP_BLOCKSIZE BB)).length
          (Lzpgt2.block_start BB WBITS X k) (X.drop (k * PPP_BLOCKSIZE BB))) ∧
    ((Lzpgt2.payload BB WBITS X).take
        (Lzpgt2.block_start BB WBITS X k).put.out.length
      = (Lzpgt2.block_start BB WBITS X k).put.out) ∧
    (∀ i, i < (block BB X k).length →
      (payload_bit (Lzpgt2.payload BB WBITS X)
          (Lzpgt2.block_start BB WBITS X k).put.out.length i = true ↔
        (encode_bytes WBITS (Lzpgt2.block_start BB WBITS X k) ((block BB X k).take i)).w
            (encode_bytes WBITS (Lzpgt2.block_start BB WBITS X k) ((block BB X k).take i)).prev
          = (block BB X k).getD i 0)) ∧
    (((Lzpgt2.payload BB WBITS X).drop
          ((Lzpgt2.block_start BB WBITS X k).put.out.length + ((block BB X k).length + 7) / 8)).take
        ((read_bits (Lzpgt2.payload BB WBITS X)
          (Lzpgt2.block_start BB WBITS X k).put.out.length (block BB X k).length).count false)
      = (((block BB X k).zip
          (read_bits (Lzpgt2.payload BB WBITS X)
            (Lzpgt2.block_start BB WBITS X k).put.out.length (block BB X k).length)).filter
          (fun x => !x.2)).map (fun x => x.1)) ∧
    (List.length ((((block BB X k).zip
          (read_bits (Lzpgt2.payload BB WBITS X)
            (Lzpgt2.block_start BB WBITS X k).put.out.length (block BB X k).length)).filter
          (fun x => !x.2)).map (fun x => x.1))
      = (read_bits (Lzpgt2.payload BB WBITS X)
          (Lzpgt2.block_start BB WBITS X k).put.out.length (block BB X k).length).count false) := by
  simp only [Lzpgt2.payload]
  rw [Lzpgt2.flush_compress BB WBITS hBB zero_table X]
  obtain ⟨rest, hlay, _⟩ := Lzpgt2.block_layout BB WBITS hBB zero_table X k hk
  have hl : (hits WBITS (Lzpgt2.block_start BB WBITS X k).w (Lzpgt2.block_start BB WBITS X k).prev
      (block BB X k)).length = (block BB X k).length := hits_length _ _ _ _
  have hlay' : (Lzpgt2.compress_LZP BB WBITS zero_table init_put_buffer X).put.out
      = (Lzpgt2.block_start BB WBITS X k).put.out ++
        (pack_bits (((hits WBITS (Lzpgt2.block_start BB WBITS X k).w
              (Lzpgt2.block_start BB WBITS X k).prev (block BB X k)).length + 7) / 8)
            (hits WBITS (Lzpgt2.block_start BB WBITS X k).w
              (Lzpgt2.block_start BB WBITS X k).prev (block BB X k)) ++
          (misses WBITS (Lzpgt2.block_start BB WBITS X k).w
              (Lzpgt2.block_start BB WBITS X k).prev (block BB X k) ++ rest)) := by
    rw [hl]; exact hlay
  have hrb := read_bits_layout (Lzpgt2.block_start BB WBITS X k).put.out
    (hits WBITS (Lzpgt2.block_start BB WBITS X k).w (Lzpgt2.block_start BB WBITS X k).prev
      (block BB X k))
    (misses WBITS (Lzpgt2.block_start BB WBITS X k).w (Lzpgt2.block_start BB WBITS X k).prev
      (block BB X k) ++ rest)
  rw [← hlay', hl] at hrb
  rw [hrb]
  refine ⟨Lzpgt2.compress_from_block BB WBITS X k (le_of_lt hk), ?_, ?_, ?_, ?_⟩
  · rw [hlay']; simp
  · intro i hi
    have hpb := payload_bit_layout (Lzpgt2.block_start BB WBITS X k).put.out
      (hits WBITS (Lzpgt2.block_start BB WBITS X k).w (Lzpgt2.block_start BB WBITS X k).prev
        (block BB X k))
      (misses WBITS (Lzpgt2.block_start BB WBITS X k).w (Lzpgt2.block_start BB WBITS X k).prev
        (block BB X k) ++ rest) i (by rw [hl]; exact hi)
    rw [← hlay'] at hpb
    rw [hpb, hits_getD _ _ _ _ _ hi, encode_bytes_eq]
    simp
  · rw [← misses_eq_filter, ← misses_length]
    have hdrop : (Lzpgt2.compress_LZP BB WBITS zero_table init_put_buffer X).put.out.drop
        ((Lzpgt2.block_start BB WBITS X k).put.out.length + ((block BB X k).length + 7) / 8)
        = misses WBITS (Lzpgt2.block_start BB WBITS X k).w
            (Lzpgt2.block_start BB WBITS X k).prev (block BB X k) ++ rest := by
      rw [hlay', hl, ← List.append_assoc]
      have hlen : ((Lzpgt2.block_start BB WBITS X k).put.out ++
          pack_bits (((block BB X k).length + 7) / 8)
            (hits WBITS (Lzpgt2.block_start BB WBITS X k).w
              (Lzpgt2.block_start BB WBITS X k).prev (block BB X k))).length
          = (Lzpgt2.block_start BB WBITS X k).put.out.length + ((block BB X k).length + 7) / 8 := by
        rw [List.length_append, pack_bits_length]
      rw [← hlen, List.drop_left]
    rw [hdrop, List.take_left]
  · rw [← misses_eq_filter, ← misses_length]

/-- Witness of C4 at `PPP_BLOCKBITS = 15`, `WBITS = 20`, the input `00 41 41` and its block 0. -/
theorem C4_block_content_witness :
    (3 ≤ 15) ∧
    (0 * PPP_BLOCKSIZE 15 < [0x00, 0x41, 0x41].length) ∧
    ((Lzpgt2.compress_LZP 15 20 zero_table init_put_buffer [0x00, 0x41, 0x41]
      = Lzpgt2.compress_loop 15 20 ([0x00, 0x41, 0x41].drop (0 * PPP_BLOCKSIZE 15)).length
          (Lzpgt2.block_start 15 20 [0x00, 0x41, 0x41] 0) ([0x00, 0x41, 0x41].drop (0 * PPP_BLOCKSIZE 15))) ∧
    ((Lzpgt2.payload 15 20 [0x00, 0x41, 0x41]).take
        (Lzpgt2.block_start 15 20 [0x00, 0x41, 0x41] 0).put.out.length
      = (Lzpgt2.block_start 15 20 [0x00, 0x41, 0x41] 0).put.out) ∧
    (∀ i, i < (block 15 [0x00, 0x41, 0x41] 0).length →
      (payload_bit (Lzpgt2.payload 15 20 [0x00, 0x41, 0x41])
          (Lzpgt2.block_start 15 20 [0x00, 0x41, 0x41] 0).put.out.length i = true ↔
        (encode_bytes 20 (Lzpgt2.block_start 15 20 [0x00, 0x41, 0x41] 0) ((block 15 [0x00, 0x41, 0x41] 0).take i)).w
            (encode_bytes 20 (Lzpgt2.block_start 15 20 [0x00, 0x41, 0x41] 0) ((block 15 [0x00, 0x41, 0x41] 0).take i)).prev
          = (block 15 [0x00, 0x41, 0x41] 0).getD i 0)) ∧
    (((Lzpgt2.payload 15 20 [0x00, 0x41, 0x41]).drop
          ((Lzpgt2.block_start 15 20 [0x00, 0x41, 0x41] 0).put.out.length + ((block 15 [0x00, 0x41, 0x41] 0).length + 7) / 8)).take
        ((read_bits (Lzpgt2.payload 15 20 [0x00, 0x41, 0x41])
          (Lzpgt2.block_start 15 20 [0x00, 0x41, 0x41] 0).put.out.length (block 15 [0x00, 0x41, 0x41] 0).length).count false)
      = (((block 15 [0x00, 0x41, 0x41] 0).zip
          (read_bits (Lzpgt2.payload 15 20 [0x00, 0x41, 0x41])
            (Lzpgt2.block_start 15 20 [0x00, 0x41, 0x41] 0).put.out.length (block 15 [0x00, 0x41, 0x41] 0).length)).filter
          (fun x => !x.2)).map (fun x => x.1)) ∧
    (List.length ((((block 15 [0x00, 0x41, 0x41] 0).zip
          (read_bits (Lzpgt2.payload 15 20 [0x00, 0x41, 0x41])
            (Lzpgt2.block_start 15 20 [0x00, 0x41, 0x41] 0).put.out.length (block 15 [0x00, 0x41, 0x41] 0).length)).filter
          (fun x => !x.2)).map (fun x => x.1))
      = (read_bits (Lzpgt2.payload 15 20 [0x00, 0x41, 0x41])
          (Lzpgt2.block_start 15 20 [0x00, 0x41, 0x41] 0).put.out.length (block 15 [0x00, 0x41, 0x41] 0).length).count false)) :=
  ⟨by decide, by decide,
    C4_block_content 15 20 (by decide) [0x00, 0x41, 0x41] 0 (by decide)⟩

/-- C5. Short-block boundary: for every input whose length is not a multiple
of the block size, with `L = ppp_lastblocksize`, (0) the run of
`compress_LZP` is in the state `block_start` when it reads the trailing
block, and goes on from there; with `off` the number of payload bytes
written by then, for the full blocks, (1) the payload up to `off` is what
that state has written, so that the bit section of the trailing block starts
at `off`; (2) the
payload from `off + ceil(L / 8)` to its end is exactly the bytes of the
trailing block whose bit is 0, in input order; (3) the payload has at least
`off + ceil(L / 8)` bytes; (4) the test `p_cnt > 0 && p_cnt < 8` that guards
the forced advance succeeds exactly when `L mod 8 ≠ 0`. -/
theorem C5_short_block_boundary (BB WBITS : Nat) (hBB : 3 ≤ BB) (X : List Nat)
    (hL : X.length % PPP_BLOCKSIZE BB ≠ 0) :
    (Lzpgt2.compress_LZP BB WBITS zero_table init_put_buffer X
      = Lzpgt2.compress_loop BB WBITS
          (X.drop (X.length / PPP_BLOCKSIZE BB * PPP_BLOCKSIZE BB)).length
          (Lzpgt2.block_start BB WBITS X (X.length / PPP_BLOCKSIZE BB))
          (X.drop (X.length / PPP_BLOCKSIZE BB * PPP_BLOCKSIZE BB))) ∧
    ((Lzpgt2.payload BB WBITS X).take
        (Lzpgt2.block_start BB WBITS X (X.length / PPP_BLOCKSIZE BB)).put.out.length
      = (Lzpgt2.block_start BB WBITS X (X.length / PPP_BLOCKSIZE BB)).put.out) ∧
    ((Lzpgt2.payload BB WBITS X).drop
        ((Lzpgt2.block_start BB WBITS X (X.length / PPP_BLOCKSIZE BB)).put.out.length
          + ((Lzpgt2.compress_LZP BB WBITS zero_table init_put_buffer X).ppp_lastblocksize.toNat
              + 7) / 8)
      = (((block BB X (X.length / PPP_BLOCKSIZE BB)).zip
          (read_bits (Lzpgt2.payload BB WBITS X)
            (Lzpgt2.block_start BB WBITS X (X.length / PPP_BLOCKSIZE BB)).put.out.length
            (Lzpgt2.compress_LZP BB WBITS zero_table init_put_buffer X).ppp_lastblocksize.toNat)).filter
          (fun x => !x.2)).map (fun x => x.1)) ∧
    ((Lzpgt2.block_start BB WBITS X (X.length / PPP_BLOCKSIZE BB)).put.out.length
        + ((Lzpgt2.compress_LZP BB WBITS zero_table init_put_buffer X).ppp_lastblocksize.toNat
            + 7) / 8
      ≤ (Lzpgt2.payload BB WBITS X).length) ∧
    ((0 < (encode_bytes WBITS (Lzpgt2.block_start BB WBITS X (X.length / PPP_BLOCKSIZE BB))
            (block BB X (X.length / PPP_BLOCKSIZE BB))).put.p_cnt ∧
        (encode_bytes WBITS (Lzpgt2.block_start BB WBITS X (X.length / PPP_BLOCKSIZE BB))
            (block BB X (X.length / PPP_BLOCKSIZE BB))).put.p_cnt < 8) ↔
      (Lzpgt2.compress_LZP BB WBITS zero_table init_put_buffer X).ppp_lastblocksize.toNat % 8
        ≠ 0) := by
  simp only [Lzpgt2.payload]
  rw [Lzpgt2.flush_compress BB WBITS hBB zero_table X]
  have hlay := Lzpgt2.trailing_layout BB WBITS hBB zero_table X hL
  have htl := Lzpgt2.trailing_block BB X
  have hl : (hits WBITS (Lzpgt2.block_start BB WBITS X (X.length / PPP_BLOCKSIZE BB)).w
      (Lzpgt2.block_start BB WBITS X (X.length / PPP_BLOCKSIZE BB)).prev
      (block BB X (X.length / PPP_BLOCKSIZE BB))).length = X.length % PPP_BLOCKSIZE BB := by
    rw [hits_length, htl]
  rw [Lzpgt2.lastblocksize_eq]
  have hlay' : (Lzpgt2.compress_LZP BB WBITS zero_table init_put_buffer X).put.out
      = (Lzpgt2.block_start BB WBITS X (X.length / PPP_BLOCKSIZE BB)).put.out ++
        (pack_bits (((hits WBITS (Lzpgt2.block_start BB WBITS X (X.length / PPP_BLOCKSIZE BB)).w
              (Lzpgt2.block_start BB WBITS X (X.length / PPP_BLOCKSIZE BB)).prev
              (block BB X (X.length / PPP_BLOCKSIZE BB))).length + 7) / 8)
            (hits WBITS (Lzpgt2.block_start BB WBITS X (X.length / PPP_BLOCKSIZE BB)).w
              (Lzpgt2.block_start BB WBITS X (X.length / PPP_BLOCKSIZE BB)).prev
              (block BB X (X.length / PPP_BLOCKSIZE BB))) ++
          (misses WBITS (Lzpgt2.block_start BB WBITS X (X.length / PPP_BLOCKSIZE BB)).w
              (Lzpgt2.block_start BB WBITS X (X.length / PPP_BLOCKSIZE BB)).prev
              (block BB X (X.length / PPP_BLOCKSIZE BB)) ++ [])) := by
    rw [hl]; exact hlay
  have hrb := read_bits_layout (Lzpgt2.block_start BB WBITS X (X.length / PPP_BLOCKSIZE BB)).put.out
    (hits WBITS (Lzpgt2.block_start BB WBITS X (X.length / PPP_BLOCKSIZE BB)).w
      (Lzpgt2.block_start BB WBITS X (X.length / PPP_BLOCKSIZE BB)).prev
      (block BB X (X.length / PPP_BLOCKSIZE BB)))
    (misses WBITS (Lzpgt2.block_start BB WBITS X (X.length / PPP_BLOCKSIZE BB)).w
      (Lzpgt2.block_start BB WBITS X (X.length / PPP_BLOCKSIZE BB)).prev
      (block BB X (X.length / PPP_BLOCKSIZE BB)) ++ [])
  rw [← hlay', hl] at hrb
  have hlen : ((Lzpgt2.block_start BB WBITS X (X.length / PPP_BLOCKSIZE BB)).put.out ++
      pack_bits ((X.length % PPP_BLOCKSIZE BB + 7) / 8)
        (hits WBITS (Lzpgt2.block_start BB WBITS X (X.length / PPP_BLOCKSIZE BB)).w
          (Lzpgt2.block_start BB WBITS X (X.length / PPP_BLOCKSIZE BB)).prev
          (block BB X (X.length / PPP_BLOCKSIZE BB)))).length
      = (Lzpgt2.block_start BB WBITS X (X.length / PPP_BLOCKSIZE BB)).put.out.length
        + (X.length % PPP_BLOCKSIZE BB + 7) / 8 := by
    rw [List.length_append, pack_bits_length]
  rw [hrb]
  refine ⟨Lzpgt2.compress_from_block BB WBITS X _ (Nat.div_mul_le_self _ _), ?_, ?_, ?_, ?_⟩
  · rw [hlay']; simp
  · rw [← misses_eq_filter, hlay', hl, ← List.append_assoc, ← hlen, List.drop_left,
      List.append_nil]
  · rw [hlay', hl]
    simp only [List.length_append, pack_bits_length]
    omega
  · obtain ⟨c1, _, _⟩ := Lzpgt2.compress_closed BB WBITS hBB zero_table
      (X.take (X.length / PPP_BLOCKSIZE BB * PPP_BLOCKSIZE BB))
    have hput : (Lzpgt2.block_start BB WBITS X (X.length / PPP_BLOCKSIZE BB)).put
        = ⟨(Lzpgt2.block_start BB WBITS X (X.length / PPP_BLOCKSIZE BB)).put.out, 0, 0⟩ := by
      unfold Lzpgt2.block_start
      rw [c1]
    rw [encode_bytes_eq]
    simp only
    rw [hput, put_bits_p_cnt, hl]
    omega

/-- Witness of C5 at `PPP_BLOCKBITS = 15`, `WBITS = 20` and the input `00 41 41`. -/
theorem C5_short_block_boundary_witness :
    (3 ≤ 15) ∧
    ([0x00, 0x41, 0x41].length % PPP_BLOCKSIZE 15 ≠ 0) ∧
    ((Lzpgt2.compress_LZP 15 20 zero_table init_put_buffer [0x00, 0x41, 0x41]
      = Lzpgt2.compress_loop 15 20
          ([0x00, 0x41, 0x41].drop ([0x00, 0x41, 0x41].length / PPP_BLOCKSIZE 15 * PPP_BLOCKSIZE 15)).length
          (Lzpgt2.block_start 15 20 [0x00, 0x41, 0x41] ([0x00, 0x41, 0x41].length / PPP_BLOCKSIZE 15))
          ([0x00, 0x41, 0x41].drop ([0x00, 0x41, 0x41].length / PPP_BLOCKSIZE 15 * PPP_BLOCKSIZE 15))) ∧
    ((Lzpgt2.payload 15 20 [0x00, 0x41, 0x41]).take
        (Lzpgt2.block_start 15 20 [0x00, 0x41, 0x41] ([0x00, 0x41, 0x41].length / PPP_BLOCKSIZE 15)).put.out.length
      = (Lzpgt2.block_start 15 20 [0x00, 0x41, 0x41] ([0x00, 0x41, 0x41].length / PPP_BLOCKSIZE 15)).put.out) ∧
    ((Lzpgt2.payload 15 20 [0x00, 0x41, 0x41]).drop
        ((Lzpgt2.block_start 15 20 [0x00, 0x41, 0x41] ([0x00, 0x41, 0x41].length / PPP_BLOCKSIZE 15)).put.out.length
          + ((Lzpgt2.compress_LZP 15 20 zero_table init_put_buffer [0x00, 0x41, 0x41]).ppp_lastblocksize.toNat
              + 7) / 8)
      = (((block 15 [0x00, 0x41, 0x41] ([0x00, 0x41, 0x41].length / PPP_BLOCKSIZE 15)).zip
          (read_bits (Lzpgt2.payload 15 20 [0x00, 0x41, 0x41])
            (Lzpgt2.block_start 15 20 [0x00, 0x41, 0x41] ([0x00, 0x41, 0x41].length / PPP_BLOCKSIZE 15)).put.out.length
            (Lzpgt2.compress_LZP 15 20 zero_table init_put_buffer [0x00, 0x41, 0x41]).ppp_lastblocksize.toNat)).filter
          (fun x => !x.2)).map (fun x => x.1)) ∧
    ((Lzpgt2.block_start 15 20 [0x00, 0x41, 0x41] ([0x00, 0x41, 0x41].length / PPP_BLOCKSIZE 15)).put.out.length
        + ((Lzpgt2.compress_LZP 15 20 zero_table init_put_buffer [0x00, 0x41, 0x41]).ppp_lastblocksize.toNat
            + 7) / 8
      ≤ (Lzpgt2.payload 15 20 [0x00, 0x41, 0x41]).length) ∧
    ((0 < (encode_bytes 20 (Lzpgt2.block_start 15 20 [0x00, 0x41, 0x41] ([0x00, 0x41, 0x41].length / PPP_BLOCKSIZE 15))
            (block 15 [0x00, 0x41, 0x41] ([0x00, 0x41, 0x41].length / PPP_BLOCKSIZE 15))).put.p_cnt ∧
        (encode_bytes 20 (Lzpgt2.block_start 15 20 [0x00, 0x41, 0x41] ([0x00, 0x41, 0x41].length / PPP_BLOCKSIZE 15))
            (block 15 [0x00, 0x41, 0x41] ([0x00, 0x41, 0x41].length / PPP_BLOCKSIZE 15))).put.p_cnt < 8) ↔
      (Lzpgt2.compress_LZP 15 20 zero_table init_put_buffer [0x00, 0x41, 0x41]).ppp_lastblocksize.toNat % 8
        ≠ 0)) :=
  ⟨by decide, by decide,
    C5_short_block_boundary 15 20 (by decide) [0x00, 0x41, 0x41] (by decide)⟩

/-- C6. Zero padding of the short block: for every input with
`L = ppp_lastblocksize` and `L mod 8 ≠ 0`, in the last byte of the trailing
block's bit section (byte `L / 8` of the section, which starts `off` bytes
into the payload) every bit at position `≥ L mod 8` is 0. In `lzpgt.c`
(`PPP_BLOCKBITS = 15`, `WBITS = 20`) the single byte `0x00` encodes to the
payload `0x01` and the single byte `0x41` to the payload `0x00 0x41`. -/
theorem C6_zero_padding (BB WBITS : Nat) (hBB : 3 ≤ BB) (X : List Nat)
    (hL : (Lzpgt2.compress_LZP BB WBITS zero_table init_put_buffer X).ppp_lastblocksize.toNat % 8
      ≠ 0) :
    (∀ j,
      (Lzpgt2.compress_LZP BB WBITS zero_table init_put_buffer X).ppp_lastblocksize.toNat % 8 ≤ j →
      ((Lzpgt2.payload BB WBITS X).getD
          ((Lzpgt2.block_start BB WBITS X (X.length / PPP_BLOCKSIZE BB)).put.out.length
            + (Lzpgt2.compress_LZP BB WBITS zero_table init_put_buffer X).ppp_lastblocksize.toNat
                / 8) 0).testBit j = false) ∧
    (Lzpgt2.payload 15 20 [0x00]) = [0x01] ∧
    (Lzpgt2.payload 15 20 [0x41]) = [0x00, 0x41] := by
  simp only [Lzpgt2.payload]
  rw [Lzpgt2.flush_compress BB WBITS hBB zero_table X]
  rw [Lzpgt2.lastblocksize_eq] at hL ⊢
  have hL0 : X.length % PPP_BLOCKSIZE BB ≠ 0 := by omega
  have hlay := Lzpgt2.trailing_layout BB WBITS hBB zero_table X hL0
  have htl := Lzpgt2.trailing_block BB X
  have hl : (hits WBITS (Lzpgt2.block_start BB WBITS X (X.length / PPP_BLOCKSIZE BB)).w
      (Lzpgt2.block_start BB WBITS X (X.length / PPP_BLOCKSIZE BB)).prev
      (block BB X (X.length / PPP_BLOCKSIZE BB))).length = X.length % PPP_BLOCKSIZE BB := by
    rw [hits_length, htl]
  refine ⟨?_, by decide, by decide⟩
  intro j hj
  have hlay' : (Lzpgt2.compress_LZP BB WBITS zero_table init_put_buffer X).put.out
      = (Lzpgt2.block_start BB WBITS X (X.length / PPP_BLOCKSIZE BB)).put.out ++
        (pack_bits ((X.length % PPP_BLOCKSIZE BB + 7) / 8)
            (hits WBITS (Lzpgt2.block_start BB WBITS X (X.length / PPP_BLOCKSIZE BB)).w
              (Lzpgt2.block_start BB WBITS X (X.length / PPP_BLOCKSIZE BB)).prev
              (block BB X (X.length / PPP_BLOCKSIZE BB))) ++
          (misses WBITS (Lzpgt2.block_start BB WBITS X (X.length / PPP_BLOCKSIZE BB)).w
              (Lzpgt2.block_start BB WBITS X (X.length / PPP_BLOCKSIZE BB)).prev
              (block BB X (X.length / PPP_BLOCKSIZE BB)) ++ [])) := hlay
  have hq : X.length % PPP_BLOCKSIZE BB / 8 < (X.length % PPP_BLOCKSIZE BB + 7) / 8 := by omega
  have hpl : X.length % PPP_BLOCKSIZE BB / 8 < (pack_bits ((X.length % PPP_BLOCKSIZE BB + 7) / 8)
      (hits WBITS (Lzpgt2.block_start BB WBITS X (X.length / PPP_BLOCKSIZE BB)).w
        (Lzpgt2.block_start BB WBITS X (X.length / PPP_BLOCKSIZE BB)).prev
        (block BB X (X.length / PPP_BLOCKSIZE BB)))).length := by
    rw [pack_bits_length]; exact hq
  rw [hlay', List.getD_append_right _ _ _ _ (by omega), Nat.add_sub_cancel_left,
    List.getD_eq_getElem?_getD, List.getElem?_append_left hpl, pack_bits_getElem _ _ _ hq]
  simp only [Option.getD_some, testBit_pack_byte]
  apply List.getD_eq_default
  rw [List.length_take, List.length_drop, hl]
  omega

/-- Witness of C6 at `PPP_BLOCKBITS = 15`, `WBITS = 20` and the input `00 41 41`. -/
theorem C6_zero_padding_witness :
    (3 ≤ 15) ∧
    ((Lzpgt2.compress_LZP 15 20 zero_table init_put_buffer [0x00, 0x41, 0x41]).ppp_lastblocksize.toNat % 8 ≠ 0) ∧
    ((∀ j,
      (Lzpgt2.compress_LZP 15 20 zero_table init_put_buffer [0x00, 0x41, 0x41]).ppp_lastblocksize.toNat % 8 ≤ j →
      ((Lzpgt2.payload 15 20 [0x00, 0x41, 0x41]).getD
          ((Lzpgt2.block_start 15 20 [0x00, 0x41, 0x41] ([0x00, 0x41, 0x41].length / PPP_BLOCKSIZE 15)).put.out.length
            + (Lzpgt2.compress_LZP 15 20 zero_table init_put_buffer [0x00, 0x41, 0x41]).ppp_lastblocksize.toNat
                / 8) 0).testBit j = false) ∧
    (Lzpgt2.payload 15 20 [0x00]) = [0x01] ∧
    (Lzpgt2.payload 15 20 [0x41]) = [0x00, 0x41]) :=
  ⟨by decide, by decide,
    C6_zero_padding 15 20 (by decide) [0x00, 0x41, 0x41] (by decide)⟩

/-- C7. Empty input: `compress_LZP` on the empty byte sequence writes no
payload byte, leaves nothing in the accumulator and leaves `ppp_nblocks = 0`
and `ppp_lastblocksize = 0`; `decompress_LZP` on that header with an empty
payload outputs the empty sequence. -/
theorem C7_empty_input (BB WBITS : Nat) :
    (Lzpgt2.payload BB WBITS []) = [] ∧
    (Lzpgt2.compress_LZP BB WBITS zero_table init_put_buffer []).put.cur = 0 ∧
    (Lzpgt2.compress_LZP BB WBITS zero_table init_put_buffer []).put.p_cnt = 0 ∧
    (Lzpgt2.compress_LZP BB WBITS zero_table init_put_buffer []).cbuf = [] ∧
    (Lzpgt2.compress_LZP BB WBITS zero_table init_put_buffer []).ppp_nblocks = 0 ∧
    (Lzpgt2.compress_LZP BB WBITS zero_table init_put_buffer []).ppp_lastblocksize = 0 ∧
    (Lzpgt2.decompress_LZP BB WBITS 0 0 zero_table (init_get_buffer []) init_put_buffer).map
      (fun s => (flush_put_buffer s.put, s.get.gbuf)) = some ([], []) := by
  simp only [Lzpgt2.payload]
  refine ⟨rfl, rfl, rfl, rfl, rfl, rfl, ?_⟩
  simp [Lzpgt2.decompress_LZP, Lzpgt2.decode_last, init_put_buffer, init_get_buffer,
    flush_put_buffer]

/-- C8. All-zero input: for every `n`, every block size `2 ^ BB` with
`BB ≥ 3` and every `15 ≤ WBITS ≤ 30`, encoding `n` bytes `0x00` from an
all-zero table writes `n / 8` bytes `0xFF` followed, when `n mod 8 ≠ 0`, by
one byte of value `2 ^ (n mod 8) - 1`, and nothing else: the payload has
`ceil(n / 8)` bytes, its first `n` bits are all 1, no literal is written
(`payload_literals`), and the table is left all zero with context 0. For
`n = B` the counters are `ppp_nblocks = 1`, `ppp_lastblocksize = 0` and the
payload is `B / 8` bytes `0xFF`; for `n = B + 1` the payload is `B / 8` bytes
`0xFF` then `0x01`. -/
theorem C8_all_zero_input (BB WBITS n : Nat) (hBB : 3 ≤ BB) (_hW : 15 ≤ WBITS ∧ WBITS ≤ 30) :
    ((Lzpgt2.payload BB WBITS (List.replicate n 0))
      = List.replicate (n / 8) 0xFF ++ (if n % 8 = 0 then [] else [2 ^ (n % 8) - 1])) ∧
    ((Lzpgt2.payload BB WBITS (List.replicate n 0)).length
      = (n + 7) / 8) ∧
    (∀ i, i < n → payload_bit
      (Lzpgt2.payload BB WBITS (List.replicate n 0)) 0 i
        = true) ∧
    (Lzpgt2.payload_literals BB WBITS (List.replicate n 0) = 0) ∧
    ((Lzpgt2.compress_LZP BB WBITS zero_table init_put_buffer (List.replicate n 0)).w
      = zero_table) ∧
    ((Lzpgt2.compress_LZP BB WBITS zero_table init_put_buffer (List.replicate n 0)).prev = 0) ∧
    ((Lzpgt2.compress_LZP BB WBITS zero_table init_put_buffer
        (List.replicate (2 ^ BB) 0)).ppp_nblocks = 1) ∧
    ((Lzpgt2.compress_LZP BB WBITS zero_table init_put_buffer
        (List.replicate (2 ^ BB) 0)).ppp_lastblocksize = 0) ∧
    (Lzpgt2.payload BB WBITS (List.replicate (2 ^ BB) 0) = List.replicate (2 ^ BB / 8) 0xFF) ∧
    (Lzpgt2.payload BB WBITS (List.replicate (2 ^ BB + 1) 0)
      = List.replicate (2 ^ BB / 8) 0xFF ++ [0x01]) := by
  simp only [Lzpgt2.payload]
  simp only [Lzpgt2.flush_compress BB WBITS hBB]
  obtain ⟨h1, h2, h3⟩ := Lzpgt2.compress_zeros BB WBITS hBB n
  obtain ⟨c1, c2⟩ := Lzpgt2.compress_loop_counters BB WBITS (List.replicate (2 ^ BB) 0).length
    (List.replicate (2 ^ BB) 0) ⟨zero_table, 0, [], init_put_buffer, 0, 0⟩ (le_refl _)
  obtain ⟨f1, _, _⟩ := Lzpgt2.compress_zeros BB WBITS hBB (2 ^ BB)
  obtain ⟨g1, _, _⟩ := Lzpgt2.compress_zeros BB WBITS hBB (2 ^ BB + 1)
  have hpos : 0 < 2 ^ BB := Nat.pos_pow_of_pos _ (by decide)
  have h8 : 2 ^ BB % 8 = 0 := by rw [← blocksize_eq]; exact blocksize_mod8 BB hBB
  refine ⟨h1, ?_, ?_, Lzpgt2.zeros_literals BB WBITS hBB n, h2, h3, ?_, ?_, ?_, ?_⟩
  · rw [h1]
    split
    · simp only [List.length_append, List.length_replicate, List.length_nil]; omega
    · simp only [List.length_append, List.length_replicate, List.length_singleton]; omega
  · intro i hi
    have hp := payload_bit_layout [] (List.replicate n true) [] i (by simpa using hi)
    rw [List.length_replicate, pack_bits_ones_len] at hp
    simp only [List.nil_append, List.append_nil, List.length_nil] at hp
    rw [h1, hp, List.getD_eq_getElem?_getD, List.getElem?_replicate, if_pos hi]
    rfl
  · unfold Lzpgt2.compress_LZP
    rw [c1, List.length_replicate, blocksize_eq, Nat.div_self hpos]
    rfl
  · unfold Lzpgt2.compress_LZP
    rw [c2, List.length_replicate, blocksize_eq, Nat.mod_self, if_pos rfl]
  · rw [f1, h8, if_pos rfl, List.append_nil]
  · have hd : (2 ^ BB + 1) / 8 = 2 ^ BB / 8 := by omega
    have hm : (2 ^ BB + 1) % 8 = 1 := by omega
    rw [g1, hd, hm]
    rfl

/-- Witness of C8 at `n = 9`, block size `2 ^ 3` and `WBITS = 15`. -/
theorem C8_all_zero_input_witness :
    (3 ≤ 3) ∧
    (15 ≤ 15 ∧ 15 ≤ 30) ∧
    (((Lzpgt2.payload 3 15 (List.replicate 9 0))
      = List.replicate (9 / 8) 0xFF ++ (if 9 % 8 = 0 then [] else [2 ^ (9 % 8) - 1])) ∧
    ((Lzpgt2.payload 3 15 (List.replicate 9 0)).length
      = (9 + 7) / 8) ∧
    (∀ i, i < 9 → payload_bit
      (Lzpgt2.payload 3 15 (List.replicate 9 0)) 0 i
        = true) ∧
    (Lzpgt2.payload_literals 3 15 (List.replicate 9 0) = 0) ∧
    ((Lzpgt2.compress_LZP 3 15 zero_table init_put_buffer (List.replicate 9 0)).w
      = zero_table) ∧
    ((Lzpgt2.compress_LZP 3 15 zero_table init_put_buffer (List.replicate 9 0)).prev = 0) ∧
    ((Lzpgt2.compress_LZP 3 15 zero_table init_put_buffer
        (List.replicate (2 ^ 3) 0)).ppp_nblocks = 1) ∧
    ((Lzpgt2.compress_LZP 3 15 zero_table init_put_buffer
        (List.replicate (2 ^ 3) 0)).ppp_lastblocksize = 0) ∧
    (Lzpgt2.payload 3 15 (List.replicate (2 ^ 3) 0) = List.replicate (2 ^ 3 / 8) 0xFF) ∧
    (Lzpgt2.payload 3 15 (List.replicate (2 ^ 3 + 1) 0)
      = List.replicate (2 ^ 3 / 8) 0xFF ++ [0x01])) :=
  ⟨by decide, by decide,
    C8_all_zero_input 3 15 9 (by decide) (by decide)⟩

/-- C9. Scalar and bulk decoders agree: for every block size `2 ^ BB` with
`BB ≥ 3`, every `15 ≤ WBITS ≤ 30`, every header with `ppp_nblocks ≥ 0` and
`0 ≤ ppp_lastblocksize < 2 ^ BB`, every table and every payload, the
`decompress_LZP` of `lzpgt2.c` and the `decompress_LZP` of `lzpgt7.c` return
the same result: both run out of payload (`none`), or both end with the same
output bytes, the same unread payload, the same table, context and last
byte (`DecState.view`; only the bit count `g_cnt` may differ). -/
theorem C9_scalar_bulk_agree (BB WBITS : Nat) (hBB : 3 ≤ BB) (_hW : 15 ≤ WBITS ∧ WBITS ≤ 30)
    (ppp_nblocks ppp_lastblocksize : Int) (_hn : 0 ≤ ppp_nblocks)
    (_hL : 0 ≤ ppp_lastblocksize ∧ ppp_lastblocksize < 2 ^ BB)
    (w : Nat → Nat) (payload : List Nat) :
    (Lzpgt2.decompress_LZP BB WBITS ppp_nblocks ppp_lastblocksize w
        (init_get_buffer payload) init_put_buffer).map DecState.view
      = (Lzpgt7.decompress_LZP BB WBITS ppp_nblocks ppp_lastblocksize w
        (init_get_buffer payload) init_put_buffer).map DecState.view :=
  (Lzpgt7.decompress_agree BB WBITS hBB ppp_nblocks ppp_lastblocksize w payload
    init_put_buffer).symm

/-- Witness of C9 at block size `2 ^ 3`, `WBITS = 15`, one full block and a last block of 3 bytes, on a payload that is long enough. -/
theorem C9_scalar_bulk_agree_witness :
    (3 ≤ 3) ∧
    (15 ≤ 15 ∧ 15 ≤ 30) ∧
    ((0 : Int) ≤ 1) ∧
    ((0 : Int) ≤ 3 ∧ (3 : Int) < 2 ^ 3) ∧
    ((Lzpgt2.decompress_LZP 3 15 1 3 zero_table
        (init_get_buffer [0xF0, 1, 2, 3, 4, 0x05, 7]) init_put_buffer).map DecState.view
      = (Lzpgt7.decompress_LZP 3 15 1 3 zero_table
        (init_get_buffer [0xF0, 1, 2, 3, 4, 0x05, 7]) init_put_buffer).map DecState.view) :=
  ⟨by decide, by decide, by decide, by decide,
    C9_scalar_bulk_agree 3 15 (by decide) (by decide) 1 3 (by decide) (by decide) zero_table [0xF0, 1, 2, 3, 4, 0x05, 7]⟩

/-- C10, counterexample. The single byte `0x00` (`lzpgt2.c`,
`PPP_BLOCKBITS = 15`, `WBITS = 20`) is encoded to the payload `0x01`: that
one byte is its bit section, with seven 0 bits, all of them padding, and no
literal is written. -/
theorem C10_counterexample :
    (Lzpgt2.payload 15 20 [0x00]) = [0x01] ∧
    Lzpgt2.bit_section 15 20 [0x00] 0 = [0x01] ∧
    Lzpgt2.payload_zero_bits 15 20 [0x00] = 7 ∧
    Lzpgt2.payload_literals 15 20 [0x00] = 0 ∧
    Lzpgt2.payload_zero_bits 15 20 [0x00] ≠ Lzpgt2.payload_literals 15 20 [0x00] := by
  decide

/-- C10, amended. For every input, the number of 0 bits in the payload bit
stream (every bit of every bit-section byte, for all full blocks and for the
trailing block) equals the number of literal bytes written to the payload
plus the `(8 - L mod 8) mod 8` padding bits of the last bit-section byte of
the trailing block, where `L = ppp_lastblocksize`. -/
theorem C10_zero_bits_amended (BB WBITS : Nat) (hBB : 3 ≤ BB) (X : List Nat) :
    Lzpgt2.payload_zero_bits BB WBITS X
      = Lzpgt2.payload_literals BB WBITS X
        + (8 - (Lzpgt2.compress_LZP BB WBITS zero_table init_put_buffer X).ppp_lastblocksize.toNat
            % 8) % 8 := by
  rw [Lzpgt2.lastblocksize_eq]
  exact Lzpgt2.zero_bits_eq BB WBITS hBB X

/-- Witness of the amended C10 at `PPP_BLOCKBITS = 15`, `WBITS = 20` and the input `00 41 41`. -/
theorem C10_zero_bits_amended_witness :
    (3 ≤ 15) ∧
    (Lzpgt2.payload_zero_bits 15 20 [0x00, 0x41, 0x41]
      = Lzpgt2.payload_literals 15 20 [0x00, 0x41, 0x41]
        + (8 - (Lzpgt2.compress_LZP 15 20 zero_table init_put_buffer [0x00, 0x41, 0x41]).ppp_lastblocksize.toNat
            % 8) % 8) :=
  ⟨by decide,
    C10_zero_bits_amended 15 20 (by decide) [0x00, 0x41, 0x41]⟩

/-- C11. The stamp record is not a function of the input and the width
alone.  `main` of `lzpgt2.c` declares `fstamp` without an initialiser,
assigns the first seven characters of `alg` (`strcpy` of `"LZPGT2"` and its
NUL) and the three counters, and writes the whole record: the eighth
character `alg[7]` is whatever `fstamp` held when `main` started.  On the
empty input with `ppp_WBITS = 20`, a run that starts with the bytes `00`
under `fstamp.alg` and a run that starts with the bytes `FF` there write
different files, which differ in `alg[7]`.  What `main` does assign is the
same for every initial content of `fstamp`, for every input and width: the
payload, the three counters and the first seven characters of `alg`. -/
theorem C11_stamp_byte_unassigned :
    (Lzpgt2.main_COMPRESS 15 ⟨List.replicate 8 0x00, 0, 0, 0⟩ 20 []).1.alg
      = tag_LZPGT2 ++ [0x00, 0x00] ∧
    (Lzpgt2.main_COMPRESS 15 ⟨List.replicate 8 0xFF, 0, 0, 0⟩ 20 []).1.alg
      = tag_LZPGT2 ++ [0x00, 0xFF] ∧
    Lzpgt2.main_COMPRESS 15 ⟨List.replicate 8 0x00, 0, 0, 0⟩ 20 []
      ≠ Lzpgt2.main_COMPRESS 15 ⟨List.replicate 8 0xFF, 0, 0, 0⟩ 20 [] ∧
    (∀ (BB : Nat) (s1 s2 : file_stamp) (W : Int) (X : List Nat),
      (Lzpgt2.main_COMPRESS BB s1 W X).2 = (Lzpgt2.main_COMPRESS BB s2 W X).2 ∧
      (Lzpgt2.main_COMPRESS BB s1 W X).1.ppp_nblocks
        = (Lzpgt2.main_COMPRESS BB s2 W X).1.ppp_nblocks ∧
      (Lzpgt2.main_COMPRESS BB s1 W X).1.ppp_lastblocksize
        = (Lzpgt2.main_COMPRESS BB s2 W X).1.ppp_lastblocksize ∧
      (Lzpgt2.main_COMPRESS BB s1 W X).1.ppp_WBITS
        = (Lzpgt2.main_COMPRESS BB s2 W X).1.ppp_WBITS ∧
      (Lzpgt2.main_COMPRESS BB s1 W X).1.alg.take 7
        = (Lzpgt2.main_COMPRESS BB s2 W X).1.alg.take 7) := by
  refine ⟨by decide, by decide, by decide, ?_⟩
  intro BB s1 s2 W X
  refine ⟨rfl, rfl, rfl, rfl, ?_⟩
  simp [Lzpgt2.main_COMPRESS, strcpy, tag_LZPGT2]

/-- C12, as stated, fails for the bulk decoder of `lzpgt7.c`.  The input
"AAAAAAAA" at width 20 has the header `ppp_nblocks = 0`,
`ppp_lastblocksize = 8` and the payload `E0 41 41 41 41 41`.  On the strict
prefix `E0 41 41 41 41` the refill after the fourth literal returns zero
bytes (`nfread = 0`, nothing left in the file), `decompress_LZP` takes the
fifth literal from the start of its buffer, where the byte `E0` still is,
and returns as it does after a successful decoding, having written the
eight bytes `41 41 41 41 E0 00 00 00`.  (On the whole payload the same
function writes the input back.) -/
theorem C12_counterexample :
    Lzpgt7.payload 20 20 [0x41, 0x41, 0x41, 0x41, 0x41, 0x41, 0x41, 0x41]
      = [0xE0, 0x41, 0x41, 0x41, 0x41] ++ [0x41] ∧
    (Lzpgt7.compress_LZP 20 20 zero_table init_put_buffer
      [0x41, 0x41, 0x41, 0x41, 0x41, 0x41, 0x41, 0x41]).ppp_nblocks = 0 ∧
    (Lzpgt7.compress_LZP 20 20 zero_table init_put_buffer
      [0x41, 0x41, 0x41, 0x41, 0x41, 0x41, 0x41, 0x41]).ppp_lastblocksize = 8 ∧
    (Lzpgt7.Buffered.decompress_LZP (2 ^ 20) 20 20 0 8 zero_table
        (Lzpgt7.Buffered.init_get_buffer (2 ^ 20) (fun _ => 0) [0xE0, 0x41, 0x41, 0x41, 0x41])
        init_put_buffer).map (fun s => (flush_put_buffer s.put, s.get.nfread, s.get.gIN))
      = some ([0x41, 0x41, 0x41, 0x41, 0xE0, 0x00, 0x00, 0x00], 0, []) ∧
    (Lzpgt7.Buffered.decompress_LZP (2 ^ 20) 20 20 0 8 zero_table
        (Lzpgt7.Buffered.init_get_buffer (2 ^ 20) (fun _ => 0)
          [0xE0, 0x41, 0x41, 0x41, 0x41, 0x41])
        init_put_buffer).map (fun s => flush_put_buffer s.put)
      = some [0x41, 0x41, 0x41, 0x41, 0x41, 0x41, 0x41, 0x41] := by
  refine ⟨by decide, by decide, by decide, by decide, by decide⟩

/-- C12, amended.  For every block size `2 ^ BB` with `BB ≥ 3`, every width,
every input `X` and every strict prefix `P'` of its payload
(`payload = P' ++ ext` with `ext` not empty; `lzpgt2.c` and `lzpgt7.c` write
the same payload), decoding the header of `X` with the payload `P'` asks for
a byte after the end of `P'`, in the scalar decoder of `lzpgt2.c` and in the
bulk decoder of `lzpgt7.c` (the result `none` of the decoders on the byte
sequence): the file ends mid-stream.  The source has no truncation error
for that moment.  In `lzpgt7.c` the read that takes the last byte of the
buffer when the file has ended refills with `nfread = 0`, leaves the buffer
as it was with `gbuf = gbuf_end = gbuf_start`, and the read after it returns
the byte at `gbuf_start` and moves on, `gbuf` now past `gbuf_end`: decoding
carries on with what the buffer holds. -/
theorem C12_truncation_amended (BB WBITS : Nat) (hBB : 3 ≤ BB) (X P ext : List Nat)
    (hext : ext ≠ []) (hP : Lzpgt2.payload BB WBITS X = P ++ ext) :
    Lzpgt7.payload BB WBITS X = Lzpgt2.payload BB WBITS X ∧
    Lzpgt2.decompress_LZP BB WBITS
        (Lzpgt2.compress_LZP BB WBITS zero_table init_put_buffer X).ppp_nblocks
        (Lzpgt2.compress_LZP BB WBITS zero_table init_put_buffer X).ppp_lastblocksize
        zero_table (init_get_buffer P) init_put_buffer = none ∧
    Lzpgt7.decompress_LZP BB WBITS
        (Lzpgt7.compress_LZP BB WBITS zero_table init_put_buffer X).ppp_nblocks
        (Lzpgt7.compress_LZP BB WBITS zero_table init_put_buffer X).ppp_lastblocksize
        zero_table (init_get_buffer P) init_put_buffer = none ∧
    (∀ (gBUFSIZE : Nat) (g : Lzpgt7.Buffered.GIn),
      g.gbuf < gBUFSIZE → g.gbuf + 1 = g.gbuf_end → g.gIN = [] →
      ∃ g1 g2,
        Lzpgt7.Buffered.next_byte gBUFSIZE g = some (g.mem g.gbuf, g1) ∧
        g1.nfread = 0 ∧ g1.gbuf = 0 ∧ g1.gbuf_end = 0 ∧ g1.mem = g.mem ∧
        Lzpgt7.Buffered.next_byte gBUFSIZE g1 = some (g.mem 0, g2) ∧
        g2.gbuf = 1 ∧ g2.gbuf_end = 0) := by
  obtain ⟨a1, a2, a3, _, _⟩ := Lzpgt7.compress_agree BB WBITS hBB zero_table X
  have h2 := Lzpgt2.decompress_prefix BB WBITS hBB X P ext hext hP
  refine ⟨?_, h2, ?_, ?_⟩
  · unfold Lzpgt7.payload Lzpgt2.payload
    rw [a1]
  · have hag := Lzpgt7.decompress_agree BB WBITS hBB
      (Lzpgt2.compress_LZP BB WBITS zero_table init_put_buffer X).ppp_nblocks
      (Lzpgt2.compress_LZP BB WBITS zero_table init_put_buffer X).ppp_lastblocksize
      zero_table P init_put_buffer
    change Lzpgt2.decompress_LZP BB WBITS _ _ zero_table ⟨P, 0⟩ init_put_buffer = none at h2
    rw [h2] at hag
    rw [a2, a3]
    change Lzpgt7.decompress_LZP BB WBITS _ _ zero_table ⟨P, 0⟩ init_put_buffer = none
    cases h7 : Lzpgt7.decompress_LZP BB WBITS
        (Lzpgt2.compress_LZP BB WBITS zero_table init_put_buffer X).ppp_nblocks
        (Lzpgt2.compress_LZP BB WBITS zero_table init_put_buffer X).ppp_lastblocksize
        zero_table ⟨P, 0⟩ init_put_buffer with
    | none => rfl
    | some s7 => rw [h7] at hag; exact absurd hag (by simp)
  · intro gBUFSIZE g hlt hend hin
    have hpos : 0 < gBUFSIZE := by omega
    have hmem : (Lzpgt7.Buffered.fread gBUFSIZE g.mem []).1 = g.mem := by
      funext i
      simp [Lzpgt7.Buffered.fread]
    refine ⟨{ g with gbuf := 0, nfread := 0, gbuf_end := 0, gIN := [] },
      { g with gbuf := 1, nfread := 0, gbuf_end := 0, gIN := [] }, ?_, rfl, rfl, rfl, rfl, ?_,
      rfl, rfl⟩
    · unfold Lzpgt7.Buffered.next_byte
      rw [if_pos hlt, if_pos hend, hin, hmem]
      simp [Lzpgt7.Buffered.fread]
    · unfold Lzpgt7.Buffered.next_byte
      simp only
      rw [if_pos hpos, if_neg (by decide)]

/-- Witness of the amended C12 at `PPP_BLOCKBITS = 15`, `WBITS = 20`, the input `00 41 41`, whose payload is `01 41 41`, and the prefix `01 41`. -/
theorem C12_truncation_amended_witness :
    (3 ≤ 15) ∧
    ([0x41] ≠ []) ∧
    (Lzpgt2.payload 15 20 [0x00, 0x41, 0x41] = [0x01, 0x41] ++ [0x41]) ∧
    (Lzpgt7.payload 15 20 [0x00, 0x41, 0x41] = Lzpgt2.payload 15 20 [0x00, 0x41, 0x41] ∧
    Lzpgt2.decompress_LZP 15 20
        (Lzpgt2.compress_LZP 15 20 zero_table init_put_buffer [0x00, 0x41, 0x41]).ppp_nblocks
        (Lzpgt2.compress_LZP 15 20 zero_table init_put_buffer [0x00, 0x41, 0x41]).ppp_lastblocksize
        zero_table (init_get_buffer [0x01, 0x41]) init_put_buffer = none ∧
    Lzpgt7.decompress_LZP 15 20
        (Lzpgt7.compress_LZP 15 20 zero_table init_put_buffer [0x00, 0x41, 0x41]).ppp_nblocks
        (Lzpgt7.compress_LZP 15 20 zero_table init_put_buffer [0x00, 0x41, 0x41]).ppp_lastblocksize
        zero_table (init_get_buffer [0x01, 0x41]) init_put_buffer = none ∧
    (∀ (gBUFSIZE : Nat) (g : Lzpgt7.Buffered.GIn),
      g.gbuf < gBUFSIZE → g.gbuf + 1 = g.gbuf_end → g.gIN = [] →
      ∃ g1 g2,
        Lzpgt7.Buffered.next_byte gBUFSIZE g = some (g.mem g.gbuf, g1) ∧
        g1.nfread = 0 ∧ g1.gbuf = 0 ∧ g1.gbuf_end = 0 ∧ g1.mem = g.mem ∧
        Lzpgt7.Buffered.next_byte gBUFSIZE g1 = some (g.mem 0, g2) ∧
        g2.gbuf = 1 ∧ g2.gbuf_end = 0)) :=
  ⟨by decide, by decide, by decide,
    C12_truncation_amended 15 20 (by decide) [0x00, 0x41, 0x41] [0x01, 0x41] [0x41] (by decide) (by decide)⟩

/-- C13. The width option of `main` in `lzpgt2.c` and `lzpgt7.c`: for every
first argument `'c' + s` (and `'C' + s` in `lzpgt7.c`, which lowers the
first character), whatever the C library's `atoi` returns: if `s` is empty
then `ppp_WBITS = 20`; if `s` begins with `'0'` or `atoi(s) = 0` the option
is rejected (`usage()`, the result `none`); otherwise
`ppp_WBITS = min(max(atoi(s), 15), 30)`.  Hence every accepted compress
option has `15 ≤ ppp_WBITS ≤ 30`, the table size `ppp_WSIZE` is
`2 ^ ppp_WBITS` and the mask `ppp_WMASK` is `2 ^ ppp_WBITS - 1`. -/
theorem C13_width_option (atoi : List Char → Int) (s : List Char) :
    Lzpgt2.process_options atoi ('c' :: s)
      = (if s = [] then some (Mode.COMPRESS, 20)
         else if s.head? = some '0' ∨ atoi s = 0 then none
         else some (Mode.COMPRESS, min (max (atoi s) 15) 30)) ∧
    Lzpgt7.process_options atoi ('c' :: s) = Lzpgt2.process_options atoi ('c' :: s) ∧
    Lzpgt7.process_options atoi ('C' :: s) = Lzpgt2.process_options atoi ('c' :: s) ∧
    (∀ m W, Lzpgt2.process_options atoi ('c' :: s) = some (m, W) →
      m = Mode.COMPRESS ∧ 15 ≤ W ∧ W ≤ 30 ∧
      ppp_WSIZE W.toNat = 2 ^ W.toNat ∧ ppp_WMASK W.toNat = 2 ^ W.toNat - 1) := by
  have hmain : Lzpgt2.process_options atoi ('c' :: s)
      = (if s = [] then some (Mode.COMPRESS, 20)
         else if s.head? = some '0' ∨ atoi s = 0 then none
         else some (Mode.COMPRESS, min (max (atoi s) 15) 30)) := by
    simp only [Lzpgt2.process_options, if_true]
    by_cases hs : s = []
    · subst hs
      simp
    · simp only [if_neg hs]
      by_cases hr : s.head? = some '0' ∨ atoi s = 0
      · simp only [if_pos hr]
      · simp only [if_neg hr]
        by_cases h1 : atoi s < 15
        · rw [if_pos h1, max_eq_right (le_of_lt h1)]
          rfl
        · rw [if_neg h1]
          have h1' : (15 : Int) ≤ atoi s := not_lt.mp h1
          rw [max_eq_left h1']
          by_cases h2 : atoi s > 30
          · rw [if_pos h2, min_eq_right (le_of_lt h2)]
          · rw [if_neg h2, min_eq_left (not_lt.mp h2)]
  refine ⟨hmain, ?_, ?_, ?_⟩
  · simp only [Lzpgt7.process_options, Lzpgt2.process_options, Lzpgt7.tolower]
    rfl
  · simp only [Lzpgt7.process_options, Lzpgt2.process_options, Lzpgt7.tolower]
    rfl
  · intro m W h
    rw [hmain] at h
    have hsz : ∀ n : Nat, ppp_WSIZE n = 2 ^ n := fun n => by
      simp only [ppp_WSIZE, Nat.one_shiftLeft]
    have hmk : ∀ n : Nat, ppp_WMASK n = 2 ^ n - 1 := fun n => by
      simp only [ppp_WMASK, hsz]
    by_cases hs : s = []
    · rw [if_pos hs] at h
      injection h with h
      injection h with hm hW
      subst hm; subst hW
      exact ⟨rfl, by decide, by decide, hsz _, hmk _⟩
    · rw [if_neg hs] at h
      by_cases hr : s.head? = some '0' ∨ atoi s = 0
      · rw [if_pos hr] at h
        exact absurd h (by simp)
      · rw [if_neg hr] at h
        injection h with h
        injection h with hm hW
        subst hm; subst hW
        refine ⟨rfl, ?_, ?_, hsz _, hmk _⟩
        · exact le_min (le_max_right _ _) (by decide)
        · exact min_le_right _ _

/-- C14. Predictor synchrony: for every block size `2 ^ BB` with `BB ≥ 3`,
every `15 ≤ WBITS ≤ 30`, every input `X` and every position `i ≤ |X|`, the
scalar `decompress_LZP`, decoding the header and payload that `compress_LZP`
wrote for `X`, reaches a state in which it has written exactly the first
`i` bytes of `X` (state number `i` of its run), and in that state its table
and its context are the table and the context that `compress_LZP` holds when
it has consumed the first `i` bytes of `X`; in particular both read the same
prediction `T[h]` for byte `i`. -/
theorem C14_predictor_synchrony (BB WBITS : Nat) (hBB : 3 ≤ BB)
    (_hW : 15 ≤ WBITS ∧ WBITS ≤ 30) (X : List Nat) (i : Nat) (hi : i ≤ X.length) :
    ∃ s : DecState,
      (Lzpgt2.decompress_states BB WBITS
        (Lzpgt2.compress_LZP BB WBITS zero_table init_put_buffer X).ppp_nblocks
        (Lzpgt2.compress_LZP BB WBITS zero_table init_put_buffer X).ppp_lastblocksize
        zero_table (init_get_buffer (Lzpgt2.payload BB WBITS X)) init_put_buffer)[i]? = some s ∧
      s.put.out = X.take i ∧
      s.w = (Lzpgt2.encoder_at BB WBITS X i).w ∧
      s.prev = (Lzpgt2.encoder_at BB WBITS X i).prev ∧
      s.w s.prev = (Lzpgt2.encoder_at BB WBITS X i).w (Lzpgt2.encoder_at BB WBITS X i).prev := by
  have hm := Lzpgt2.decompress_states_compress BB WBITS hBB X
  obtain ⟨e1, e2⟩ := Lzpgt2.encoder_at_eq BB WBITS hBB X i
  have hv : (enc_views WBITS zero_table 0 [] X ++
      [(table_after WBITS zero_table 0 X, hash_after WBITS 0 X, X)])[i]?
      = some (table_after WBITS zero_table 0 (X.take i), hash_after WBITS 0 (X.take i),
          X.take i) := by
    by_cases hlt : i < X.length
    · rw [List.getElem?_append_left (by rw [enc_views_length]; exact hlt),
        enc_views_getElem WBITS X _ _ _ i hlt]
      simp
    · have hie : i = X.length := by omega
      rw [List.getElem?_append_right (by rw [enc_views_length]; omega), enc_views_length, hie]
      simp
  have hg := congrArg (fun l => l[i]?) hm
  simp only [List.getElem?_map, hv] at hg
  cases hs : (Lzpgt2.decompress_states BB WBITS
        (Lzpgt2.compress_LZP BB WBITS zero_table init_put_buffer X).ppp_nblocks
        (Lzpgt2.compress_LZP BB WBITS zero_table init_put_buffer X).ppp_lastblocksize
        zero_table (init_get_buffer (Lzpgt2.payload BB WBITS X)) init_put_buffer)[i]? with
  | none =>
    rw [hs] at hg
    exact absurd hg (by simp)
  | some s =>
    rw [hs] at hg
    simp only [Option.map_some', Option.some.injEq, DecState.predictor, Prod.mk.injEq] at hg
    obtain ⟨g1, g2, g3⟩ := hg
    exact ⟨s, rfl, g3, by rw [g1, e1], by rw [g2, e2], by rw [g1, g2, e1, e2]⟩

/-- Witness of C14 at `PPP_BLOCKBITS = 15`, `WBITS = 20`, the input `00 41 41` and the position 2. -/
theorem C14_predictor_synchrony_witness :
    (3 ≤ 15) ∧
    (15 ≤ 20 ∧ 20 ≤ 30) ∧
    (2 ≤ [0x00, 0x41, 0x41].length) ∧
    (∃ s : DecState,
      (Lzpgt2.decompress_states 15 20
        (Lzpgt2.compress_LZP 15 20 zero_table init_put_buffer [0x00, 0x41, 0x41]).ppp_nblocks
        (Lzpgt2.compress_LZP 15 20 zero_table init_put_buffer [0x00, 0x41, 0x41]).ppp_lastblocksize
        zero_table (init_get_buffer (Lzpgt2.payload 15 20 [0x00, 0x41, 0x41])) init_put_buffer)[2]? = some s ∧
      s.put.out = [0x00, 0x41, 0x41].take 2 ∧
      s.w = (Lzpgt2.encoder_at 15 20 [0x00, 0x41, 0x41] 2).w ∧
      s.prev = (Lzpgt2.encoder_at 15 20 [0x00, 0x41, 0x41] 2).prev ∧
      s.w s.prev = (Lzpgt2.encoder_at 15 20 [0x00, 0x41, 0x41] 2).w (Lzpgt2.encoder_at 15 20 [0x00, 0x41, 0x41] 2).prev) :=
  ⟨by decide, by decide, by decide,
    C14_predictor_synchrony 15 20 (by decide) (by decide) [0x00, 0x41, 0x41] 2 (by decide)⟩

/-- C15. Table invariant of one step: for every state of the encoder (every
table `T = s.w`, every context `h = s.prev`) and every byte `c`, after the
encoder step on `c` the table has `T[h] = c`, on a hit and on a miss; and
after a decoder step from any state that outputs the byte `c`, in the
scalar decoder (`output_byte`) and in the bulk decoder (`mask_byte`), the
table has `T[h] = c` for the context `h` the step started in. -/
theorem C15_table_invariant (WBITS : Nat) :
    (∀ (s : EncState) (c : Nat), (encode_byte WBITS s c).w s.prev = c) ∧
    (∀ (s s1 : DecState) (b : Nat), Lzpgt2.output_byte WBITS s b = some s1 →
      s1.put.out = s.put.out ++ [s1.c] ∧ s1.w s.prev = s1.c) ∧
    (∀ (gbstart : List Nat) (s : DecState) (r : List Nat × DecState),
      Lzpgt7.mask_byte WBITS gbstart s = some r →
      r.2.put.out = s.put.out ++ [r.2.c] ∧ r.2.w s.prev = r.2.c) := by
  refine ⟨?_, ?_, ?_⟩
  · intro s c
    unfold encode_byte
    by_cases h : s.w s.prev = c
    · rw [if_pos h]
      exact h
    · rw [if_neg h]
      simp [store]
  · intro s s1 b h
    unfold Lzpgt2.output_byte at h
    by_cases hb : b = 1
    · rw [if_pos hb] at h
      injection h with h
      subst h
      simp [pfputc]
    · rw [if_neg hb] at h
      cases hg : gfgetc s.get with
      | none => rw [hg] at h; exact absurd h (by simp)
      | some r =>
        obtain ⟨c, g1⟩ := r
        rw [hg] at h
        injection h with h
        subst h
        simp [pfputc, store]
  · intro gbstart s r h
    unfold Lzpgt7.mask_byte at h
    by_cases ht : gbstart.headD 0 &&& (1 <<< s.get.g_cnt) ≠ 0
    · simp only [if_pos ht] at h
      by_cases h8 : s.get.g_cnt + 1 = 8
      · simp only [if_pos h8] at h
        injection h with h
        subst h
        simp [pfputc]
      · simp only [if_neg h8] at h
        injection h with h
        subst h
        simp [pfputc]
    · simp only [if_neg ht] at h
      cases hg : Lzpgt7.next_byte ⟨s.get.gbuf, s.get.g_cnt + 1⟩ with
      | none => rw [hg] at h; exact absurd h (by simp)
      | some q =>
        obtain ⟨c, g1⟩ := q
        rw [hg] at h
        by_cases h8 : g1.g_cnt = 8
        · simp only [if_pos h8] at h
          injection h with h
          subst h
          simp [pfputc, store]
        · simp only [if_neg h8] at h
          injection h with h
          subst h
          simp [pfputc, store]

/-- C16. The context depends on a bounded suffix: for `15 ≤ WBITS ≤ 30`,
starting from the context 0, after the encoder has consumed any byte
sequence `cs = c_1 .. c_n` its context is
`(c_n * 32 ^ 0 + c_(n-1) * 32 ^ 1 + ... + c_1 * 32 ^ (n-1)) mod 2 ^ WBITS`;
two sequences of at least `m = ceil(WBITS / 5)` bytes that agree on their
last `m` bytes give the same context (from any two starting states); and
for `WBITS = 20` (the width of `lzpgt.c`) two sequences of length at least
4 with the same last 4 bytes give the same context. -/
theorem C16_context_suffix (WBITS : Nat) (hW : 15 ≤ WBITS ∧ WBITS ≤ 30) (cs : List Nat) :
    (∀ (w : Nat → Nat) (cbuf : List Nat) (put : PutBuf) (nb lb : Int),
      (encode_bytes WBITS ⟨w, 0, cbuf, put, nb, lb⟩ cs).prev
        = context_sum cs % 2 ^ WBITS) ∧
    (∀ (s1 s2 : EncState) (X Y : List Nat),
      (WBITS + 4) / 5 ≤ X.length → (WBITS + 4) / 5 ≤ Y.length →
      X.drop (X.length - (WBITS + 4) / 5) = Y.drop (Y.length - (WBITS + 4) / 5) →
      (encode_bytes WBITS s1 X).prev = (encode_bytes WBITS s2 Y).prev) ∧
    (∀ (s1 s2 : EncState) (X Y : List Nat), 4 ≤ X.length → 4 ≤ Y.length →
      X.drop (X.length - 4) = Y.drop (Y.length - 4) →
      (encode_bytes 20 s1 X).prev = (encode_bytes 20 s2 Y).prev) := by
  have key : ∀ (W m : Nat), 0 < W → W ≤ 32 → W ≤ 5 * m → ∀ (s1 s2 : EncState) (X Y : List Nat),
      m ≤ X.length → m ≤ Y.length → X.drop (X.length - m) = Y.drop (Y.length - m) →
      (encode_bytes W s1 X).prev = (encode_bytes W s2 Y).prev := by
    intro W m hW0 hW32 hm s1 s2 X Y hX hY hXY
    have hl : (X.drop (X.length - m)).length = m := by
      rw [List.length_drop]; omega
    have h1 : (encode_bytes W s1 X).prev
        = context_sum (X.drop (X.length - m)) % 2 ^ W := by
      rw [encode_bytes_eq]
      show hash_after W s1.prev X = _
      conv_lhs => rw [← List.take_append_drop (X.length - m) X]
      rw [hash_after_append, hash_after_suffix W hW32 hW0 _ (by rw [hl]; exact hm)]
    have h2 : (encode_bytes W s2 Y).prev
        = context_sum (Y.drop (Y.length - m)) % 2 ^ W := by
      rw [encode_bytes_eq]
      show hash_after W s2.prev Y = _
      conv_lhs => rw [← List.take_append_drop (Y.length - m) Y]
      rw [hash_after_append, hash_after_suffix W hW32 hW0 _ (by rw [← hXY, hl]; exact hm)]
    rw [h1, h2, hXY]
  refine ⟨?_, ?_, ?_⟩
  · intro w cbuf put nb lb
    rw [encode_bytes_eq]
    show hash_after WBITS 0 cs = _
    rw [hash_after_sum WBITS (by omega) cs 0 (Nat.pos_pow_of_pos WBITS (by decide))]
    simp
  · exact key WBITS ((WBITS + 4) / 5) (by omega) (by omega) (by omega)
  · exact key 20 4 (by decide) (by decide) (by decide)

/-- Witness of C16 at `WBITS = 20` and the sequence "AAAA". -/
theorem C16_context_suffix_witness :
    (15 ≤ 20 ∧ 20 ≤ 30) ∧
    ((∀ (w : Nat → Nat) (cbuf : List Nat) (put : PutBuf) (nb lb : Int),
      (encode_bytes 20 ⟨w, 0, cbuf, put, nb, lb⟩ [0x41, 0x41, 0x41, 0x41]).prev
        = context_sum [0x41, 0x41, 0x41, 0x41] % 2 ^ 20) ∧
    (∀ (s1 s2 : EncState) (X Y : List Nat),
      (20 + 4) / 5 ≤ X.length → (20 + 4) / 5 ≤ Y.length →
      X.drop (X.length - (20 + 4) / 5) = Y.drop (Y.length - (20 + 4) / 5) →
      (encode_bytes 20 s1 X).prev = (encode_bytes 20 s2 Y).prev) ∧
    (∀ (s1 s2 : EncState) (X Y : List Nat), 4 ≤ X.length → 4 ≤ Y.length →
      X.drop (X.length - 4) = Y.drop (Y.length - 4) →
      (encode_bytes 20 s1 X).prev = (encode_bytes 20 s2 Y).prev)) :=
  ⟨by decide,
    C16_context_suffix 20 (by decide) [0x41, 0x41, 0x41, 0x41]⟩

/-- C17. The byte-boundary precondition always holds: for every block size
`2 ^ BB` with `BB ≥ 3`, every width and every input `X`, in every block `k`
of `X` the loop of `compress_LZP` that writes the mismatched bytes starts in
the stream state `literal_put` (the state the inner loop ended in, after the
forced advance in a short block), it calls `pfputc` once for each recorded
byte, and in every one of those calls the bit count `p_cnt` is 0; and in
every state of the run of the scalar `decompress_LZP`, so each time it reads
a literal with `gfgetc`, the bit count `g_cnt` is 0, on the header and
payload that `compress_LZP` wrote for `X` and in fact on every header, table
and payload. -/
theorem C17_byte_boundary (BB WBITS : Nat) (hBB : 3 ≤ BB) (X : List Nat) :
    (∀ k, k < num_blocks BB X →
      (Lzpgt2.finish_block BB
          (encode_bytes WBITS (Lzpgt2.block_start BB WBITS X k) (block BB X k))
          (block BB X k).length).put
        = write_mismatched
            (Lzpgt2.literal_put BB
              (encode_bytes WBITS (Lzpgt2.block_start BB WBITS X k) (block BB X k))
              (block BB X k).length)
            (encode_bytes WBITS (Lzpgt2.block_start BB WBITS X k) (block BB X k)).cbuf ∧
      (pfputc_calls
          (Lzpgt2.literal_put BB
            (encode_bytes WBITS (Lzpgt2.block_start BB WBITS X k) (block BB X k))
            (block BB X k).length)
          (encode_bytes WBITS (Lzpgt2.block_start BB WBITS X k) (block BB X k)).cbuf).length
        = (encode_bytes WBITS (Lzpgt2.block_start BB WBITS X k) (block BB X k)).cbuf.length ∧
      ∀ t ∈ pfputc_calls
          (Lzpgt2.literal_put BB
            (encode_bytes WBITS (Lzpgt2.block_start BB WBITS X k) (block BB X k))
            (block BB X k).length)
          (encode_bytes WBITS (Lzpgt2.block_start BB WBITS X k) (block BB X k)).cbuf,
        t.p_cnt = 0) ∧
    (∀ t ∈ Lzpgt2.decompress_states BB WBITS
        (Lzpgt2.compress_LZP BB WBITS zero_table init_put_buffer X).ppp_nblocks
        (Lzpgt2.compress_LZP BB WBITS zero_table init_put_buffer X).ppp_lastblocksize
        zero_table (init_get_buffer (Lzpgt2.payload BB WBITS X)) init_put_buffer,
      t.get.g_cnt = 0) ∧
    (∀ (ppp_nblocks ppp_lastblocksize : Int) (w : Nat → Nat) (payload : List Nat)
      (put : PutBuf),
      ∀ t ∈ Lzpgt2.decompress_states BB WBITS ppp_nblocks ppp_lastblocksize w
        (init_get_buffer payload) put, t.get.g_cnt = 0) := by
  refine ⟨?_, Lzpgt2.decompress_states_g_cnt BB WBITS hBB _ _ _ _ _,
    fun nb L w payload put => Lzpgt2.decompress_states_g_cnt BB WBITS hBB nb L w payload put⟩
  intro k hk
  have hin := Lzpgt2.block_in_input BB X k hk
  obtain ⟨hput, _⟩ := Lzpgt2.block_start_state BB WBITS hBB X k (le_of_lt hin)
  have hlen : (block BB X k).length ≤ PPP_BLOCKSIZE BB := by
    unfold block
    rw [List.length_take]
    exact Nat.min_le_left _ _
  refine ⟨Lzpgt2.finish_block_literal_put BB _ _ hlen, pfputc_calls_length _ _, ?_⟩
  intro t ht
  rw [pfputc_calls_p_cnt _ _ t ht]
  exact Lzpgt2.literal_put_aligned BB WBITS hBB _ _ hput _

/-- Witness of C17 at `PPP_BLOCKBITS = 15`, `WBITS = 20` and the input `00 41 41`. -/
theorem C17_byte_boundary_witness :
    (3 ≤ 15) ∧
    ((∀ k, k < num_blocks 15 [0x00, 0x41, 0x41] →
      (Lzpgt2.finish_block 15
          (encode_bytes 20 (Lzpgt2.block_start 15 20 [0x00, 0x41, 0x41] k) (block 15 [0x00, 0x41, 0x41] k))
          (block 15 [0x00, 0x41, 0x41] k).length).put
        = write_mismatched
            (Lzpgt2.literal_put 15
              (encode_bytes 20 (Lzpgt2.block_start 15 20 [0x00, 0x41, 0x41] k) (block 15 [0x00, 0x41, 0x41] k))
              (block 15 [0x00, 0x41, 0x41] k).length)
            (encode_bytes 20 (Lzpgt2.block_start 15 20 [0x00, 0x41, 0x41] k) (block 15 [0x00, 0x41, 0x41] k)).cbuf ∧
      (pfputc_calls
          (Lzpgt2.literal_put 15
            (encode_bytes 20 (Lzpgt2.block_start 15 20 [0x00, 0x41, 0x41] k) (block 15 [0x00, 0x41, 0x41] k))
            (block 15 [0x00, 0x41, 0x41] k).length)
          (encode_bytes 20 (Lzpgt2.block_start 15 20 [0x00, 0x41, 0x41] k) (block 15 [0x00, 0x41, 0x41] k)).cbuf).length
        = (encode_bytes 20 (Lzpgt2.block_start 15 20 [0x00, 0x41, 0x41] k) (block 15 [0x00, 0x41, 0x41] k)).cbuf.length ∧
      ∀ t ∈ pfputc_calls
          (Lzpgt2.literal_put 15
            (encode_bytes 20 (Lzpgt2.block_start 15 20 [0x00, 0x41, 0x41] k) (block 15 [0x00, 0x41, 0x41] k))
            (block 15 [0x00, 0x41, 0x41] k).length)
          (encode_bytes 20 (Lzpgt2.block_start 15 20 [0x00, 0x41, 0x41] k) (block 15 [0x00, 0x41, 0x41] k)).cbuf,
        t.p_cnt = 0) ∧
    (∀ t ∈ Lzpgt2.decompress_states 15 20
        (Lzpgt2.compress_LZP 15 20 zero_table init_put_buffer [0x00, 0x41, 0x41]).ppp_nblocks
        (Lzpgt2.compress_LZP 15 20 zero_table init_put_buffer [0x00, 0x41, 0x41]).ppp_lastblocksize
        zero_table (init_get_buffer (Lzpgt2.payload 15 20 [0x00, 0x41, 0x41])) init_put_buffer,
      t.get.g_cnt = 0) ∧
    (∀ (ppp_nblocks ppp_lastblocksize : Int) (w : Nat → Nat) (payload : List Nat)
      (put : PutBuf),
      ∀ t ∈ Lzpgt2.decompress_states 15 20 ppp_nblocks ppp_lastblocksize w
        (init_get_buffer payload) put, t.get.g_cnt = 0)) :=
  ⟨by decide,
    C17_byte_boundary 15 20 (by decide) [0x00, 0x41, 0x41]⟩

/-- C18. Table accesses are in bounds: for every block size `2 ^ BB` with
`BB ≥ 3` and every `15 ≤ WBITS ≤ 30`, the table has
`ppp_WSIZE = 2 ^ WBITS` entries; for every input `X` and every `i`, the
context `prev` that `compress_LZP` holds when it has consumed `i` bytes
(before byte `i`, after byte `i - 1`) is below `ppp_WSIZE`; and for every
header, every table and every payload, the context `prev` is below
`ppp_WSIZE` in every state of the run of the scalar `decompress_LZP`: at the
head of every turn of "Output bytes" and in the state it returns in. -/
theorem C18_context_in_bounds (BB WBITS : Nat) (hBB : 3 ≤ BB)
    (_hW : 15 ≤ WBITS ∧ WBITS ≤ 30) :
    ppp_WSIZE WBITS = 2 ^ WBITS ∧
    (∀ (X : List Nat) (i : Nat), (Lzpgt2.encoder_at BB WBITS X i).prev < ppp_WSIZE WBITS) ∧
    (∀ (ppp_nblocks ppp_lastblocksize : Int) (w : Nat → Nat) (payload : List Nat)
      (put : PutBuf),
      ∀ t ∈ Lzpgt2.decompress_states BB WBITS ppp_nblocks ppp_lastblocksize w
        (init_get_buffer payload) put, t.prev < ppp_WSIZE WBITS) := by
  have hpos : 0 < 2 ^ WBITS := Nat.pos_pow_of_pos WBITS (by decide)
  refine ⟨wsize_eq WBITS, ?_, ?_⟩
  · intro X i
    rw [(Lzpgt2.encoder_at_eq BB WBITS hBB X i).2, wsize_eq]
    exact hash_after_lt WBITS _ 0 hpos
  · intro nb L w payload put
    rw [wsize_eq]
    apply Lzpgt2.decompress_states_inv BB WBITS (fun t => t.prev < 2 ^ WBITS)
    · intro s b s1 _ h
      unfold Lzpgt2.output_byte at h
      by_cases hb : b = 1
      · rw [if_pos hb] at h
        injection h with h
        subst h
        exact update_hash_lt _ _ _
      · rw [if_neg hb] at h
        cases hg : gfgetc s.get with
        | none => rw [hg] at h; exact absurd h (by simp)
        | some r =>
          obtain ⟨c, g1⟩ := r
          rw [hg] at h
          injection h with h
          subst h
          exact update_hash_lt _ _ _
    · intro s bbuf g1 hs _
      exact hs
    · intro s n bbuf g1 hs _
      exact hs
    · exact hpos

/-- Witness of C18 at `PPP_BLOCKBITS = 15` and `WBITS = 20`. -/
theorem C18_context_in_bounds_witness :
    (3 ≤ 15) ∧
    (15 ≤ 20 ∧ 20 ≤ 30) ∧
    (ppp_WSIZE 20 = 2 ^ 20 ∧
    (∀ (X : List Nat) (i : Nat), (Lzpgt2.encoder_at 15 20 X i).prev < ppp_WSIZE 20) ∧
    (∀ (ppp_nblocks ppp_lastblocksize : Int) (w : Nat → Nat) (payload : List Nat)
      (put : PutBuf),
      ∀ t ∈ Lzpgt2.decompress_states 15 20 ppp_nblocks ppp_lastblocksize w
        (init_get_buffer payload) put, t.prev < ppp_WSIZE 20)) :=
  ⟨by decide, by decide,
    C18_context_in_bounds 15 20 (by decide) (by decide)⟩

/-- C19. The decoded length follows the header: for every block size
`B = 2 ^ BB` with `BB ≥ 3`, every width, every header with
`ppp_nblocks ≥ 0` and `0 ≤ ppp_lastblocksize < B`, every table and every
payload (not only those the encoder writes), if `decompress_LZP` returns
(no read past the end of the payload) then the output it has written and
flushed is exactly `ppp_nblocks * B + ppp_lastblocksize` bytes long, for the
scalar decoder of `lzpgt2.c` and for the bulk decoder of `lzpgt7.c`; and
both return whenever the payload has
`ppp_nblocks * (B / 8 + B) + ceil(ppp_lastblocksize / 8) + ppp_lastblocksize`
bytes or more, which is room for every bit section and a literal for every
byte. -/
theorem C19_decoded_length (BB WBITS : Nat) (hBB : 3 ≤ BB)
    (ppp_nblocks ppp_lastblocksize : Int) (hn : 0 ≤ ppp_nblocks)
    (hL : 0 ≤ ppp_lastblocksize ∧ ppp_lastblocksize < 2 ^ BB)
    (w : Nat → Nat) (payload : List Nat) :
    (∀ s, Lzpgt2.decompress_LZP BB WBITS ppp_nblocks ppp_lastblocksize w
        (init_get_buffer payload) init_put_buffer = some s →
      ((flush_put_buffer s.put).length : Int)
        = ppp_nblocks * (PPP_BLOCKSIZE BB : Nat) + ppp_lastblocksize) ∧
    (∀ s, Lzpgt7.decompress_LZP BB WBITS ppp_nblocks ppp_lastblocksize w
        (init_get_buffer payload) init_put_buffer = some s →
      ((flush_put_buffer s.put).length : Int)
        = ppp_nblocks * (PPP_BLOCKSIZE BB : Nat) + ppp_lastblocksize) ∧
    (ppp_nblocks.toNat * (PPP_BLOCKSIZE BB / 8 + PPP_BLOCKSIZE BB)
        + ((ppp_lastblocksize.toNat + 7) / 8 + ppp_lastblocksize.toNat) ≤ payload.length →
      (∃ s, Lzpgt2.decompress_LZP BB WBITS ppp_nblocks ppp_lastblocksize w
        (init_get_buffer payload) init_put_buffer = some s) ∧
      (∃ s, Lzpgt7.decompress_LZP BB WBITS ppp_nblocks ppp_lastblocksize w
        (init_get_buffer payload) init_put_buffer = some s)) := by
  have hag := Lzpgt7.decompress_agree BB WBITS hBB ppp_nblocks ppp_lastblocksize w payload
    init_put_buffer
  have key : ∀ s, Lzpgt2.decompress_LZP BB WBITS ppp_nblocks ppp_lastblocksize w
        (init_get_buffer payload) init_put_buffer = some s →
      ((flush_put_buffer s.put).length : Int)
        = ppp_nblocks * (PPP_BLOCKSIZE BB : Nat) + ppp_lastblocksize := by
    intro s h
    obtain ⟨h1, _, h3⟩ := Lzpgt2.decompress_put BB WBITS _ _ _ _ _ s h
    have hp : s.put.p_cnt = 0 := h3
    have hf : flush_put_buffer s.put = s.put.out := by
      unfold flush_put_buffer
      rw [if_neg (by omega)]
    rw [hf, h1]
    have e1 : ((ppp_nblocks.toNat : Nat) : Int) = ppp_nblocks := Int.toNat_of_nonneg hn
    have e2 : ((ppp_lastblocksize.toNat : Nat) : Int) = ppp_lastblocksize :=
      Int.toNat_of_nonneg hL.1
    simp only [init_put_buffer, List.length_nil, Nat.zero_add]
    push_cast
    rw [e1, e2]
  refine ⟨key, ?_, ?_⟩
  · intro s h
    change (Lzpgt7.decompress_LZP BB WBITS ppp_nblocks ppp_lastblocksize w
        ⟨payload, 0⟩ init_put_buffer) = some s at h
    rw [h] at hag
    cases h2 : Lzpgt2.decompress_LZP BB WBITS ppp_nblocks ppp_lastblocksize w
        ⟨payload, 0⟩ init_put_buffer with
    | none => rw [h2] at hag; exact absurd hag (by simp)
    | some s2 =>
      rw [h2] at hag
      simp only [Option.map_some', Option.some.injEq, DecState.view, Prod.mk.injEq] at hag
      rw [hag.2.2.2.2]
      exact key s2 h2
  · intro hlen
    obtain ⟨s, hs⟩ := Lzpgt2.decompress_some BB WBITS hBB ppp_nblocks ppp_lastblocksize w
      payload init_put_buffer hlen
    refine ⟨⟨s, hs⟩, ?_⟩
    change (Lzpgt2.decompress_LZP BB WBITS ppp_nblocks ppp_lastblocksize w
        ⟨payload, 0⟩ init_put_buffer) = some s at hs
    rw [hs] at hag
    change ∃ s, (Lzpgt7.decompress_LZP BB WBITS ppp_nblocks ppp_lastblocksize w
        ⟨payload, 0⟩ init_put_buffer) = some s
    cases h7 : Lzpgt7.decompress_LZP BB WBITS ppp_nblocks ppp_lastblocksize w
        ⟨payload, 0⟩ init_put_buffer with
    | none => rw [h7] at hag; exact absurd hag (by simp)
    | some s7 => exact ⟨s7, rfl⟩

/-- Witness of C19 at block size `2 ^ 3`, `WBITS = 15`, one full block and a last block of 3 bytes, on a payload of 13 bytes, which is room for every bit section and a literal for every byte. -/
theorem C19_decoded_length_witness :
    (3 ≤ 3) ∧
    ((0 : Int) ≤ (1 : Int)) ∧
    ((0 : Int) ≤ (3 : Int) ∧ (3 : Int) < 2 ^ 3) ∧
    ((∀ s, Lzpgt2.decompress_LZP 3 15 (1 : Int) (3 : Int) zero_table
        (init_get_buffer [0xF0, 1, 2, 3, 4, 0x05, 7, 0, 0, 0, 0, 0, 0]) init_put_buffer = some s →
      ((flush_put_buffer s.put).length : Int)
        = (1 : Int) * (PPP_BLOCKSIZE 3 : Nat) + (3 : Int)) ∧
    (∀ s, Lzpgt7.decompress_LZP 3 15 (1 : Int) (3 : Int) zero_table
        (init_get_buffer [0xF0, 1, 2, 3, 4, 0x05, 7, 0, 0, 0, 0, 0, 0]) init_put_buffer = some s →
      ((flush_put_buffer s.put).length : Int)
        = (1 : Int) * (PPP_BLOCKSIZE 3 : Nat) + (3 : Int)) ∧
    ((1 : Int).toNat * (PPP_BLOCKSIZE 3 / 8 + PPP_BLOCKSIZE 3)
        + (((3 : Int).toNat + 7) / 8 + (3 : Int).toNat) ≤ [0xF0, 1, 2, 3, 4, 0x05, 7, 0, 0, 0, 0, 0, 0].length →
      (∃ s, Lzpgt2.decompress_LZP 3 15 (1 : Int) (3 : Int) zero_table
        (init_get_buffer [0xF0, 1, 2, 3, 4, 0x05, 7, 0, 0, 0, 0, 0, 0]) init_put_buffer = some s) ∧
      (∃ s, Lzpgt7.decompress_LZP 3 15 (1 : Int) (3 : Int) zero_table
        (init_get_buffer [0xF0, 1, 2, 3, 4, 0x05, 7, 0, 0, 0, 0, 0, 0]) init_put_buffer = some s))) :=
  ⟨by decide, by decide, by decide,
    C19_decoded_length 3 15 (by decide) 1 3 (by decide) (by decide) zero_table [0xF0, 1, 2, 3, 4, 0x05, 7, 0, 0, 0, 0, 0, 0]⟩

/-- C20, as stated, fails at `W = 26`: after the six input bytes `1F` the
encoder's context is `2 ^ 26 - 1`, and on the next byte `FF` the
intermediate value `(prev<<5)+c` is `2 ^ 31 + 223`, which exceeds
`2 ^ 31 - 1`. -/
theorem C20_counterexample :
    (15 ≤ 26 ∧ 26 ≤ 30) ∧
    (encode_bytes 26 ⟨zero_table, 0, [], init_put_buffer, 0, 0⟩
      [0x1F, 0x1F, 0x1F, 0x1F, 0x1F, 0x1F]).prev = 2 ^ 26 - 1 ∧
    2 ^ 26 - 1 < 2 ^ 26 ∧ 0xFF < 256 ∧
    hash_sum (2 ^ 26 - 1) 0xFF = 2 ^ 31 + 223 ∧
    ¬ (hash_sum (2 ^ 26 - 1) 0xFF ≤ 2 ^ 31 - 1) := by
  decide

/-- C20, amended.  For every `15 ≤ WBITS ≤ 30`, every context
`prev < 2 ^ WBITS` and every byte `c`, the statement
`prev = ((prev<<5)+c) & ppp_WMASK` evaluated on 32-bit two's-complement
`int`s (`update_hash_int32`: shift and sum wrap around, `&` on the bit
patterns) gives `(prev * 32 + c) mod 2 ^ WBITS`, and so does the model's
`update_hash`.  Once `WBITS ≥ 27` the shift `prev<<5` exceeds `2 ^ 31 - 1`
for `prev = 2 ^ WBITS - 1`.  For `WBITS ≤ 26` the shift `prev<<5` never
exceeds `2 ^ 31 - 1`, and for `WBITS ≤ 25` neither does the sum
`(prev<<5)+c`. -/
theorem C20_wraparound_amended (WBITS prev c : Nat) (hW : 15 ≤ WBITS ∧ WBITS ≤ 30)
    (hprev : prev < 2 ^ WBITS) (hc : c < 256) :
    update_hash_int32 WBITS prev c = ((prev * 32 + c) % 2 ^ WBITS : Nat) ∧
    update_hash WBITS prev c = (prev * 32 + c) % 2 ^ WBITS ∧
    (27 ≤ WBITS → 2 ^ 31 - 1 < (2 ^ WBITS - 1) <<< 5) ∧
    (WBITS ≤ 26 → prev <<< 5 ≤ 2 ^ 31 - 1) ∧
    (WBITS ≤ 25 → hash_sum prev c ≤ 2 ^ 31 - 1) := by
  have h32 : WBITS ≤ 32 := by omega
  refine ⟨?_, update_hash_mod WBITS prev c h32, ?_, ?_, ?_⟩
  · rw [update_hash_int32_eq WBITS prev c h32, update_hash_mod WBITS prev c h32]
  · intro h
    have h1 : 2 ^ 27 ≤ 2 ^ WBITS := Nat.pow_le_pow_right (by decide) h
    rw [Nat.shiftLeft_eq]
    norm_num at h1 ⊢
    omega
  · intro h
    have h1 : 2 ^ WBITS ≤ 2 ^ 26 := Nat.pow_le_pow_right (by decide) h
    rw [Nat.shiftLeft_eq]
    norm_num at h1 ⊢
    omega
  · intro h
    have h1 : 2 ^ WBITS ≤ 2 ^ 25 := Nat.pow_le_pow_right (by decide) h
    simp only [hash_sum, Nat.shiftLeft_eq]
    norm_num at h1 ⊢
    omega

/-- Witness of the amended C20 at `WBITS = 20`, the context 5 and the byte `41`. -/
theorem C20_wraparound_amended_witness :
    (15 ≤ 20 ∧ 20 ≤ 30) ∧
    ((5 : Nat) < 2 ^ 20) ∧
    ((0x41 : Nat) < 256) ∧
    (update_hash_int32 20 (5 : Nat) (0x41 : Nat) = (((5 : Nat) * 32 + (0x41 : Nat)) % 2 ^ 20 : Nat) ∧
    update_hash 20 (5 : Nat) (0x41 : Nat) = ((5 : Nat) * 32 + (0x41 : Nat)) % 2 ^ 20 ∧
    (27 ≤ 20 → 2 ^ 31 - 1 < (2 ^ 20 - 1) <<< 5) ∧
    (20 ≤ 26 → (5 : Nat) <<< 5 ≤ 2 ^ 31 - 1) ∧
    (20 ≤ 25 → hash_sum (5 : Nat) (0x41 : Nat) ≤ 2 ^ 31 - 1)) :=
  ⟨by decide, by decide, by decide,
    C20_wraparound_amended 20 5 0x41 (by decide) (by decide) (by decide)⟩

/-- C21. Exact payload size and worst-case expansion: for every block size
`B = 2 ^ BB` with `BB ≥ 3`, every width and every input `X` of length `n`
with `m` mismatched bytes in total (`mismatches`: the positions at which the
encoder's prediction fails, which are as many as the literal bytes it writes
with `pfputc`, `payload_literals`), the payload that `compress_LZP` of
`lzpgt2.c` writes, and `compress_LZP` of `lzpgt7.c` writes the same, has
exactly `floor(n / B) * (B / 8) + ceil((n mod B) / 8) + m` bytes; `m ≤ n`,
so the payload has at most `n + ceil(n / 8)` bytes and at least
`ceil(n / 8)` bytes. -/
theorem C21_payload_size (BB WBITS : Nat) (hBB : 3 ≤ BB) (X : List Nat) :
    (Lzpgt2.payload BB WBITS X).length
      = X.length / PPP_BLOCKSIZE BB * (PPP_BLOCKSIZE BB / 8)
        + (X.length % PPP_BLOCKSIZE BB + 7) / 8 + Lzpgt2.mismatches BB WBITS X ∧
    Lzpgt7.payload BB WBITS X = Lzpgt2.payload BB WBITS X ∧
    Lzpgt2.payload_literals BB WBITS X = Lzpgt2.mismatches BB WBITS X ∧
    Lzpgt2.mismatches BB WBITS X ≤ X.length ∧
    (Lzpgt2.payload BB WBITS X).length ≤ X.length + (X.length + 7) / 8 ∧
    (X.length + 7) / 8 ≤ (Lzpgt2.payload BB WBITS X).length := by
  have hlen := Lzpgt2.payload_length BB WBITS hBB X
  have hle := Lzpgt2.mismatches_le BB WBITS X
  have hceil := bit_bytes_ceil (PPP_BLOCKSIZE BB) X.length (blocksize_mod8 BB hBB)
  obtain ⟨a1, _, _, _, _⟩ := Lzpgt7.compress_agree BB WBITS hBB zero_table X
  refine ⟨hlen, ?_, Lzpgt2.payload_literals_eq BB WBITS hBB X, hle, ?_, ?_⟩
  · unfold Lzpgt7.payload Lzpgt2.payload
    rw [a1]
  · rw [hlen, hceil]
    omega
  · rw [hlen, hceil]
    omega

/-- Witness of C21 at `PPP_BLOCKBITS = 15`, `WBITS = 20` and the input `00 41 41`. -/
theorem C21_payload_size_witness :
    (3 ≤ 15) ∧
    ((Lzpgt2.payload 15 20 [0x00, 0x41, 0x41]).length
      = [0x00, 0x41, 0x41].length / PPP_BLOCKSIZE 15 * (PPP_BLOCKSIZE 15 / 8)
        + ([0x00, 0x41, 0x41].length % PPP_BLOCKSIZE 15 + 7) / 8 + Lzpgt2.mismatches 15 20 [0x00, 0x41, 0x41] ∧
    Lzpgt7.payload 15 20 [0x00, 0x41, 0x41] = Lzpgt2.payload 15 20 [0x00, 0x41, 0x41] ∧
    Lzpgt2.payload_literals 15 20 [0x00, 0x41, 0x41] = Lzpgt2.mismatches 15 20 [0x00, 0x41, 0x41] ∧
    Lzpgt2.mismatches 15 20 [0x00, 0x41, 0x41] ≤ [0x00, 0x41, 0x41].length ∧
    (Lzpgt2.payload 15 20 [0x00, 0x41, 0x41]).length ≤ [0x00, 0x41, 0x41].length + ([0x00, 0x41, 0x41].length + 7) / 8 ∧
    ([0x00, 0x41, 0x41].length + 7) / 8 ≤ (Lzpgt2.payload 15 20 [0x00, 0x41, 0x41]).length) :=
  ⟨by decide,
    C21_payload_size 15 20 (by decide) [0x00, 0x41, 0x41]⟩

/-- C22. The decoder consumes the payload exactly: for every block size
`2 ^ BB` with `BB ≥ 3`, every `15 ≤ WBITS ≤ 30` and every input `X`, the
scalar decoder of `lzpgt2.c` and the bulk decoder of `lzpgt7.c`, decoding
the header and the payload that the encoder wrote for `X`, return with
nothing of the payload left to read and without a read past its end; with
any bytes `rest` after the payload they return with exactly `rest` left to
read, so what they read is the payload and nothing else; on every strict
prefix of the payload they read past the end, so every payload byte is
read; and in every state of the scalar decoder's run what is left to read is
a suffix of the payload: the bytes are taken from the front, each once.
The bulk decoder on its input buffer, with the refill statements of
`lzpgt7.c` and a buffer of any size, returns on the payload with the input
written back, the buffer empty (`gbuf = gbuf_end`) and the file at its end:
every read through the buffer took the next byte of the payload. -/
theorem C22_payload_consumed (BB WBITS : Nat) (hBB : 3 ≤ BB)
    (_hW : 15 ≤ WBITS ∧ WBITS ≤ 30) (X : List Nat) :
    (∃ s, Lzpgt2.decompress_LZP BB WBITS
        (Lzpgt2.compress_LZP BB WBITS zero_table init_put_buffer X).ppp_nblocks
        (Lzpgt2.compress_LZP BB WBITS zero_table init_put_buffer X).ppp_lastblocksize
        zero_table (init_get_buffer (Lzpgt2.payload BB WBITS X)) init_put_buffer = some s ∧
      s.get.gbuf = []) ∧
    (∃ s, Lzpgt7.decompress_LZP BB WBITS
        (Lzpgt7.compress_LZP BB WBITS zero_table init_put_buffer X).ppp_nblocks
        (Lzpgt7.compress_LZP BB WBITS zero_table init_put_buffer X).ppp_lastblocksize
        zero_table (init_get_buffer (Lzpgt7.payload BB WBITS X)) init_put_buffer = some s ∧
      s.get.gbuf = []) ∧
    (∀ rest : List Nat,
      (∃ s, Lzpgt2.decompress_LZP BB WBITS
          (Lzpgt2.compress_LZP BB WBITS zero_table init_put_buffer X).ppp_nblocks
          (Lzpgt2.compress_LZP BB WBITS zero_table init_put_buffer X).ppp_lastblocksize
          zero_table (init_get_buffer (Lzpgt2.payload BB WBITS X ++ rest)) init_put_buffer
            = some s ∧ s.get.gbuf = rest) ∧
      (∃ s, Lzpgt7.decompress_LZP BB WBITS
          (Lzpgt7.compress_LZP BB WBITS zero_table init_put_buffer X).ppp_nblocks
          (Lzpgt7.compress_LZP BB WBITS zero_table init_put_buffer X).ppp_lastblocksize
          zero_table (init_get_buffer (Lzpgt7.payload BB WBITS X ++ rest)) init_put_buffer
            = some s ∧ s.get.gbuf = rest)) ∧
    (∀ P e : List Nat, e ≠ [] → Lzpgt2.payload BB WBITS X = P ++ e →
      Lzpgt2.decompress_LZP BB WBITS
          (Lzpgt2.compress_LZP BB WBITS zero_table init_put_buffer X).ppp_nblocks
          (Lzpgt2.compress_LZP BB WBITS zero_table init_put_buffer X).ppp_lastblocksize
          zero_table (init_get_buffer P) init_put_buffer = none ∧
      Lzpgt7.decompress_LZP BB WBITS
          (Lzpgt7.compress_LZP BB WBITS zero_table init_put_buffer X).ppp_nblocks
          (Lzpgt7.compress_LZP BB WBITS zero_table init_put_buffer X).ppp_lastblocksize
          zero_table (init_get_buffer P) init_put_buffer = none) ∧
    (∀ t ∈ Lzpgt2.decompress_states BB WBITS
        (Lzpgt2.compress_LZP BB WBITS zero_table init_put_buffer X).ppp_nblocks
        (Lzpgt2.compress_LZP BB WBITS zero_table init_put_buffer X).ppp_lastblocksize
        zero_table (init_get_buffer (Lzpgt2.payload BB WBITS X)) init_put_buffer,
      t.get.gbuf <:+ Lzpgt2.payload BB WBITS X) ∧
    (∀ (gBUFSIZE : Nat) (mem : Nat → Nat), 0 < gBUFSIZE →
      ∃ s, Lzpgt7.Buffered.decompress_LZP gBUFSIZE BB WBITS
          (Lzpgt7.compress_LZP BB WBITS zero_table init_put_buffer X).ppp_nblocks
          (Lzpgt7.compress_LZP BB WBITS zero_table init_put_buffer X).ppp_lastblocksize
          zero_table (Lzpgt7.Buffered.init_get_buffer gBUFSIZE mem (Lzpgt7.payload BB WBITS X))
          init_put_buffer = some s ∧
        flush_put_buffer s.put = X ∧ s.get.gbuf = s.get.gbuf_end ∧ s.get.gIN = []) := by
  obtain ⟨a1, a2, a3, _, _⟩ := Lzpgt7.compress_agree BB WBITS hBB zero_table X
  have hpay7 : Lzpgt7.payload BB WBITS X = Lzpgt2.payload BB WBITS X := by
    unfold Lzpgt7.payload Lzpgt2.payload
    rw [a1]
  have hpay : Lzpgt2.payload BB WBITS X
      = (Lzpgt2.compress_LZP BB WBITS zero_table init_put_buffer X).put.out := by
    unfold Lzpgt2.payload
    rw [Lzpgt2.flush_compress BB WBITS hBB]
  have key : ∀ rest : List Nat,
      (∃ s, Lzpgt2.decompress_LZP BB WBITS
          (Lzpgt2.compress_LZP BB WBITS zero_table init_put_buffer X).ppp_nblocks
          (Lzpgt2.compress_LZP BB WBITS zero_table init_put_buffer X).ppp_lastblocksize
          zero_table (init_get_buffer (Lzpgt2.payload BB WBITS X ++ rest)) init_put_buffer
            = some s ∧ s.get.gbuf = rest) ∧
      (∃ s, Lzpgt7.decompress_LZP BB WBITS
          (Lzpgt7.compress_LZP BB WBITS zero_table init_put_buffer X).ppp_nblocks
          (Lzpgt7.compress_LZP BB WBITS zero_table init_put_buffer X).ppp_lastblocksize
          zero_table (init_get_buffer (Lzpgt7.payload BB WBITS X ++ rest)) init_put_buffer
            = some s ∧ s.get.gbuf = rest) := by
    intro rest
    obtain ⟨c1, hc1⟩ := Lzpgt2.decompress_compress BB WBITS hBB X zero_table rest
      init_put_buffer
    rw [← hpay] at hc1
    have h2 : Lzpgt2.decompress_LZP BB WBITS
          (Lzpgt2.compress_LZP BB WBITS zero_table init_put_buffer X).ppp_nblocks
          (Lzpgt2.compress_LZP BB WBITS zero_table init_put_buffer X).ppp_lastblocksize
          zero_table (init_get_buffer (Lzpgt2.payload BB WBITS X ++ rest)) init_put_buffer
        = some ⟨table_after WBITS zero_table 0 X, hash_after WBITS 0 X, c1, ⟨rest, 0⟩,
            ⟨init_put_buffer.out ++ X, init_put_buffer.cur, init_put_buffer.p_cnt⟩⟩ := hc1
    refine ⟨⟨_, h2, rfl⟩, ?_⟩
    have hag := Lzpgt7.decompress_agree BB WBITS hBB
      (Lzpgt2.compress_LZP BB WBITS zero_table init_put_buffer X).ppp_nblocks
      (Lzpgt2.compress_LZP BB WBITS zero_table init_put_buffer X).ppp_lastblocksize
      zero_table (Lzpgt2.payload BB WBITS X ++ rest) init_put_buffer
    rw [a2, a3, hpay7]
    change Lzpgt2.decompress_LZP BB WBITS _ _ zero_table
      ⟨Lzpgt2.payload BB WBITS X ++ rest, 0⟩ init_put_buffer = _ at h2
    rw [h2] at hag
    change ∃ s, Lzpgt7.decompress_LZP BB WBITS _ _ zero_table
      ⟨Lzpgt2.payload BB WBITS X ++ rest, 0⟩ init_put_buffer = some s ∧ s.get.gbuf = rest
    cases h7 : Lzpgt7.decompress_LZP BB WBITS
        (Lzpgt2.compress_LZP BB WBITS zero_table init_put_buffer X).ppp_nblocks
        (Lzpgt2.compress_LZP BB WBITS zero_table init_put_buffer X).ppp_lastblocksize
        zero_table ⟨Lzpgt2.payload BB WBITS X ++ rest, 0⟩ init_put_buffer with
    | none => rw [h7] at hag; exact absurd hag (by simp)
    | some s7 =>
      rw [h7] at hag
      simp only [Option.map_some', Option.some.injEq, DecState.view, Prod.mk.injEq] at hag
      exact ⟨s7, rfl, hag.2.2.2.1⟩
  have k0 := key []
  rw [List.append_nil, List.append_nil] at k0
  refine ⟨k0.1, k0.2, key, ?_, Lzpgt2.decompress_states_suffix BB WBITS _ _ _ _ _, ?_⟩
  swap
  · intro gBUFSIZE mem hpos
    obtain ⟨c1, hc1⟩ := Lzpgt2.decompress_compress BB WBITS hBB X zero_table []
      init_put_buffer
    rw [List.append_nil, ← hpay] at hc1
    have hag := Lzpgt7.decompress_agree BB WBITS hBB
      (Lzpgt2.compress_LZP BB WBITS zero_table init_put_buffer X).ppp_nblocks
      (Lzpgt2.compress_LZP BB WBITS zero_table init_put_buffer X).ppp_lastblocksize
      zero_table (Lzpgt2.payload BB WBITS X) init_put_buffer
    rw [hc1] at hag
    rw [a2, a3, hpay7]
    cases h7 : Lzpgt7.decompress_LZP BB WBITS
        (Lzpgt2.compress_LZP BB WBITS zero_table init_put_buffer X).ppp_nblocks
        (Lzpgt2.compress_LZP BB WBITS zero_table init_put_buffer X).ppp_lastblocksize
        zero_table ⟨Lzpgt2.payload BB WBITS X, 0⟩ init_put_buffer with
    | none => rw [h7] at hag; exact absurd hag (by simp)
    | some s7 =>
      rw [h7] at hag
      simp only [Option.map_some', Option.some.injEq, DecState.view, Prod.mk.injEq] at hag
      obtain ⟨s1, e1, ok1, ab1⟩ := Lzpgt7.Buffered.decompress_sim gBUFSIZE BB WBITS hpos _ _
        zero_table mem (Lzpgt2.payload BB WBITS X) init_put_buffer s7 h7
      have hput : s1.put = s7.put := by rw [← ab1]; rfl
      have hpend : s1.get.pending = s7.get.gbuf := by rw [← ab1]; rfl
      rw [hag.2.2.2.1] at hpend
      unfold Lzpgt7.Buffered.GIn.pending at hpend
      have hl := congrArg List.length hpend
      simp only [List.length_append, List.length_map, List.length_range, List.length_nil]
        at hl
      have hin : s1.get.gIN = [] := List.length_eq_zero.mp (by omega)
      refine ⟨s1, e1, ?_, ?_, hin⟩
      · rw [hput, hag.2.2.2.2]
        simp [flush_put_buffer, init_put_buffer]
      · rcases ok1.2 with hc | ⟨hc, _⟩
        · omega
        · exact hc
  intro P e he hP
  have h2 := Lzpgt2.decompress_prefix BB WBITS hBB X P e he hP
  refine ⟨h2, ?_⟩
  have hag := Lzpgt7.decompress_agree BB WBITS hBB
    (Lzpgt2.compress_LZP BB WBITS zero_table init_put_buffer X).ppp_nblocks
    (Lzpgt2.compress_LZP BB WBITS zero_table init_put_buffer X).ppp_lastblocksize
    zero_table P init_put_buffer
  change Lzpgt2.decompress_LZP BB WBITS _ _ zero_table ⟨P, 0⟩ init_put_buffer = none at h2
  rw [h2] at hag
  rw [a2, a3]
  change Lzpgt7.decompress_LZP BB WBITS _ _ zero_table ⟨P, 0⟩ init_put_buffer = none
  cases h7 : Lzpgt7.decompress_LZP BB WBITS
      (Lzpgt2.compress_LZP BB WBITS zero_table init_put_buffer X).ppp_nblocks
      (Lzpgt2.compress_LZP BB WBITS zero_table init_put_buffer X).ppp_lastblocksize
      zero_table ⟨P, 0⟩ init_put_buffer with
  | none => rfl
  | some s7 => rw [h7] at hag; exact absurd hag (by simp)

/-- Witness of C22 at `PPP_BLOCKBITS = 15`, `WBITS = 20` and the input `00 41 41`. -/
theorem C22_payload_consumed_witness :
    (3 ≤ 15) ∧
    (15 ≤ 20 ∧ 20 ≤ 30) ∧
    ((∃ s, Lzpgt2.decompress_LZP 15 20
        (Lzpgt2.compress_LZP 15 20 zero_table init_put_buffer [0x00, 0x41, 0x41]).ppp_nblocks
        (Lzpgt2.compress_LZP 15 20 zero_table init_put_buffer [0x00, 0x41, 0x41]).ppp_lastblocksize
        zero_table (init_get_buffer (Lzpgt2.payload 15 20 [0x00, 0x41, 0x41])) init_put_buffer = some s ∧
      s.get.gbuf = []) ∧
    (∃ s, Lzpgt7.decompress_LZP 15 20
        (Lzpgt7.compress_LZP 15 20 zero_table init_put_buffer [0x00, 0x41, 0x41]).ppp_nblocks
        (Lzpgt7.compress_LZP 15 20 zero_table init_put_buffer [0x00, 0x41, 0x41]).ppp_lastblocksize
        zero_table (init_get_buffer (Lzpgt7.payload 15 20 [0x00, 0x41, 0x41])) init_put_buffer = some s ∧
      s.get.gbuf = []) ∧
    (∀ rest : List Nat,
      (∃ s, Lzpgt2.decompress_LZP 15 20
          (Lzpgt2.compress_LZP 15 20 zero_table init_put_buffer [0x00, 0x41, 0x41]).ppp_nblocks
          (Lzpgt2.compress_LZP 15 20 zero_table init_put_buffer [0x00, 0x41, 0x41]).ppp_lastblocksize
          zero_table (init_get_buffer (Lzpgt2.payload 15 20 [0x00, 0x41, 0x41] ++ rest)) init_put_buffer
            = some s ∧ s.get.gbuf = rest) ∧
      (∃ s, Lzpgt7.decompress_LZP 15 20
          (Lzpgt7.compress_LZP 15 20 zero_table init_put_buffer [0x00, 0x41, 0x41]).ppp_nblocks
          (Lzpgt7.compress_LZP 15 20 zero_table init_put_buffer [0x00, 0x41, 0x41]).ppp_lastblocksize
          zero_table (init_get_buffer (Lzpgt7.payload 15 20 [0x00, 0x41, 0x41] ++ rest)) init_put_buffer
            = some s ∧ s.get.gbuf = rest)) ∧
    (∀ P e : List Nat, e ≠ [] → Lzpgt2.payload 15 20 [0x00, 0x41, 0x41] = P ++ e →
      Lzpgt2.decompress_LZP 15 20
          (Lzpgt2.compress_LZP 15 20 zero_table init_put_buffer [0x00, 0x41, 0x41]).ppp_nblocks
          (Lzpgt2.compress_LZP 15 20 zero_table init_put_buffer [0x00, 0x41, 0x41]).ppp_lastblocksize
          zero_table (init_get_buffer P) init_put_buffer = none ∧
      Lzpgt7.decompress_LZP 15 20
          (Lzpgt7.compress_LZP 15 20 zero_table init_put_buffer [0x00, 0x41, 0x41]).ppp_nblocks
          (Lzpgt7.compress_LZP 15 20 zero_table init_put_buffer [0x00, 0x41, 0x41]).ppp_lastblocksize
          zero_table (init_get_buffer P) init_put_buffer = none) ∧
    (∀ t ∈ Lzpgt2.decompress_states 15 20
        (Lzpgt2.compress_LZP 15 20 zero_table init_put_buffer [0x00, 0x41, 0x41]).ppp_nblocks
        (Lzpgt2.compress_LZP 15 20 zero_table init_put_buffer [0x00, 0x41, 0x41]).ppp_lastblocksize
        zero_table (init_get_buffer (Lzpgt2.payload 15 20 [0x00, 0x41, 0x41])) init_put_buffer,
      t.get.gbuf <:+ Lzpgt2.payload 15 20 [0x00, 0x41, 0x41]) ∧
    (∀ (gBUFSIZE : Nat) (mem : Nat → Nat), 0 < gBUFSIZE →
      ∃ s, Lzpgt7.Buffered.decompress_LZP gBUFSIZE 15 20
          (Lzpgt7.compress_LZP 15 20 zero_table init_put_buffer [0x00, 0x41, 0x41]).ppp_nblocks
          (Lzpgt7.compress_LZP 15 20 zero_table init_put_buffer [0x00, 0x41, 0x41]).ppp_lastblocksize
          zero_table (Lzpgt7.Buffered.init_get_buffer gBUFSIZE mem (Lzpgt7.payload 15 20 [0x00, 0x41, 0x41]))
          init_put_buffer = some s ∧
        flush_put_buffer s.put = [0x00, 0x41, 0x41] ∧ s.get.gbuf = s.get.gbuf_end ∧ s.get.gIN = [])) :=
  ⟨by decide, by decide,
    C22_payload_consumed 15 20 (by decide) (by decide) [0x00, 0x41, 0x41]⟩

/-- C23. Non-positive header counts decode to nothing: for every header with
`ppp_nblocks ≤ 0` and `ppp_lastblocksize ≤ 0` (negative values included),
every table, every input stream and every output stream, `decompress_LZP`
returns in the state it started in: nothing is written to the output and
nothing is read from the payload.  This holds for the scalar decoder
(`lzpgt.c`, `lzpgt2.c`), for the bulk decoder (`lzpgt6.c`, `lzpgt7.c`) and
for the bulk decoder on its input buffer.  For `ppp_nblocks = k > 0` (an
`int64_t`, so `k < 2 ^ 63`) the loop `while ( ppp_nblocks-- )` runs its body
exactly `k` times, leaves the counter at -1 and computes `decode_blocks k`,
which is the first phase of `decompress_LZP` in the model. -/
theorem C23_nonpositive_counts (BB WBITS : Nat) (ppp_nblocks ppp_lastblocksize : Int)
    (hn : ppp_nblocks ≤ 0) (hL : ppp_lastblocksize ≤ 0) (w : Nat → Nat) (get : GetBuf)
    (put : PutBuf) :
    Lzpgt2.decompress_LZP BB WBITS ppp_nblocks ppp_lastblocksize w get put
      = some ⟨w, 0, 0, get, put⟩ ∧
    Lzpgt7.decompress_LZP BB WBITS ppp_nblocks ppp_lastblocksize w get put
      = some ⟨w, 0, 0, get, put⟩ ∧
    (∀ (gBUFSIZE : Nat) (g : Lzpgt7.Buffered.GIn),
      Lzpgt7.Buffered.decompress_LZP gBUFSIZE BB WBITS ppp_nblocks ppp_lastblocksize w g put
        = some ⟨w, 0, 0, g, put⟩) ∧
    (∀ (k fuel : Nat) (s : DecState), 0 < k → (k : Int) < 2 ^ 63 → k + 1 ≤ fuel →
      while_nblocks (Lzpgt2.decode_block BB WBITS) fuel k 0 (some s)
        = some (-1, k, Lzpgt2.decode_blocks BB WBITS k s) ∧
      while_nblocks (Lzpgt7.decode_block BB WBITS) fuel k 0 (some s)
        = some (-1, k, Lzpgt7.decode_blocks BB WBITS k s)) ∧
    (∀ (k L : Int) (w1 : Nat → Nat) (g : GetBuf) (p : PutBuf), 0 < k →
      Lzpgt2.decompress_LZP BB WBITS k L w1 g p
        = (Lzpgt2.decode_blocks BB WBITS k.toNat ⟨w1, 0, 0, g, p⟩).bind
            (Lzpgt2.decode_last WBITS L) ∧
      Lzpgt7.decompress_LZP BB WBITS k L w1 g p
        = (Lzpgt7.decode_blocks BB WBITS k.toNat ⟨w1, 0, 0, g, p⟩).bind
            (Lzpgt7.decode_last WBITS L)) := by
  have hn' : ¬ (0 < ppp_nblocks) := not_lt.mpr hn
  have hL' : ¬ (0 < ppp_lastblocksize) := not_lt.mpr hL
  refine ⟨?_, ?_, ?_, ?_, ?_⟩
  · simp only [Lzpgt2.decompress_LZP, if_neg hn', Lzpgt2.decode_last, if_neg hL']
  · simp only [Lzpgt7.decompress_LZP, if_neg hn', Lzpgt7.decode_last, if_neg hL']
  · intro gBUFSIZE g
    simp only [Lzpgt7.Buffered.decompress_LZP, if_neg hn', Lzpgt7.Buffered.decode_last,
      if_neg hL']
  · intro k fuel s _ hk hf
    constructor
    · rw [while_nblocks_eq _ k fuel 0 (some s) hk hf, Lzpgt2.decode_blocks_iterate,
        Nat.zero_add]
      rfl
    · rw [while_nblocks_eq _ k fuel 0 (some s) hk hf, Lzpgt7.decode_blocks_iterate7,
        Nat.zero_add]
      rfl
  · intro k L w1 g p hk
    constructor
    · simp only [Lzpgt2.decompress_LZP, if_pos hk]
      cases h : Lzpgt2.decode_blocks BB WBITS k.toNat ⟨w1, 0, 0, g, p⟩ <;> rfl
    · simp only [Lzpgt7.decompress_LZP, if_pos hk]
      cases h : Lzpgt7.decode_blocks BB WBITS k.toNat ⟨w1, 0, 0, g, p⟩ <;> rfl

/-- Witness of C23 at `PPP_BLOCKBITS = 15`, `WBITS = 20`, the header counters -3 and -1, the zero table and the payload `01 41`. -/
theorem C23_nonpositive_counts_witness :
    ((-3 : Int) ≤ 0) ∧
    ((-1 : Int) ≤ 0) ∧
    (Lzpgt2.decompress_LZP 15 20 (-3 : Int) (-1 : Int) zero_table (init_get_buffer [0x01, 0x41]) init_put_buffer
      = some ⟨zero_table, 0, 0, (init_get_buffer [0x01, 0x41]), init_put_buffer⟩ ∧
    Lzpgt7.decompress_LZP 15 20 (-3 : Int) (-1 : Int) zero_table (init_get_buffer [0x01, 0x41]) init_put_buffer
      = some ⟨zero_table, 0, 0, (init_get_buffer [0x01, 0x41]), init_put_buffer⟩ ∧
    (∀ (gBUFSIZE : Nat) (g : Lzpgt7.Buffered.GIn),
      Lzpgt7.Buffered.decompress_LZP gBUFSIZE 15 20 (-3 : Int) (-1 : Int) zero_table g init_put_buffer
        = some ⟨zero_table, 0, 0, g, init_put_buffer⟩) ∧
    (∀ (k fuel : Nat) (s : DecState), 0 < k → (k : Int) < 2 ^ 63 → k + 1 ≤ fuel →
      while_nblocks (Lzpgt2.decode_block 15 20) fuel k 0 (some s)
        = some (-1, k, Lzpgt2.decode_blocks 15 20 k s) ∧
      while_nblocks (Lzpgt7.decode_block 15 20) fuel k 0 (some s)
        = some (-1, k, Lzpgt7.decode_blocks 15 20 k s)) ∧
    (∀ (k L : Int) (w1 : Nat → Nat) (g : GetBuf) (p : PutBuf), 0 < k →
      Lzpgt2.decompress_LZP 15 20 k L w1 g p
        = (Lzpgt2.decode_blocks 15 20 k.toNat ⟨w1, 0, 0, g, p⟩).bind
            (Lzpgt2.decode_last 20 L) ∧
      Lzpgt7.decompress_LZP 15 20 k L w1 g p
        = (Lzpgt7.decode_blocks 15 20 k.toNat ⟨w1, 0, 0, g, p⟩).bind
            (Lzpgt7.decode_last 20 L))) :=
  ⟨by decide, by decide,
    C23_nonpositive_counts 15 20 (-3) (-1) (by decide) (by decide) zero_table (init_get_buffer [0x01, 0x41]) init_put_buffer⟩
